import Mathlib

/-!
# Pintos user-process loader, argument passing and exit/wait protocol

A shallow embedding of `src/userprog/process.c`.

* `uint32_t` values (`Elf32_Word`, `Elf32_Addr`, `Elf32_Off`, `size_t`, pointers) are natural
  numbers below `2 ^ 32`; every arithmetic step that can leave that range is wrapped by `u32`
  or `sub32`.
* `off_t` and `int` values are integers; a value converted to `off_t` goes through `to_int32`.
* Loops whose termination depends on their arguments take a fuel argument and report
  `Run.timeout` when it is used up.
-/

namespace Pintos

set_option maxRecDepth 8192

/-! ## Machine arithmetic and constants -/

/-- Modelled from the spec: `threads/vaddr.h` is not among the sources; a page of the i386
two-level page table has `1 << 12` bytes. -/
def PGSIZE : Nat := 4096

/-- Modelled from the spec: `threads/vaddr.h` is not among the sources; `PGMASK` is the mask of
the offset bits of an address, `PGSIZE - 1`. -/
def PGMASK : Nat := 4095

/-- Modelled from the spec: `threads/vaddr.h` is not among the sources; user virtual memory
ends at `PHYS_BASE`, which the loader of Pintos places at 3 GB. -/
def PHYS_BASE : Nat := 3221225472

/-- Modelled from the spec: `userprog/process.h` is not among the sources; `WORD_SIZE` is the
size of a stack word of the i386, 4 bytes, which is also `sizeof (char *)`. -/
def WORD_SIZE : Nat := 4

/-- Reduction of a natural number to a `uint32_t`. -/
def u32 (n : Nat) : Nat := n % 4294967296

/-- Subtraction of `uint32_t` values, which wraps below zero. -/
def sub32 (a b : Nat) : Nat := (a + (4294967296 - b % 4294967296)) % 4294967296

/-- Conversion of an integer to a 32-bit two's complement `int` / `off_t`. -/
def to_int32 (n : Int) : Int := (n + 2147483648) % 4294967296 - 2147483648

/-- The bit pattern `~PGMASK` as a `uint32_t`. -/
def NOT_PGMASK : Nat := 4294967295 - PGMASK

/-- Modelled from the spec: `lib/round.h` is not among the sources; `ROUND_UP (X, STEP)` is
`((X) + (STEP) - 1) / (STEP) * (STEP)`, here on unbounded naturals. -/
def ROUND_UP (X STEP : Nat) : Nat := (X + STEP - 1) / STEP * STEP

/-- `ROUND_UP (X, PGSIZE)` evaluated in `uint32_t` arithmetic, as in `load`. -/
def ROUND_UP_u32 (X : Nat) : Nat := u32 (u32 (X + PGSIZE - 1) / PGSIZE * PGSIZE)

/-- Modelled from the spec: `threads/vaddr.h` is not among the sources; a user virtual address
is one below `PHYS_BASE`. -/
def is_user_vaddr (vaddr : Nat) : Bool := decide (vaddr < PHYS_BASE)

/-- Outcome of running a piece of kernel code in the model. -/
inductive Run (α : Type) where
  | done (a : α)
  | panic
  | timeout
  deriving DecidableEq, Repr

/-! ## ELF structures and files -/

/-- Program header, `struct Elf32_Phdr`; every field is a 32-bit word. -/
structure Elf32_Phdr where
  p_type : Nat
  p_offset : Nat
  p_vaddr : Nat
  p_paddr : Nat
  p_filesz : Nat
  p_memsz : Nat
  p_flags : Nat
  p_align : Nat
  deriving DecidableEq, Repr

/-- All fields of a program header are 32-bit words. -/
def Elf32_Phdr.wf (p : Elf32_Phdr) : Prop :=
  p.p_type < 4294967296 ∧ p.p_offset < 4294967296 ∧ p.p_vaddr < 4294967296 ∧
  p.p_paddr < 4294967296 ∧ p.p_filesz < 4294967296 ∧ p.p_memsz < 4294967296 ∧
  p.p_flags < 4294967296 ∧ p.p_align < 4294967296

instance (p : Elf32_Phdr) : Decidable p.wf := by unfold Elf32_Phdr.wf; infer_instance

/-- An open file: a handle number and the bytes of the file. -/
structure File where
  handle : Nat
  data : List Nat
  deriving DecidableEq, Repr

/-- The length of a file as an `off_t`. -/
def file_length (f : File) : Int := f.data.length

def PT_NULL : Nat := 0
def PT_LOAD : Nat := 1
def PT_DYNAMIC : Nat := 2
def PT_INTERP : Nat := 3
def PT_NOTE : Nat := 4
def PT_SHLIB : Nat := 5
def PT_PHDR : Nat := 6
def PT_STACK : Nat := 1685382481
def PF_W : Nat := 2

/-! ## `validate_segment` -/

/-- Checks whether `phdr` describes a valid, loadable segment in `file`
(`validate_segment`, process.c 442-483). -/
def validate_segment (phdr : Elf32_Phdr) (file : File) : Bool :=
  if (phdr.p_offset &&& PGMASK) ≠ (phdr.p_vaddr &&& PGMASK) then false
  else if phdr.p_offset > (file_length file % 4294967296).toNat then false
  else if phdr.p_memsz < phdr.p_filesz then false
  else if phdr.p_memsz = 0 then false
  else if !is_user_vaddr phdr.p_vaddr then false
  else if !is_user_vaddr (u32 (phdr.p_vaddr + phdr.p_memsz)) then false
  else if u32 (phdr.p_vaddr + phdr.p_memsz) < phdr.p_vaddr then false
  else if phdr.p_vaddr < PGSIZE then false
  else true

/-! ## `load_segment` -/

/-- The `file_meta` backing descriptor of `union daddr`. -/
structure file_meta where
  file : Nat
  offset : Int
  read_bytes : Nat
  deriving DecidableEq, Repr

/-- A supplemental page table entry as `load_segment` registers it: the user page whose page
table entry is the key, whether `PTE_W` was set, and the descriptor. -/
structure spt_entry where
  upage : Nat
  writable : Bool
  daddr : file_meta
  deriving DecidableEq, Repr

/-- The allocations `load_segment` depends on: whether `lookup_page (pagedir, upage, true)`
returns a page table entry, and whether `spt_insert` succeeds for it. -/
structure Alloc where
  lookup_page : Nat → Bool
  spt_insert : Nat → Bool

/-- The `while` loop of `load_segment` (process.c 509-543); the result is the return value and
the entries inserted, first page first. -/
def load_segment_loop (al : Alloc) (file : Nat) (writable : Bool) :
    Nat → Int → Nat → Nat → Nat → Run (Bool × List spt_entry)
  | 0, _, _, _, _ => Run.timeout
  | fuel + 1, ofs, upage, read_bytes, zero_bytes =>
    if read_bytes > 0 ∨ zero_bytes > 0 then
      let page_read_bytes := if read_bytes < PGSIZE then read_bytes else PGSIZE
      let page_zero_bytes := PGSIZE - page_read_bytes
      if !al.lookup_page upage then Run.done (false, [])
      else if !al.spt_insert upage then Run.done (false, [])
      else
        let e : spt_entry := ⟨upage, writable, ⟨file, ofs, page_read_bytes⟩⟩
        match load_segment_loop al file writable fuel (to_int32 (ofs + page_read_bytes))
            (u32 (upage + PGSIZE)) (sub32 read_bytes page_read_bytes)
            (sub32 zero_bytes page_zero_bytes) with
        | Run.done (r, l) => Run.done (r, e :: l)
        | Run.panic => Run.panic
        | Run.timeout => Run.timeout
    else Run.done (true, [])

/-- Loads a segment (`load_segment`, process.c 499-545): the three assertions, then the loop. -/
def load_segment (al : Alloc) (fuel : Nat) (file : Nat) (ofs : Int) (upage : Nat)
    (read_bytes zero_bytes : Nat) (writable : Bool) : Run (Bool × List spt_entry) :=
  if u32 (read_bytes + zero_bytes) % PGSIZE ≠ 0 then Run.panic
  else if (upage &&& PGMASK) ≠ 0 then Run.panic
  else if ofs % (PGSIZE : Int) ≠ 0 then Run.panic
  else load_segment_loop al file writable fuel ofs upage read_bytes zero_bytes

/-- The `PT_LOAD` case of the program header loop of `load` (process.c 387-416), for a header
that `validate_segment` accepted: the arguments computed for `load_segment` and the call. -/
def load_PT_LOAD (al : Alloc) (fuel : Nat) (file : File) (phdr : Elf32_Phdr) :
    Run (Bool × List spt_entry) :=
  let writable := (phdr.p_flags &&& PF_W) ≠ 0
  let file_page := phdr.p_offset &&& NOT_PGMASK
  let mem_page := phdr.p_vaddr &&& NOT_PGMASK
  let page_offset := phdr.p_vaddr &&& PGMASK
  let read_bytes := if phdr.p_filesz > 0 then u32 (page_offset + phdr.p_filesz) else 0
  let zero_bytes :=
    if phdr.p_filesz > 0 then sub32 (ROUND_UP_u32 (u32 (page_offset + phdr.p_memsz))) read_bytes
    else ROUND_UP_u32 (u32 (page_offset + phdr.p_memsz))
  load_segment al fuel file.handle (to_int32 file_page) mem_page read_bytes zero_bytes writable

/-- The page descriptor that iteration `k` of the loop of `load_segment` registers, in terms
of the arguments of the call. -/
def page_entry (file : Nat) (writable : Bool) (ofs : Int) (upage r k : Nat) : spt_entry :=
  ⟨u32 (upage + k * 4096), writable,
    ⟨file, to_int32 (ofs + min (k * 4096) r), min (r - k * 4096) 4096⟩⟩

/-- Every page table lookup and supplemental page table insertion succeeds. -/
def Alloc.always : Alloc := ⟨fun _ => true, fun _ => true⟩

/-! ## `load` -/

/-- Executable header, `struct Elf32_Ehdr`. -/
structure Elf32_Ehdr where
  e_ident : List Nat
  e_type : Nat
  e_machine : Nat
  e_version : Nat
  e_entry : Nat
  e_phoff : Nat
  e_shoff : Nat
  e_flags : Nat
  e_ehsize : Nat
  e_phentsize : Nat
  e_phnum : Nat
  e_shentsize : Nat
  e_shnum : Nat
  e_shstrndx : Nat
  deriving DecidableEq, Repr

/-- `sizeof (struct Elf32_Ehdr)`: 16 bytes of `e_ident`, eight half words and five words. -/
def sizeof_Elf32_Ehdr : Nat := 52

/-- `sizeof (struct Elf32_Phdr)`: eight words. -/
def sizeof_Elf32_Phdr : Nat := 32

/-- The little-endian half word at index `i` of a byte buffer. -/
def le16 (bs : List Nat) (i : Nat) : Nat := bs.getD i 0 + 256 * bs.getD (i + 1) 0

/-- The little-endian word at index `i` of a byte buffer. -/
def le32 (bs : List Nat) (i : Nat) : Nat :=
  bs.getD i 0 + 256 * bs.getD (i + 1) 0 + 65536 * bs.getD (i + 2) 0
    + 16777216 * bs.getD (i + 3) 0

/-- The `struct Elf32_Ehdr` that a buffer of `sizeof_Elf32_Ehdr` bytes holds on the i386. -/
def decode_ehdr (bs : List Nat) : Elf32_Ehdr :=
  { e_ident := bs.take 16, e_type := le16 bs 16, e_machine := le16 bs 18,
    e_version := le32 bs 20, e_entry := le32 bs 24, e_phoff := le32 bs 28,
    e_shoff := le32 bs 32, e_flags := le32 bs 36, e_ehsize := le16 bs 40,
    e_phentsize := le16 bs 42, e_phnum := le16 bs 44, e_shentsize := le16 bs 46,
    e_shnum := le16 bs 48, e_shstrndx := le16 bs 50 }

/-- The `struct Elf32_Phdr` that a buffer of `sizeof_Elf32_Phdr` bytes holds on the i386. -/
def decode_phdr (bs : List Nat) : Elf32_Phdr :=
  { p_type := le32 bs 0, p_offset := le32 bs 4, p_vaddr := le32 bs 8, p_paddr := le32 bs 12,
    p_filesz := le32 bs 16, p_memsz := le32 bs 20, p_flags := le32 bs 24,
    p_align := le32 bs 28 }

/-- The bytes `file_read` delivers for a read of `size` bytes at position `pos`; the number of
bytes read is the length of the result. -/
def file_read (file : File) (pos : Nat) (size : Nat) : List Nat := (file.data.drop pos).take size

/-- The string `"\177ELF\1\1\1"` that `load` compares `e_ident` with. -/
def ELF_MAGIC : List Nat := [127, 69, 76, 70, 1, 1, 1]

/-- `memcmp (a, b, n) != 0` for buffers of at least `n` bytes. -/
def memcmp_ne (a b : List Nat) (n : Nat) : Bool := decide (a.take n ≠ b.take n)

/-- Operations of `load` on the executable file, in the order they happen. -/
inductive FileOp where
  | read_ehdr
  | seek (pos : Int)
  | read_phdr
  | close (handle : Nat)
  deriving DecidableEq, Repr

/-- Lines printed on the console. -/
inductive Msg where
  | open_failed (file_name : List Nat)
  | error_loading (file_name : List Nat)
  | exit_line (name : List Nat) (exit_value : Int)
  deriving DecidableEq, Repr

/-- What `load` depends on outside process.c: whether `pagedir_create` returns a page
directory, what `filesys_open` returns for a name, the allocations of `load_segment`, and
whether `setup_stack` succeeds. -/
structure Env where
  pagedir_create : Bool
  filesys_open : List Nat → Option File
  alloc : Alloc
  setup_stack : Bool

/-- The effects of `load` that the program header loop accumulates. -/
structure LoadState where
  spt : List spt_entry
  log : List FileOp
  deriving DecidableEq, Repr

/-- The result of `load`: its return value, the values stored through `eip` and `esp`, the
supplemental page table entries registered, the file `filesys_open` returned, the file
operations performed and the lines printed. -/
structure LoadResult where
  success : Bool
  eip : Option Nat
  esp : Option Nat
  spt : List spt_entry
  file : Option File
  log : List FileOp
  console : List Msg
  deriving DecidableEq, Repr

/-- The condition under which `load` prints "error loading executable" and gives up
(process.c 349-355), on the file just opened. -/
def ehdr_rejected (file : File) : Bool :=
  let buf := file_read file 0 sizeof_Elf32_Ehdr
  let ehdr := decode_ehdr buf
  decide (buf.length ≠ sizeof_Elf32_Ehdr)
    || memcmp_ne ehdr.e_ident ELF_MAGIC 7
    || decide (ehdr.e_type ≠ 2)
    || decide (ehdr.e_machine ≠ 3)
    || decide (ehdr.e_version ≠ 1)
    || decide (ehdr.e_phentsize ≠ sizeof_Elf32_Phdr)
    || decide (ehdr.e_phnum > 1024)

/-- The program header loop of `load` (process.c 363-418) with `n` headers left to read; the
Boolean tells whether the loop ran to its end (`true`) or left through `goto done`. -/
def load_phdrs (al : Alloc) (fuel : Nat) (file : File) :
    Nat → Int → LoadState → Run (Bool × LoadState)
  | 0, _, st => Run.done (true, st)
  | n + 1, file_ofs, st =>
    if file_ofs < 0 ∨ file_ofs > file_length file then Run.done (false, st)
    else
      let buf := file_read file file_ofs.toNat sizeof_Elf32_Phdr
      let st1 : LoadState := ⟨st.spt, st.log ++ [FileOp.seek file_ofs, FileOp.read_phdr]⟩
      if buf.length ≠ sizeof_Elf32_Phdr then Run.done (false, st1)
      else
        let phdr := decode_phdr buf
        let file_ofs1 := to_int32 (file_ofs + sizeof_Elf32_Phdr)
        if phdr.p_type = PT_DYNAMIC ∨ phdr.p_type = PT_INTERP ∨ phdr.p_type = PT_SHLIB then
          Run.done (false, st1)
        else if phdr.p_type = PT_LOAD then
          if validate_segment phdr file then
            match load_PT_LOAD al fuel file phdr with
            | Run.done (true, l) => load_phdrs al fuel file n file_ofs1 ⟨st1.spt ++ l, st1.log⟩
            | Run.done (false, l) => Run.done (false, ⟨st1.spt ++ l, st1.log⟩)
            | Run.panic => Run.panic
            | Run.timeout => Run.timeout
          else Run.done (false, st1)
        else load_phdrs al fuel file n file_ofs1 st1

/-- Loads an ELF executable (`load`, process.c 322-434). The page directory, the file system
lock and the activation of the address space are left out; `file_close` at `done` is logged
whenever a file was opened. -/
def load (env : Env) (fuel : Nat) (file_name : List Nat) : Run LoadResult :=
  if !env.pagedir_create then
    Run.done ⟨false, none, none, [], none, [], []⟩
  else
    match env.filesys_open file_name with
    | none => Run.done ⟨false, none, none, [], none, [], [Msg.open_failed file_name]⟩
    | some file =>
      if ehdr_rejected file then
        Run.done ⟨false, none, none, [], some file,
          [FileOp.read_ehdr, FileOp.close file.handle], [Msg.error_loading file_name]⟩
      else
        let ehdr := decode_ehdr (file_read file 0 sizeof_Elf32_Ehdr)
        match load_phdrs env.alloc fuel file ehdr.e_phnum (to_int32 ehdr.e_phoff)
            ⟨[], [FileOp.read_ehdr]⟩ with
        | Run.done (false, st) =>
          Run.done ⟨false, none, none, st.spt, some file,
            st.log ++ [FileOp.close file.handle], []⟩
        | Run.done (true, st) =>
          if !env.setup_stack then
            Run.done ⟨false, none, none, st.spt, some file,
              st.log ++ [FileOp.close file.handle], []⟩
          else
            Run.done ⟨true, some ehdr.e_entry, some PHYS_BASE, st.spt, some file,
              st.log ++ [FileOp.close file.handle], []⟩
        | Run.panic => Run.panic
        | Run.timeout => Run.timeout

/-! ## Argument passing -/

/-- User memory, byte by byte. -/
def Mem : Type := Nat → Nat

/-- A store of one byte through a pointer. -/
def write_byte (m : Mem) (a b : Nat) : Mem := fun x => if x = u32 a then b else m x

/-- A store of a little-endian 32-bit word through a pointer. -/
def write_word (m : Mem) (a w : Nat) : Mem :=
  write_byte (write_byte (write_byte (write_byte m a (w % 256)) (a + 1) (w / 256 % 256))
    (a + 2) (w / 65536 % 256)) (a + 3) (w / 16777216 % 256)

/-- A load of a little-endian 32-bit word through a pointer. -/
def read_word (m : Mem) (a : Nat) : Nat :=
  m (u32 a) + 256 * m (u32 (a + 1)) + 65536 * m (u32 (a + 2)) + 16777216 * m (u32 (a + 3))

/-- A store of consecutive bytes, lowest address first. -/
def write_bytes (m : Mem) (a : Nat) : List Nat → Mem
  | [] => m
  | b :: bs => write_bytes (write_byte m a b) (a + 1) bs

/-- `strlcpy (dst, src, size)` of lib/string.c, which is not among the sources: the C library
function that copies at most `size - 1` characters of the string `src` and terminates the copy
with a null byte. `src` is the string without its terminator. -/
def strlcpy (m : Mem) (dst : Nat) (src : List Nat) (size : Nat) : Mem :=
  if size = 0 then m else write_bytes m dst (src.take (size - 1) ++ [0])

/-- The first loop of `strtok_r`: skip the delimiters (spaces) at the current position. -/
def skip_delimiters : List Nat → List Nat
  | [] => []
  | c :: cs => if c = 32 then skip_delimiters cs else c :: cs

/-- The second loop of `strtok_r`: the characters up to the next delimiter or the end of the
string, and the rest of the buffer from there on. -/
def scan_token : List Nat → List Nat × List Nat
  | [] => ([], [])
  | c :: cs =>
    if c = 32 ∨ c = 0 then ([], c :: cs)
    else ((c :: (scan_token cs).1), (scan_token cs).2)

/-- `strtok_r (s, " ", &save_ptr)` of lib/string.c, which is not among the sources: the C
library function. A command line is the list of the bytes of its buffer, and the string ends
at the first null byte or at the end of the list. The result is `none` for a null pointer
return, and otherwise the token and the buffer that `save_ptr` points to afterwards. -/
def strtok_r (s : List Nat) : Option (List Nat × List Nat) :=
  match skip_delimiters s with
  | [] => none
  | c :: cs =>
    if c = 0 then none
    else
      match (scan_token (c :: cs)).2 with
      | [] => some ((scan_token (c :: cs)).1, [])
      | d :: ds =>
        if d = 0 then some ((scan_token (c :: cs)).1, d :: ds)
        else some ((scan_token (c :: cs)).1, ds)

/-- The loop of `calculate_len` (process.c 659-675) over the buffer, from the current values
of `flag`, `*argc` and `*len`. -/
def calculate_len_loop : List Nat → Bool → Nat → Nat → Nat × Nat
  | [], _, argc, len => (argc, len)
  | c :: cs, flag, argc, len =>
    if c = 0 then (argc, len)
    else if c ≠ 32 then
      if !flag then calculate_len_loop cs true (argc + 1) (len + 1)
      else calculate_len_loop cs true argc (len + 1)
    else calculate_len_loop cs false argc len

/-- Calculates argc and the length needed for the arguments (`calculate_len`, process.c
649-678): the return value, `*argc` and `*len`. The two counters only grow from zero and are
kept as natural numbers; an `int` holds them for every string of less than `2 ^ 30` bytes. -/
def calculate_len (argv : Option (List Nat)) : Bool × Nat × Nat :=
  match argv with
  | none => (false, 0, 0)
  | some s =>
    let r := calculate_len_loop s false 0 0
    (true, r.1, r.2 + r.1)

/-- The `for` loop of `argument_passing` (process.c 636-643): the final `arg_start` and the
memory. -/
def push_tokens : Nat → List Nat → Nat → Nat → Mem → Run (Nat × Mem)
  | 0, _, _, _, _ => Run.timeout
  | fuel + 1, save, arg_start, str_start, m =>
    match strtok_r save with
    | none => Run.done (arg_start, m)
    | some (token, save1) =>
      let len := token.length + 1
      let m1 := strlcpy m str_start token len
      let m2 := write_word m1 arg_start str_start
      push_tokens fuel save1 (u32 (arg_start + 4)) (u32 (str_start + len)) m2

/-- Splits the arguments, pushes them on the stack and sets `esp` (`argument_passing`,
process.c 611-646): the return value, `*esp` and the memory afterwards. -/
def argument_passing (fuel : Nat) (cmd_line : Option (List Nat)) (esp : Nat) (m : Mem) :
    Run (Bool × Nat × Mem) :=
  match cmd_line with
  | none => Run.done (false, esp, m)
  | some s =>
    let c := calculate_len (some s)
    if !c.1 then Run.done (false, esp, m)
    else
      let argc := c.2.1
      let len := ROUND_UP c.2.2 WORD_SIZE
      if len + WORD_SIZE * (argc + 4) > PGSIZE then Run.done (false, esp, m)
      else
        let esp1 := sub32 esp (len + (argc + 4) * WORD_SIZE)
        let arg_start := esp1
        let str_start := u32 (arg_start + 4 * (argc + 4))
        let m1 := write_word m arg_start 0
        let m2 := write_word m1 (u32 (arg_start + 4)) argc
        let m3 := write_word m2 (u32 (arg_start + 8)) (u32 (arg_start + 12))
        match push_tokens fuel s (u32 (arg_start + 12)) str_start m3 with
        | Run.done (arg_end, m4) => Run.done (true, esp1, write_word m4 arg_end 0)
        | Run.panic => Run.panic
        | Run.timeout => Run.timeout

/-- The tokens that the loop of `argument_passing` obtains from `strtok_r`, in order. -/
def strtok_all : Nat → List Nat → List (List Nat)
  | 0, _ => []
  | fuel + 1, s =>
    match strtok_r s with
    | none => []
    | some (token, save) => token :: strtok_all fuel save

/-- The bytes the strings of the tokens take, each with its terminator. -/
def strings_len (ts : List (List Nat)) : Nat := (ts.map (fun t => t.length + 1)).sum

/-- The offset of the string of token `i` from the start of the strings. -/
def string_offset (ts : List (List Nat)) (i : Nat) : Nat := strings_len (ts.take i)

/-- The tokens of a command line, in command-line order. -/
def tokens (s : List Nat) : List (List Nat) := strtok_all (s.length + 1) s

/-- Memory holds the null-terminated string `t` at address `p`. -/
def holds_string (m : Mem) (p : Nat) (t : List Nat) : Prop :=
  (∀ j, j < t.length → m (p + j) = t.getD j 0) ∧ m (p + t.length) = 0

/-- The command line "echo x y". -/
def echo_x_y : List Nat := [101, 99, 104, 111, 32, 120, 32, 121]

/-- The user stack after `argument_passing` of "echo x y" at `PHYS_BASE` on zeroed memory. -/
def echo_stack : Mem :=
  match argument_passing 9 (some echo_x_y) PHYS_BASE (fun _ => 0) with
  | Run.done r => r.2.2
  | _ => fun _ => 0

/-! ## Threads, exit status objects and the process lifecycle -/

/-- Modelled from the spec: `threads/thread.h` is not among the sources; `TID_ERROR` is the
thread identifier `-1` that the specification names as the error return. -/
def TID_ERROR : Int := -1

/-- An exit status object, `struct exit_status`: the child identifier, the exit value, the
value of the semaphore `wait_on_exit`, and the pointer to the child thread. -/
structure exit_status where
  pid : Int
  exit_value : Int
  wait_on_exit : Nat
  thread : Nat
  deriving DecidableEq, Repr

/-- The fields of `struct thread` that process.c uses: pointers are addresses, a null pointer
is `none`, and `child_list` holds the addresses of the exit status objects in list order. -/
structure thread where
  tid : Int
  name : List Nat
  exit_value : Int
  is_user : Bool
  exit_status : Option Nat
  child_list : List Nat
  exec_file : Option Nat
  deriving DecidableEq, Repr

/-- What the kernel does to shared objects, in the order it happens. -/
inductive Event where
  | lock_acquire (owner : Nat)
  | lock_release (owner : Nat)
  | sema_down (obj : Nat)
  | sema_up (obj : Nat)
  | free (obj : Nat)
  | file_close (handle : Nat)
  | use_after_free (addr : Nat)
  deriving DecidableEq, Repr

/-- The kernel state that process.c works on: the live thread structures and the allocated
exit status objects by address, the console and the trace of events. -/
structure Kernel where
  threads : Nat → Option thread
  heap : Nat → Option exit_status
  console : List Msg
  trace : List Event

/-- The kernel with the thread structure at address `a` replaced. -/
def Kernel.set_thread (k : Kernel) (a : Nat) (t : Option thread) : Kernel :=
  { k with threads := fun x => if x = a then t else k.threads x }

/-- The kernel with the exit status object at address `a` replaced. -/
def Kernel.set_heap (k : Kernel) (a : Nat) (e : Option exit_status) : Kernel :=
  { k with heap := fun x => if x = a then e else k.heap x }

/-- The kernel with an event appended to the trace. -/
def Kernel.emit (k : Kernel) (e : Event) : Kernel := { k with trace := k.trace ++ [e] }

/-- The first entry of a child list whose `pid` is `child_tid`, as the `for` loop of
`process_wait` finds it (process.c 146-151): its address and the object. -/
def find_child (heap : Nat → Option exit_status) (child_tid : Int) :
    List Nat → Option (Nat × exit_status)
  | [] => none
  | e :: es =>
    match heap e with
    | some st => if st.pid = child_tid then some (e, st) else find_child heap child_tid es
    | none => find_child heap child_tid es

/-- How a call of `process_wait` ends: it returns a value, or the caller sleeps in
`sema_down` on a semaphore whose value is zero. -/
inductive WaitResult where
  | returned (value : Int) (k : Kernel)
  | blocked (k : Kernel)

/-- Waits for a child and returns its exit status (`process_wait`, process.c 139-163), run by
the thread at address `cur`. -/
def process_wait (k : Kernel) (cur : Nat) (child_tid : Int) : WaitResult :=
  match k.threads cur with
  | none => WaitResult.returned (-1) k
  | some t =>
    let k1 := k.emit (Event.lock_acquire cur)
    match find_child k.heap child_tid t.child_list with
    | none => WaitResult.returned (-1) (k1.emit (Event.lock_release cur))
    | some (e, st) =>
      if st.wait_on_exit = 0 then WaitResult.blocked (k1.emit (Event.sema_down e))
      else
        let k2 := (k1.set_heap e (some { st with wait_on_exit := st.wait_on_exit - 1 })).emit
          (Event.sema_down e)
        let exit_value := st.exit_value
        let k3 := k2.set_thread cur (some { t with child_list := t.child_list.erase e })
        let k4 := (k3.set_heap e none).emit (Event.free e)
        WaitResult.returned exit_value (k4.emit (Event.lock_release cur))

/-- The `while` loop of `process_exit` over the child list (process.c 175-182): every entry is
popped, the `exit_status` pointer of its child thread is set to null, and the entry is freed.
A store through a pointer to a thread or an object that is no longer there is recorded as
`use_after_free`. -/
def free_children (k : Kernel) : List Nat → Kernel
  | [] => k
  | e :: es =>
    match k.heap e with
    | none => free_children (k.emit (Event.use_after_free e)) es
    | some st =>
      let k1 :=
        match k.threads st.thread with
        | some child => k.set_thread st.thread (some { child with exit_status := none })
        | none => k.emit (Event.use_after_free st.thread)
      free_children ((k1.set_heap e none).emit (Event.free e)) es

/-- Frees the resources of the current process (`process_exit`, process.c 166-231), run by
the thread at address `cur`. The file table, the page directory and the supplemental page
table are left out. -/
def process_exit (k : Kernel) (cur : Nat) : Kernel :=
  match k.threads cur with
  | none => k
  | some t0 =>
    let k1 := free_children (k.emit (Event.lock_acquire cur)) t0.child_list
    match k1.threads cur with
    | none => k1
    | some t =>
      let k2 := (k1.set_thread cur (some { t with child_list := [] })).emit
        (Event.lock_release cur)
      let k3 :=
        match t.exec_file with
        | some h => k2.emit (Event.file_close h)
        | none => k2
      let k4 : Kernel :=
        if t.is_user then
          { k3 with console := k3.console ++ [Msg.exit_line t.name t.exit_value] }
        else k3
      match t.exit_status with
      | none => k4
      | some p =>
        match k4.heap p with
        | some st =>
          (k4.set_heap p (some { st with wait_on_exit := st.wait_on_exit + 1 })).emit
            (Event.sema_up p)
        | none => k4.emit (Event.use_after_free p)

/-- Gets the file name from the command line (`get_file_name`, process.c 593-608): the
characters up to the first space or the end of the string. `FILE_NAME_LEN` is not among the
sources, and the name is taken in full. -/
def get_file_name (cmd_line : Option (List Nat)) : Bool × List Nat :=
  match cmd_line with
  | none => (false, [])
  | some s => (true, s.takeWhile (fun c => c ≠ 32 ∧ c ≠ 0))

/-- What `start_process` leaves behind: the value stored in `start->success`, the kernel
state, and, when the process starts, the entry point, the stack pointer and user memory. -/
structure StartResult where
  success : Bool
  k : Kernel
  frame : Option (Nat × Nat × Mem)

/-- Modelled from the spec: `thread_exit` of `threads/thread.c` is not among the sources; on
exit the current thread runs `process_exit`, which releases its resources and signals its
parent. -/
def thread_exit (k : Kernel) (cur : Nat) : Kernel := process_exit k cur

/-- The thread function that loads a user process and starts it (`start_process`, process.c
85-128), run by the thread at address `cur` on user memory `m`. -/
def start_process (env : Env) (fuel : Nat) (k : Kernel) (cur : Nat) (cmd_line : List Nat)
    (m : Mem) : Run StartResult :=
  let g := get_file_name (some cmd_line)
  let file_name := g.2
  match (if g.1 then load env fuel file_name
      else Run.done ⟨false, none, none, [], none, [], []⟩) with
  | Run.panic => Run.panic
  | Run.timeout => Run.timeout
  | Run.done lr =>
    let k1 : Kernel := { k with console := k.console ++ lr.console }
    match (if g.1 && lr.success then argument_passing fuel (some cmd_line) (lr.esp.getD 0) m
        else Run.done (false, lr.esp.getD 0, m)) with
    | Run.panic => Run.panic
    | Run.timeout => Run.timeout
    | Run.done ap =>
      let success := g.1 && lr.success && ap.1
      let k2 :=
        match k1.threads cur with
        | some t => k1.set_thread cur (some { t with is_user := true })
        | none => k1
      let k3 :=
        if success then
          match k2.threads cur with
          | some t =>
            k2.set_thread cur
              (some { t with exec_file := (env.filesys_open file_name).map File.handle })
          | none => k2
        else k2
      if !success then Run.done ⟨false, thread_exit k3 cur, none⟩
      else Run.done ⟨true, k3, some (lr.eip.getD 0, ap.2.1, ap.2.2)⟩

/-- The copy `fn_copy` that `process_execute` makes of the command line with
`strlcpy (fn_copy, cmd_line, PGSIZE)`. -/
def fn_copy (s : List Nat) : List Nat := (s.takeWhile (fun c => c ≠ 0)).take (PGSIZE - 1)

/-- What `process_execute` depends on outside process.c: whether `palloc_get_page` returns a
page, what `thread_create` does for a thread name (the identifier it returns, `TID_ERROR` when
no thread is created, the address of the new thread and the kernel state with it), and the
indeterminate initial value of the local variable `start`. -/
structure ExecEnv where
  palloc_get_page : Bool
  thread_create : List Nat → Kernel → Int × Nat × Kernel
  start_success : Bool

/-- Starts a new thread running a user program (`process_execute`, process.c 37-81): the
return value and the kernel state once the caller continues. -/
def process_execute (env : Env) (x : ExecEnv) (fuel : Nat) (k : Kernel) (m : Mem)
    (cmd_line : Option (List Nat)) : Run (Int × Kernel) :=
  match cmd_line with
  | none => Run.done (TID_ERROR, k)
  | some s =>
    if !x.palloc_get_page then Run.done (TID_ERROR, k)
    else
      let g := get_file_name (some (fn_copy s))
      let c := if g.1 then x.thread_create g.2 k else (TID_ERROR, 0, k)
      let tid := c.1
      if tid = TID_ERROR then
        if x.start_success then Run.done (tid, c.2.2) else Run.done (-1, c.2.2)
      else
        match start_process env fuel c.2.2 c.2.1 (fn_copy s) m with
        | Run.panic => Run.panic
        | Run.timeout => Run.timeout
        | Run.done r => if r.success then Run.done (tid, r.k) else Run.done (-1, r.k)

/-- The value a call of `process_wait` returned, if it returned. -/
def WaitResult.value : WaitResult → Option Int
  | WaitResult.returned v _ => some v
  | WaitResult.blocked _ => none

/-- The kernel state when a call of `process_wait` returns or goes to sleep. -/
def WaitResult.kernel : WaitResult → Kernel
  | WaitResult.returned _ k => k
  | WaitResult.blocked k => k

/-- The conditions on the executable header that the specification lists: a full header can
be read, the magic matches, and the type, machine, version, program header size and program
header count are as required. -/
def valid_ehdr (file : File) : Prop :=
  52 ≤ file.data.length ∧
  (decode_ehdr (file.data.take 52)).e_ident.take 7 = [127, 69, 76, 70, 1, 1, 1] ∧
  (decode_ehdr (file.data.take 52)).e_type = 2 ∧
  (decode_ehdr (file.data.take 52)).e_machine = 3 ∧
  (decode_ehdr (file.data.take 52)).e_version = 1 ∧
  (decode_ehdr (file.data.take 52)).e_phentsize = 32 ∧
  (decode_ehdr (file.data.take 52)).e_phnum ≤ 1024

/-- An 84-byte executable, open under handle 3: a valid executable header with entry point
0x08048000 and `e_phoff = 52`, followed by one `PT_LOAD` program header with `p_offset = 0`,
`p_vaddr = 0x08048000`, `p_filesz = p_memsz = 84`, `p_flags = 5` and `p_align = 4096`. -/
def demo_elf : File :=
  ⟨3, [127, 69, 76, 70, 1, 1, 1, 0, 0, 0, 0, 0, 0, 0, 0, 0,
       2, 0, 3, 0, 1, 0, 0, 0, 0, 128, 4, 8, 52, 0, 0, 0, 0, 0, 0, 0, 0, 0, 0, 0,
       52, 0, 32, 0, 1, 0, 0, 0, 0, 0, 0, 0,
       1, 0, 0, 0, 0, 0, 0, 0, 0, 128, 4, 8, 0, 128, 4, 8,
       84, 0, 0, 0, 84, 0, 0, 0, 5, 0, 0, 0, 0, 16, 0, 0]⟩

/-- The file name "echo". -/
def echo_name : List Nat := [101, 99, 104, 111]

/-- An environment in which "echo" names `demo_elf` and every allocation succeeds. -/
def demo_env : Env :=
  ⟨true, fun name => if name = echo_name then some demo_elf else none, Alloc.always, true⟩

/-- The result of `load` on `demo_elf`: success, entry point and stack pointer, one page
descriptor for handle 3, and the file operations up to the `file_close` of handle 3. -/
def demo_load_result : LoadResult :=
  ⟨true, some 134512640, some PHYS_BASE, [⟨134512640, false, ⟨3, 0, 84⟩⟩], some demo_elf,
    [FileOp.read_ehdr, FileOp.seek 52, FileOp.read_phdr, FileOp.close 3], []⟩

/-- A child thread at address 1 that exits with value 7, its exit status object at address
100 with `exit_value` still 0, and its parent at address 2. -/
def demo_kernel : Kernel :=
  { threads := fun a =>
      if a = 1 then some ⟨3, echo_name, 7, true, some 100, [], none⟩
      else if a = 2 then some ⟨1, [109, 97, 105, 110], 0, false, none, [100], none⟩
      else none,
    heap := fun a => if a = 100 then some ⟨3, 0, 0, 1⟩ else none,
    console := [],
    trace := [] }

/-- The value of a run that ended normally. -/
def Run.get? {α : Type} : Run α → Option α
  | Run.done a => some a
  | Run.panic => none
  | Run.timeout => none

/-- An environment without any file. -/
def empty_env : Env := ⟨true, fun _ => none, Alloc.always, true⟩

/-- A thread at address 1 that `thread_create` has just made for "echo x y", with exit value
-1 and its exit status object at address 100 in the child list of its parent at address 2. -/
def fresh_kernel : Kernel :=
  { threads := fun a =>
      if a = 1 then some ⟨3, echo_name, -1, false, some 100, [], none⟩
      else if a = 2 then some ⟨1, [109, 97, 105, 110], 0, false, none, [100], none⟩
      else none,
    heap := fun a => if a = 100 then some ⟨3, -1, 0, 1⟩ else none,
    console := [],
    trace := [] }

/-- A `thread_create` that fails, and an indeterminate `start.success` that happens to be
true. -/
def failing_exec_env : ExecEnv := ⟨true, fun _ k => (TID_ERROR, 0, k), true⟩

/-- A 128-byte file, open under handle 3. -/
def demo_file : File := ⟨3, List.replicate 128 0⟩

/-- An environment in which every name opens the 128 zero bytes of `demo_file`. -/
def zero_env : Env := ⟨true, fun _ => some demo_file, Alloc.always, true⟩

/-- A program header for 64 bytes of code at 0x08048000, taken from file offset 0. -/
def demo_phdr : Elf32_Phdr := ⟨1, 0, 134512640, 0, 64, 64, 5, 4096⟩

/-- A program header with `p_offset = 0`, `p_vaddr = 0x1000` and
`p_filesz = p_memsz = 0x90000000`. -/
def big_phdr : Elf32_Phdr := ⟨1, 0, 4096, 0, 2415919104, 2415919104, 5, 4096⟩

/-- The values that the `PT_LOAD` case of `load` computes from a program header (process.c
390-409): `writable`, `file_page`, `mem_page`, `page_offset`, `read_bytes` and `zero_bytes`. -/
structure SegmentArgs where
  writable : Bool
  file_page : Nat
  mem_page : Nat
  page_offset : Nat
  read_bytes : Nat
  zero_bytes : Nat
  deriving DecidableEq, Repr

/-- The arguments of `load_segment` as the `PT_LOAD` case of `load` computes them. -/
def segment_args (phdr : Elf32_Phdr) : SegmentArgs :=
  let page_offset := phdr.p_vaddr &&& PGMASK
  let read_bytes := if phdr.p_filesz > 0 then u32 (page_offset + phdr.p_filesz) else 0
  { writable := (phdr.p_flags &&& PF_W) ≠ 0,
    file_page := phdr.p_offset &&& NOT_PGMASK,
    mem_page := phdr.p_vaddr &&& NOT_PGMASK,
    page_offset := page_offset,
    read_bytes := read_bytes,
    zero_bytes :=
      if phdr.p_filesz > 0 then
        sub32 (ROUND_UP_u32 (u32 (page_offset + phdr.p_memsz))) read_bytes
      else ROUND_UP_u32 (u32 (page_offset + phdr.p_memsz)) }

/-- The update of the counters `read_bytes` and `zero_bytes` in one iteration of the loop of
`load_segment` (process.c 514-515 and 540-541), in `uint32_t` arithmetic. -/
def counters_step (c : Nat × Nat) : Nat × Nat :=
  (sub32 c.1 (if c.1 < PGSIZE then c.1 else PGSIZE),
    sub32 c.2 (PGSIZE - (if c.1 < PGSIZE then c.1 else PGSIZE)))

/-- The program header that the loop of `load` reads at file offset `file_ofs`, if the
offset passes the test of the loop and a full header can be read there. -/
def phdr_at (file : File) (file_ofs : Int) : Option Elf32_Phdr :=
  if 0 ≤ file_ofs ∧ file_ofs ≤ file_length file ∧
      (file_read file file_ofs.toNat sizeof_Elf32_Phdr).length = sizeof_Elf32_Phdr then
    some (decode_phdr (file_read file file_ofs.toNat sizeof_Elf32_Phdr))
  else none

/-- The segment types for which `load` gives up: `PT_DYNAMIC`, `PT_INTERP`, `PT_SHLIB`. -/
def refused_type (p_type : Nat) : Prop :=
  p_type = PT_DYNAMIC ∨ p_type = PT_INTERP ∨ p_type = PT_SHLIB

instance (p_type : Nat) : Decidable (refused_type p_type) := by
  unfold refused_type; infer_instance

/-- The loop of `load` gets past the program header at `file_ofs`: the header can be read,
its type is not refused, and if it is a `PT_LOAD` header it is valid and `load_segment`
succeeds for it. -/
def phdr_passes (al : Alloc) (fuel : Nat) (file : File) (file_ofs : Int) : Prop :=
  ∃ ph, phdr_at file file_ofs = some ph ∧ ¬ refused_type ph.p_type ∧
    (ph.p_type = PT_LOAD →
      validate_segment ph file = true ∧ ∃ l, load_PT_LOAD al fuel file ph = Run.done (true, l))

/-- The executable `demo_elf` with the type of its program header changed from `PT_LOAD` to
7, a value that is none of the `PT_` constants. -/
def unknown_type_elf : File :=
  ⟨3, [127, 69, 76, 70, 1, 1, 1, 0, 0, 0, 0, 0, 0, 0, 0, 0,
       2, 0, 3, 0, 1, 0, 0, 0, 0, 128, 4, 8, 52, 0, 0, 0, 0, 0, 0, 0, 0, 0, 0, 0,
       52, 0, 32, 0, 1, 0, 0, 0, 0, 0, 0, 0,
       7, 0, 0, 0, 0, 0, 0, 0, 0, 128, 4, 8, 0, 128, 4, 8,
       84, 0, 0, 0, 84, 0, 0, 0, 5, 0, 0, 0, 0, 16, 0, 0]⟩

/-- An environment in which every name opens `unknown_type_elf`. -/
def unknown_type_env : Env := ⟨true, fun _ => some unknown_type_elf, Alloc.always, true⟩

/-- The executable `demo_elf` with the type of its program header changed to `PT_INTERP`. -/
def interp_elf : File :=
  ⟨3, [127, 69, 76, 70, 1, 1, 1, 0, 0, 0, 0, 0, 0, 0, 0, 0,
       2, 0, 3, 0, 1, 0, 0, 0, 0, 128, 4, 8, 52, 0, 0, 0, 0, 0, 0, 0, 0, 0, 0, 0,
       52, 0, 32, 0, 1, 0, 0, 0, 0, 0, 0, 0,
       3, 0, 0, 0, 0, 0, 0, 0, 0, 128, 4, 8, 0, 128, 4, 8,
       84, 0, 0, 0, 84, 0, 0, 0, 5, 0, 0, 0, 0, 16, 0, 0]⟩

/-- An environment in which every name opens `interp_elf`. -/
def interp_env : Env := ⟨true, fun _ => some interp_elf, Alloc.always, true⟩

/-- The command line "a  b", with two spaces between the arguments. -/
def a_b : List Nat := [97, 32, 32, 98]

/-! ## The exit and wait protocol as a state machine -/

/-- A step of a parent or a child: a call of `process_wait`, or the exit of a thread. -/
inductive Step where
  | wait (cur : Nat) (child_tid : Int)
  | exit (cur : Nat)
  deriving DecidableEq, Repr

/-- The kernel state after a step. A thread that exits runs `process_exit` and is gone
afterwards, so that no thread runs `process_exit` twice; a `process_wait` that has to sleep
leaves only its events in the trace. -/
def step (k : Kernel) : Step → Kernel
  | Step.wait cur child_tid => (process_wait k cur child_tid).kernel
  | Step.exit cur => (process_exit k cur).set_thread cur none

/-- The kernel state after a sequence of steps, one after the other. -/
def run (k : Kernel) (steps : List Step) : Kernel := steps.foldl step k

/-- The invariant of the exit and wait protocol: no exit status object has been freed twice,
a freed object is no longer allocated, no semaphore has been upped twice, no live thread
points to an object whose semaphore has been upped, and no two live threads point to the same
exit status object. -/
def Inv (k : Kernel) : Prop :=
  (∀ e, k.trace.count (Event.free e) ≤ 1) ∧
  (∀ e, k.trace.count (Event.free e) = 1 → k.heap e = none) ∧
  (∀ p, k.trace.count (Event.sema_up p) ≤ 1) ∧
  (∀ p, k.trace.count (Event.sema_up p) = 1 →
    ∀ a t, k.threads a = some t → t.exit_status ≠ some p) ∧
  (∀ a b ta tb p, k.threads a = some ta → k.threads b = some tb →
    ta.exit_status = some p → tb.exit_status = some p → a = b)

/-- The exit status objects of a kernel state are consistent, as `thread_create` leaves
them: the child list of a live thread has no entry twice, every entry of it is allocated, the
`exit_status` pointer of a live thread points to an allocated object whose `thread` pointer
points back to it, no live thread points to an object whose semaphore is positive, and no
object is in the child lists of two threads. -/
def Wf (k : Kernel) : Prop :=
  (∀ a t, k.threads a = some t → t.child_list.Nodup) ∧
  (∀ a t e, k.threads a = some t → e ∈ t.child_list → k.heap e ≠ none) ∧
  (∀ a t p, k.threads a = some t → t.exit_status = some p →
    ∃ st, k.heap p = some st ∧ st.thread = a) ∧
  (∀ p st, k.heap p = some st → 0 < st.wait_on_exit →
    ∀ a t, k.threads a = some t → t.exit_status ≠ some p) ∧
  (∀ a b ta tb e, k.threads a = some ta → k.threads b = some tb →
    e ∈ ta.child_list → e ∈ tb.child_list → a = b)

/-! ## Lemmas on machine arithmetic -/

theorem and_PGMASK (x : Nat) : x &&& PGMASK = x % 4096 := by
  have h := Nat.and_pow_two_sub_one_eq_mod x 12
  simpa [PGMASK] using h

theorem and_NOT_PGMASK (x : Nat) (h : x < 4294967296) : x &&& NOT_PGMASK = x - x % 4096 := by
  have key : x &&& 4294963200 = 2 ^ 12 * (x >>> 12) := by
    apply Nat.eq_of_testBit_eq
    intro i
    have hM : (4294963200 : Nat) = 2 ^ 12 * (2 ^ 20 - 1) := by norm_num
    rw [Nat.testBit_and, hM, Nat.testBit_mul_pow_two, Nat.testBit_mul_pow_two,
      Nat.testBit_two_pow_sub_one, Nat.testBit_shiftRight]
    by_cases h12 : i ≥ 12
    · by_cases h32 : i < 32
      · have e : 12 + (i - 12) = i := by omega
        have e2 : i - 12 < 20 := by omega
        simp [h12, e, e2]
      · have hx : x.testBit i = false := by
          apply Nat.testBit_lt_two_pow
          calc x < 2 ^ 32 := by simpa using h
            _ ≤ 2 ^ i := Nat.pow_le_pow_right (by norm_num) (by omega)
        have e : 12 + (i - 12) = i := by omega
        simp [hx, e]
    · simp [h12]
  have hN : NOT_PGMASK = 4294963200 := by decide
  rw [hN, key, Nat.shiftRight_eq_div_pow]
  norm_num
  omega

/-! ## `validate_segment` -/

/-- What holds of a program header that `validate_segment` accepts. -/
theorem validate_segment_accepts (phdr : Elf32_Phdr) (file : File) (hwf : phdr.wf)
    (hlen : file.data.length < 2147483648) (h : validate_segment phdr file = true) :
    phdr.p_offset % 4096 = phdr.p_vaddr % 4096 ∧
      phdr.p_offset ≤ file.data.length ∧
      phdr.p_filesz ≤ phdr.p_memsz ∧
      0 < phdr.p_memsz ∧
      phdr.p_vaddr + phdr.p_memsz < 3221225472 ∧
      4096 ≤ phdr.p_vaddr := by
  obtain ⟨_, ho, hv, _, hf, hm, _, _⟩ := hwf
  have hl : (file_length file % 4294967296).toNat = file.data.length := by
    unfold file_length; omega
  unfold validate_segment at h
  simp only [and_PGMASK, hl, is_user_vaddr, u32, PGSIZE, PHYS_BASE] at h
  split_ifs at h
  simp only [Bool.not_eq_true', decide_eq_false_iff_not, not_lt, not_not] at *
  omega

/-- C2: `validate_segment` returns true exactly when the file offset and the virtual address
have the same offset within a page, the file offset lies within the file, `p_memsz` is at least
`p_filesz` and is not zero, the start and the end of the region are below `PHYS_BASE`, the end
does not wrap around 32 bits, and the region does not start in page 0. -/
theorem validate_segment_iff (phdr : Elf32_Phdr) (file : File) (hwf : phdr.wf)
    (hlen : file.data.length < 2147483648) :
    validate_segment phdr file = true ↔
      (phdr.p_offset % PGSIZE = phdr.p_vaddr % PGSIZE ∧
        phdr.p_offset ≤ file.data.length ∧
        phdr.p_filesz ≤ phdr.p_memsz ∧
        0 < phdr.p_memsz ∧
        phdr.p_vaddr < PHYS_BASE ∧
        phdr.p_vaddr + phdr.p_memsz < PHYS_BASE ∧
        phdr.p_vaddr + phdr.p_memsz < 4294967296 ∧
        PGSIZE ≤ phdr.p_vaddr) := by
  obtain ⟨_, ho, hv, _, hf, hm, _, _⟩ := hwf
  have hl : (file_length file % 4294967296).toNat = file.data.length := by
    unfold file_length; omega
  unfold validate_segment
  simp only [and_PGMASK, hl, is_user_vaddr, u32, PGSIZE, PHYS_BASE]
  constructor
  · intro h
    split_ifs at h <;> simp_all <;> omega
  · intro h
    split_ifs <;> simp_all <;> omega

/-- C2 at a concrete header: one page of code at 0x08048000 in a 64-byte file. -/
theorem validate_segment_iff_witness :
    validate_segment ⟨1, 0, 134512640, 0, 64, 64, 5, 4096⟩ ⟨3, List.replicate 64 0⟩ = true ↔
      ((0 : Nat) % PGSIZE = 134512640 % PGSIZE ∧
        0 ≤ (List.replicate 64 0).length ∧
        64 ≤ 64 ∧
        0 < 64 ∧
        134512640 < PHYS_BASE ∧
        134512640 + 64 < PHYS_BASE ∧
        134512640 + 64 < 4294967296 ∧
        PGSIZE ≤ 134512640) :=
  validate_segment_iff ⟨1, 0, 134512640, 0, 64, 64, 5, 4096⟩ ⟨3, List.replicate 64 0⟩
    (by decide) (by decide)

/-! ## `load_segment` -/

theorem to_int32_range (n : Int) : -2147483648 ≤ to_int32 n ∧ to_int32 n < 2147483648 := by
  unfold to_int32; omega

theorem to_int32_id (n : Int) (h1 : -2147483648 ≤ n) (h2 : n < 2147483648) : to_int32 n = n := by
  unfold to_int32; omega

theorem to_int32_add (a b : Int) : to_int32 (to_int32 a + b) = to_int32 (a + b) := by
  unfold to_int32; omega

theorem load_segment_loop_spec (al : Alloc) (file : Nat) (writable : Bool) :
    ∀ (n fuel : Nat) (ofs : Int) (upage r z : Nat),
      r < 4294967296 → z < 4294967296 → r + z = n * 4096 → n < fuel →
      -2147483648 ≤ ofs → ofs < 2147483648 → upage < 4294967296 →
      (∀ k, k < n → al.lookup_page (u32 (upage + k * 4096)) = true ∧
        al.spt_insert (u32 (upage + k * 4096)) = true) →
      ∃ l, load_segment_loop al file writable fuel ofs upage r z = Run.done (true, l) ∧
        l.length = n ∧ ∀ k, k < n → l[k]? = some (page_entry file writable ofs upage r k) := by
  intro n
  induction n with
  | zero =>
    intro fuel ofs upage r z hr hz hsum hfuel _ _ _ _
    obtain ⟨f, rfl⟩ : ∃ f, fuel = f + 1 := ⟨fuel - 1, by omega⟩
    have hr0 : r = 0 := by omega
    have hz0 : z = 0 := by omega
    subst hr0 hz0
    refine ⟨[], ?_, rfl, ?_⟩
    · simp [load_segment_loop]
    · intro k hk; omega
  | succ n ih =>
    intro fuel ofs upage r z hr hz hsum hfuel ho1 ho2 hup hal
    obtain ⟨f, rfl⟩ : ∃ f, fuel = f + 1 := ⟨fuel - 1, by omega⟩
    have hal0 := hal 0 (by omega)
    have hu0 : u32 (upage + 0 * 4096) = upage := by unfold u32; omega
    rw [hu0] at hal0
    have hcond : r > 0 ∨ z > 0 := by omega
    by_cases hlt : r < 4096
    · -- the last page with file bytes, or a page of zeroes
      have hz' : 4096 - r ≤ z := by omega
      have h1 : sub32 r r = 0 := by unfold sub32; omega
      have h2 : sub32 z (4096 - r) = z - (4096 - r) := by unfold sub32; omega
      obtain ⟨l, hl, hlen, hnth⟩ := ih f (to_int32 (ofs + r)) (u32 (upage + 4096)) 0
        (z - (4096 - r)) (by omega) (by omega) (by omega) (by omega)
        (to_int32_range _).1 (to_int32_range _).2 (by unfold u32; omega)
        (by
          intro k hk
          have := hal (k + 1) (by omega)
          have e : u32 (u32 (upage + 4096) + k * 4096) = u32 (upage + (k + 1) * 4096) := by
            unfold u32; omega
          rw [e]; exact this)
      refine ⟨⟨upage, writable, ⟨file, ofs, r⟩⟩ :: l, ?_, by simp [hlen], ?_⟩
      · rw [load_segment_loop]
        simp only [hcond, hlt, if_true, PGSIZE, hal0.1, hal0.2, Bool.not_true, h1, h2]
        simp [hl]
      · intro k hk
        cases k with
        | zero =>
          simp only [List.getElem?_cons_zero, page_entry]
          have e1 : to_int32 (ofs + ((min (0 * 4096) r : Nat) : Int)) = ofs := by
            simp [to_int32_id ofs ho1 ho2]
          have e2 : min (r - 0 * 4096) 4096 = r := by omega
          rw [e1, e2, hu0]
        | succ k =>
          simp only [List.getElem?_cons_succ]
          rw [hnth k (by omega)]
          simp only [page_entry]
          have e : u32 (u32 (upage + 4096) + k * 4096) = u32 (upage + (k + 1) * 4096) := by
            unfold u32; omega
          have e1 : to_int32 (to_int32 (ofs + r) + ((min (k * 4096) 0 : Nat) : Int))
              = to_int32 (ofs + ((min ((k + 1) * 4096) r : Nat) : Int)) := by
            rw [to_int32_add]
            have : min (k * 4096) 0 = 0 := by omega
            have : min ((k + 1) * 4096) r = r := by omega
            simp [*]
          have e2 : min (0 - k * 4096) 4096 = min (r - (k + 1) * 4096) 4096 := by omega
          rw [e, e1, e2]
    · -- a full page of file bytes
      have h1 : sub32 r 4096 = r - 4096 := by unfold sub32; omega
      have h2 : sub32 z (4096 - 4096) = z := by unfold sub32; omega
      obtain ⟨l, hl, hlen, hnth⟩ := ih f (to_int32 (ofs + 4096)) (u32 (upage + 4096))
        (r - 4096) z (by omega) (by omega) (by omega) (by omega)
        (to_int32_range _).1 (to_int32_range _).2 (by unfold u32; omega)
        (by
          intro k hk
          have := hal (k + 1) (by omega)
          have e : u32 (u32 (upage + 4096) + k * 4096) = u32 (upage + (k + 1) * 4096) := by
            unfold u32; omega
          rw [e]; exact this)
      refine ⟨⟨upage, writable, ⟨file, ofs, 4096⟩⟩ :: l, ?_, by simp [hlen], ?_⟩
      · rw [load_segment_loop]
        simp only [hcond, hlt, if_true, if_false, PGSIZE, hal0.1, hal0.2, Bool.not_true, h1, h2]
        simp [hl]
      · intro k hk
        cases k with
        | zero =>
          simp only [List.getElem?_cons_zero, page_entry]
          have e1 : to_int32 (ofs + ((min (0 * 4096) r : Nat) : Int)) = ofs := by
            simp [to_int32_id ofs ho1 ho2]
          have e2 : min (r - 0 * 4096) 4096 = 4096 := by omega
          rw [e1, e2, hu0]
        | succ k =>
          simp only [List.getElem?_cons_succ]
          rw [hnth k (by omega)]
          simp only [page_entry]
          have e : u32 (u32 (upage + 4096) + k * 4096) = u32 (upage + (k + 1) * 4096) := by
            unfold u32; omega
          have e1 : to_int32 (to_int32 (ofs + 4096) + ((min (k * 4096) (r - 4096) : Nat) : Int))
              = to_int32 (ofs + ((min ((k + 1) * 4096) r : Nat) : Int)) := by
            rw [to_int32_add]
            have : ((min ((k + 1) * 4096) r : Nat) : Int)
                = 4096 + ((min (k * 4096) (r - 4096) : Nat) : Int) := by omega
            rw [this, add_assoc]
          have e2 : min (r - 4096 - k * 4096) 4096 = min (r - (k + 1) * 4096) 4096 := by omega
          rw [e, e1, e2]

theorem ROUND_UP_u32_eq (X : Nat) (h : X ≤ 3221225472) :
    ROUND_UP_u32 (u32 X) = (X + 4095) / 4096 * 4096 := by
  unfold ROUND_UP_u32 u32 PGSIZE; omega

theorem load_PT_LOAD_spec (al : Alloc) (fuel : Nat) (file : File) (phdr : Elf32_Phdr)
    (hwf : phdr.wf) (hlen : file.data.length < 2147483648)
    (hv : validate_segment phdr file = true)
    (hfuel : (phdr.p_vaddr % 4096 + phdr.p_memsz + 4095) / 4096 < fuel)
    (hal : ∀ k, k < (phdr.p_vaddr % 4096 + phdr.p_memsz + 4095) / 4096 →
      al.lookup_page (phdr.p_vaddr / 4096 * 4096 + k * 4096) = true ∧
      al.spt_insert (phdr.p_vaddr / 4096 * 4096 + k * 4096) = true) :
    ∃ l, load_PT_LOAD al fuel file phdr = Run.done (true, l) ∧
      l.length = (phdr.p_vaddr % 4096 + phdr.p_memsz + 4095) / 4096 ∧
      ∀ k, k < (phdr.p_vaddr % 4096 + phdr.p_memsz + 4095) / 4096 →
        l[k]? = some (page_entry file.handle (decide ((phdr.p_flags &&& PF_W) ≠ 0))
          (phdr.p_offset / 4096 * 4096 : Nat) (phdr.p_vaddr / 4096 * 4096)
          (if phdr.p_filesz > 0 then phdr.p_vaddr % 4096 + phdr.p_filesz else 0) k) := by
  obtain ⟨hpo, hoff, hfm, hm0, hend, hpg⟩ := validate_segment_accepts phdr file hwf hlen hv
  obtain ⟨_, ho, hva, _, hf, hm, _, _⟩ := hwf
  have hR := ROUND_UP_u32_eq (phdr.p_vaddr % 4096 + phdr.p_memsz) (by omega)
  have hfp : phdr.p_offset &&& NOT_PGMASK = phdr.p_offset / 4096 * 4096 := by
    rw [and_NOT_PGMASK _ ho]; omega
  have hmp : phdr.p_vaddr &&& NOT_PGMASK = phdr.p_vaddr / 4096 * 4096 := by
    rw [and_NOT_PGMASK _ hva]; omega
  have hofs : to_int32 ((phdr.p_offset / 4096 * 4096 : Nat) : Int)
      = ((phdr.p_offset / 4096 * 4096 : Nat) : Int) := by
    apply to_int32_id <;> omega
  unfold load_PT_LOAD load_segment
  simp only [and_PGMASK, hfp, hmp, hR, hofs]
  by_cases hfz : phdr.p_filesz > 0
  · simp only [hfz, if_true]
    have hr : u32 (phdr.p_vaddr % 4096 + phdr.p_filesz) = phdr.p_vaddr % 4096 + phdr.p_filesz := by
      unfold u32; omega
    have hz : sub32 ((phdr.p_vaddr % 4096 + phdr.p_memsz + 4095) / 4096 * 4096)
        (phdr.p_vaddr % 4096 + phdr.p_filesz)
        = (phdr.p_vaddr % 4096 + phdr.p_memsz + 4095) / 4096 * 4096
          - (phdr.p_vaddr % 4096 + phdr.p_filesz) := by
      unfold sub32; omega
    rw [hr, hz]
    have a1 : ¬ (u32 (phdr.p_vaddr % 4096 + phdr.p_filesz +
        ((phdr.p_vaddr % 4096 + phdr.p_memsz + 4095) / 4096 * 4096
          - (phdr.p_vaddr % 4096 + phdr.p_filesz))) % PGSIZE ≠ 0) := by
      unfold u32 PGSIZE; omega
    have a2 : ¬ (phdr.p_vaddr / 4096 * 4096 % 4096 ≠ 0) := by omega
    have a3 : ¬ (((phdr.p_offset / 4096 * 4096 : Nat) : Int) % ((PGSIZE : Nat) : Int) ≠ 0) := by
      unfold PGSIZE; omega
    rw [if_neg a1, if_neg a2, if_neg a3]
    exact load_segment_loop_spec al file.handle _ _ fuel _ _ _ _ (by omega) (by omega) (by omega)
      hfuel (by omega) (by omega) (by omega)
      (by
        intro k hk
        have e : u32 (phdr.p_vaddr / 4096 * 4096 + k * 4096)
            = phdr.p_vaddr / 4096 * 4096 + k * 4096 := by unfold u32; omega
        rw [e]; exact hal k hk)
  · simp only [hfz, if_false]
    have a1 : ¬ (u32 (0 + (phdr.p_vaddr % 4096 + phdr.p_memsz + 4095) / 4096 * 4096)
        % PGSIZE ≠ 0) := by
      unfold u32 PGSIZE; omega
    have a2 : ¬ (phdr.p_vaddr / 4096 * 4096 % 4096 ≠ 0) := by omega
    have a3 : ¬ (((phdr.p_offset / 4096 * 4096 : Nat) : Int) % ((PGSIZE : Nat) : Int) ≠ 0) := by
      unfold PGSIZE; omega
    rw [if_neg a1, if_neg a2, if_neg a3]
    exact load_segment_loop_spec al file.handle _ _ fuel _ _ _ _ (by omega) (by omega) (by omega)
      hfuel (by omega) (by omega) (by omega)
      (by
        intro k hk
        have e : u32 (phdr.p_vaddr / 4096 * 4096 + k * 4096)
            = phdr.p_vaddr / 4096 * 4096 + k * 4096 := by unfold u32; omega
        rw [e]; exact hal k hk)

/-- C1, amended: for a `PT_LOAD` header that `validate_segment` accepts, `load` registers one
descriptor per page of the segment. For every `i < p_filesz` the page of `p_vaddr + i` is page
`k = (page_offset + i) / PGSIZE`, its descriptor reads more than the in-page position of the
byte, and, as long as the file offset `p_offset + i` is representable as an `off_t`, the
descriptor has offset `(p_offset rounded down) + k * PGSIZE`, so that the byte comes from file
offset `p_offset + i`. For every `i` from `p_filesz` up to `p_memsz` the in-page position is at
or beyond the bytes read, so the byte is zero. -/
theorem load_PT_LOAD_descriptors (al : Alloc) (fuel : Nat) (file : File) (phdr : Elf32_Phdr)
    (hwf : phdr.wf) (hlen : file.data.length < 2147483648)
    (hv : validate_segment phdr file = true)
    (hfuel : ROUND_UP (phdr.p_vaddr % PGSIZE + phdr.p_memsz) PGSIZE / PGSIZE < fuel)
    (hal : ∀ k, k < ROUND_UP (phdr.p_vaddr % PGSIZE + phdr.p_memsz) PGSIZE / PGSIZE →
      al.lookup_page (phdr.p_vaddr / PGSIZE * PGSIZE + k * PGSIZE) = true ∧
      al.spt_insert (phdr.p_vaddr / PGSIZE * PGSIZE + k * PGSIZE) = true) :
    ∃ l, load_PT_LOAD al fuel file phdr = Run.done (true, l) ∧
      (∀ i, i < phdr.p_filesz →
        ∃ e, l[(phdr.p_vaddr % PGSIZE + i) / PGSIZE]? = some e ∧
          e.upage = (phdr.p_vaddr + i) / PGSIZE * PGSIZE ∧
          e.daddr.file = file.handle ∧
          (phdr.p_vaddr % PGSIZE + i) % PGSIZE < e.daddr.read_bytes ∧
          (phdr.p_offset + i < 2147483648 →
            e.daddr.offset = ((phdr.p_offset / PGSIZE * PGSIZE
              + (phdr.p_vaddr % PGSIZE + i) / PGSIZE * PGSIZE : Nat) : Int) ∧
            e.daddr.offset + (((phdr.p_vaddr % PGSIZE + i) % PGSIZE : Nat) : Int)
              = ((phdr.p_offset + i : Nat) : Int))) ∧
      (∀ i, phdr.p_filesz ≤ i → i < phdr.p_memsz →
        ∃ e, l[(phdr.p_vaddr % PGSIZE + i) / PGSIZE]? = some e ∧
          e.upage = (phdr.p_vaddr + i) / PGSIZE * PGSIZE ∧
          e.daddr.read_bytes ≤ (phdr.p_vaddr % PGSIZE + i) % PGSIZE) := by
  have hRU : ROUND_UP (phdr.p_vaddr % PGSIZE + phdr.p_memsz) PGSIZE / PGSIZE
      = (phdr.p_vaddr % 4096 + phdr.p_memsz + 4095) / 4096 := by
    unfold ROUND_UP PGSIZE; omega
  rw [hRU] at hfuel hal
  simp only [PGSIZE] at hal ⊢
  obtain ⟨l, hl, _, hnth⟩ := load_PT_LOAD_spec al fuel file phdr hwf hlen hv hfuel hal
  obtain ⟨hpo, hoff, hfm, hm0, hend, hpg⟩ := validate_segment_accepts phdr file hwf hlen hv
  refine ⟨l, hl, ?_, ?_⟩
  · intro i hi
    have hk : (phdr.p_vaddr % 4096 + i) / 4096
        < (phdr.p_vaddr % 4096 + phdr.p_memsz + 4095) / 4096 := by omega
    refine ⟨_, hnth _ hk, ?_, rfl, ?_, ?_⟩
    · simp only [page_entry, u32]; omega
    · have hfz : phdr.p_filesz > 0 := by omega
      simp only [page_entry, hfz, if_true]; omega
    · intro hrep
      have hfz : phdr.p_filesz > 0 := by omega
      simp only [page_entry, hfz, if_true]
      have hmin : min ((phdr.p_vaddr % 4096 + i) / 4096 * 4096)
          (phdr.p_vaddr % 4096 + phdr.p_filesz) = (phdr.p_vaddr % 4096 + i) / 4096 * 4096 := by
        omega
      rw [hmin]
      have hid : to_int32 (((phdr.p_offset / 4096 * 4096 : Nat) : Int)
          + (((phdr.p_vaddr % 4096 + i) / 4096 * 4096 : Nat) : Int))
          = ((phdr.p_offset / 4096 * 4096 : Nat) : Int)
            + (((phdr.p_vaddr % 4096 + i) / 4096 * 4096 : Nat) : Int) := by
        apply to_int32_id <;> omega
      rw [hid]
      constructor <;> omega
  · intro i hi1 hi2
    have hk : (phdr.p_vaddr % 4096 + i) / 4096
        < (phdr.p_vaddr % 4096 + phdr.p_memsz + 4095) / 4096 := by omega
    refine ⟨_, hnth _ hk, ?_, ?_⟩
    · simp only [page_entry, u32]; omega
    · simp only [page_entry]
      split_ifs <;> omega

/-- C1 at a concrete header: `demo_phdr` in `demo_file`, every allocation succeeding. -/
theorem load_PT_LOAD_descriptors_witness :
    validate_segment demo_phdr demo_file = true ∧
    ∃ l, load_PT_LOAD Alloc.always 2 demo_file demo_phdr = Run.done (true, l) ∧
      (∀ i, i < demo_phdr.p_filesz →
        ∃ e, l[(demo_phdr.p_vaddr % PGSIZE + i) / PGSIZE]? = some e ∧
          e.upage = (demo_phdr.p_vaddr + i) / PGSIZE * PGSIZE ∧
          e.daddr.file = demo_file.handle ∧
          (demo_phdr.p_vaddr % PGSIZE + i) % PGSIZE < e.daddr.read_bytes ∧
          (demo_phdr.p_offset + i < 2147483648 →
            e.daddr.offset = ((demo_phdr.p_offset / PGSIZE * PGSIZE
              + (demo_phdr.p_vaddr % PGSIZE + i) / PGSIZE * PGSIZE : Nat) : Int) ∧
            e.daddr.offset + (((demo_phdr.p_vaddr % PGSIZE + i) % PGSIZE : Nat) : Int)
              = ((demo_phdr.p_offset + i : Nat) : Int))) ∧
      (∀ i, demo_phdr.p_filesz ≤ i → i < demo_phdr.p_memsz →
        ∃ e, l[(demo_phdr.p_vaddr % PGSIZE + i) / PGSIZE]? = some e ∧
          e.upage = (demo_phdr.p_vaddr + i) / PGSIZE * PGSIZE ∧
          e.daddr.read_bytes ≤ (demo_phdr.p_vaddr % PGSIZE + i) % PGSIZE) :=
  ⟨by decide, load_PT_LOAD_descriptors Alloc.always 2 demo_file demo_phdr (by decide)
    (by decide) (by decide) (by decide) (fun _ _ => ⟨rfl, rfl⟩)⟩

/-- C1 as stated fails: `validate_segment` accepts `big_phdr`, byte `i = 0x80000000` of the
segment lies in page `k = 0x80000`, and the descriptor registered for that page has the
`off_t` offset `-0x80000000`, not `(p_offset rounded down) + k * PGSIZE = 0x80000000`. -/
theorem load_PT_LOAD_offset_wraps :
    validate_segment big_phdr demo_file = true ∧ 2147483648 < big_phdr.p_filesz ∧
    ∃ l e, load_PT_LOAD Alloc.always 1048576 demo_file big_phdr = Run.done (true, l) ∧
      l[(big_phdr.p_vaddr % PGSIZE + 2147483648) / PGSIZE]? = some e ∧
      e.daddr.offset = -2147483648 ∧
      e.daddr.offset ≠ ((big_phdr.p_offset / PGSIZE * PGSIZE
        + (big_phdr.p_vaddr % PGSIZE + 2147483648) / PGSIZE * PGSIZE : Nat) : Int) := by
  have hv : validate_segment big_phdr demo_file = true := by decide
  obtain ⟨l, hl, _, hnth⟩ := load_PT_LOAD_spec Alloc.always 1048576 demo_file big_phdr
    (by decide) (by decide) hv (by decide) (fun _ _ => ⟨rfl, rfl⟩)
  have hk := hnth 524288 (by decide)
  refine ⟨hv, by decide, l, _, hl, hk, ?_, ?_⟩
  · simp [page_entry, big_phdr, to_int32]
  · simp [page_entry, big_phdr, to_int32, PGSIZE]

/-! ## `load`: the executable header -/

theorem ehdr_rejected_eq_false_iff (file : File) :
    ehdr_rejected file = false ↔ valid_ehdr file := by
  unfold ehdr_rejected valid_ehdr file_read memcmp_ne sizeof_Elf32_Ehdr sizeof_Elf32_Phdr
    ELF_MAGIC
  simp only [List.drop_zero, Bool.or_eq_false_iff, decide_eq_false_iff_not, not_not,
    List.length_take, not_lt]
  constructor
  · rintro ⟨⟨⟨⟨⟨⟨h1, h2⟩, h3⟩, h4⟩, h5⟩, h6⟩, h7⟩
    refine ⟨by omega, ?_, h3, h4, h5, h6, h7⟩
    simpa using h2
  · rintro ⟨h1, h2, h3, h4, h5, h6, h7⟩
    refine ⟨⟨⟨⟨⟨⟨by omega, ?_⟩, h3⟩, h4⟩, h5⟩, h6⟩, h7⟩
    simpa using h2

/-- C3: when `load` has its page directory and `filesys_open` returns `file`, `load` returns
false without reading any program header unless a full executable header can be read and the
magic, type, machine, version, program header size and program header count are as required;
and the header check rejects a file exactly when one of these fails. -/
theorem load_ehdr_check (env : Env) (fuel : Nat) (file_name : List Nat) (file : File)
    (hpd : env.pagedir_create = true)
    (hopen : env.filesys_open file_name = some file) :
    (¬ valid_ehdr file →
      ∃ r, load env fuel file_name = Run.done r ∧ r.success = false ∧
        r.log = [FileOp.read_ehdr, FileOp.close file.handle]) ∧
    (ehdr_rejected file = false ↔ valid_ehdr file) := by
  refine ⟨?_, ehdr_rejected_eq_false_iff file⟩
  intro hbad
  have hrej : ehdr_rejected file = true := by
    cases h : ehdr_rejected file with
    | true => rfl
    | false => exact absurd ((ehdr_rejected_eq_false_iff file).1 h) hbad
  unfold load
  simp only [hpd, Bool.not_true, hopen, hrej, if_true]
  exact ⟨_, rfl, rfl, rfl⟩

/-- C3 at a concrete image: "echo" names the 84-byte executable `demo_elf`, which the header
check accepts, and "zero" names the 128 zero bytes of `demo_file`, which `load` rejects. -/
theorem load_ehdr_check_witness :
    demo_env.pagedir_create = true ∧
    demo_env.filesys_open echo_name = some demo_elf ∧
    ehdr_rejected demo_elf = false ∧ valid_ehdr demo_elf ∧
    ∃ r, load zero_env 2 echo_name = Run.done r ∧ r.success = false ∧
      r.log = [FileOp.read_ehdr, FileOp.close demo_file.handle] :=
  ⟨rfl, rfl, by decide,
    (load_ehdr_check demo_env 2 echo_name demo_elf rfl rfl).2.1 (by decide),
    (load_ehdr_check zero_env 2 echo_name demo_file rfl rfl).1
      (fun h => absurd ((load_ehdr_check zero_env 2 echo_name demo_file rfl rfl).2.2 h)
        (by decide))⟩

/-! ## `load`: the file handle of the descriptors -/

theorem load_segment_loop_file (al : Alloc) (file : Nat) (writable : Bool) :
    ∀ (fuel : Nat) (ofs : Int) (upage r z : Nat) (b : Bool) (l : List spt_entry),
      load_segment_loop al file writable fuel ofs upage r z = Run.done (b, l) →
      ∀ e, e ∈ l → e.daddr.file = file := by
  intro fuel
  induction fuel with
  | zero => intro ofs upage r z b l h; simp [load_segment_loop] at h
  | succ f ih =>
    intro ofs upage r z b l h
    rw [load_segment_loop] at h
    simp only at h
    split at h
    · split at h
      · simp only [Run.done.injEq, Prod.mk.injEq] at h
        intro e he; rw [← h.2] at he; simp at he
      · split at h
        · simp only [Run.done.injEq, Prod.mk.injEq] at h
          intro e he; rw [← h.2] at he; simp at he
        · split at h
          · rename_i r' l' heq
            simp only [Run.done.injEq, Prod.mk.injEq] at h
            intro e he
            rw [← h.2] at he
            rcases List.mem_cons.1 he with rfl | he'
            · rfl
            · exact ih _ _ _ _ _ _ heq e he'
          · simp at h
          · simp at h
    · simp only [Run.done.injEq, Prod.mk.injEq] at h
      intro e he; rw [← h.2] at he; simp at he

theorem load_PT_LOAD_file (al : Alloc) (fuel : Nat) (file : File) (phdr : Elf32_Phdr)
    (b : Bool) (l : List spt_entry) (h : load_PT_LOAD al fuel file phdr = Run.done (b, l)) :
    ∀ e, e ∈ l → e.daddr.file = file.handle := by
  unfold load_PT_LOAD load_segment at h
  simp only at h
  split_ifs at h
  all_goals exact load_segment_loop_file al file.handle _ _ _ _ _ _ _ _ h

theorem load_phdrs_file (al : Alloc) (fuel : Nat) (file : File) :
    ∀ (n : Nat) (file_ofs : Int) (st : LoadState) (b : Bool) (st' : LoadState),
      load_phdrs al fuel file n file_ofs st = Run.done (b, st') →
      (∀ e, e ∈ st.spt → e.daddr.file = file.handle) →
      ∀ e, e ∈ st'.spt → e.daddr.file = file.handle := by
  intro n
  induction n with
  | zero =>
    intro file_ofs st b st' h hst
    simp only [load_phdrs, Run.done.injEq, Prod.mk.injEq] at h
    rw [← h.2]; exact hst
  | succ n ih =>
    intro file_ofs st b st' h hst
    rw [load_phdrs] at h
    simp only at h
    split_ifs at h with h1 h2 h3 h4 h5
    · simp only [Run.done.injEq, Prod.mk.injEq] at h
      rw [← h.2]; exact hst
    · simp only [Run.done.injEq, Prod.mk.injEq] at h
      rw [← h.2]; exact hst
    · simp only [Run.done.injEq, Prod.mk.injEq] at h
      rw [← h.2]; exact hst
    · revert h
      split
      · rename_i l heq
        intro h
        refine ih _ _ _ _ h ?_
        intro e he
        rcases List.mem_append.1 he with he | he
        · exact hst e he
        · exact load_PT_LOAD_file al fuel file _ _ _ heq e he
      · rename_i l heq
        intro h
        simp only [Run.done.injEq, Prod.mk.injEq] at h
        rw [← h.2]
        intro e he
        rcases List.mem_append.1 he with he | he
        · exact hst e he
        · exact load_PT_LOAD_file al fuel file _ _ _ heq e he
      · intro h; simp at h
      · intro h; simp at h
    · simp only [Run.done.injEq, Prod.mk.injEq] at h
      rw [← h.2]; exact hst
    · exact ih _ _ _ _ h hst

/-- C8, what the code does: whenever `load` returns true, the file that `filesys_open`
returned has been passed to `file_close` as the last file operation of `load`, and it is the
file that every descriptor registered by `load_segment` refers to. -/
theorem load_closes_descriptor_file (env : Env) (fuel : Nat) (file_name : List Nat)
    (r : LoadResult) (h : load env fuel file_name = Run.done r) (hs : r.success = true) :
    ∃ file, r.file = some file ∧ r.log.getLast? = some (FileOp.close file.handle) ∧
      ∀ e, e ∈ r.spt → e.daddr.file = file.handle := by
  unfold load at h
  simp only at h
  split at h
  · simp only [Run.done.injEq] at h; rw [← h] at hs; simp at hs
  · split at h
    · simp only [Run.done.injEq] at h; rw [← h] at hs; simp at hs
    · rename_i file hopen
      split at h
      · simp only [Run.done.injEq] at h; rw [← h] at hs; simp at hs
      · split at h
        · simp only [Run.done.injEq] at h; rw [← h] at hs; simp at hs
        · rename_i st heq
          split at h
          · simp only [Run.done.injEq] at h; rw [← h] at hs; simp at hs
          · simp only [Run.done.injEq] at h
            rw [← h]
            refine ⟨file, rfl, by simp, ?_⟩
            exact load_phdrs_file _ _ _ _ _ _ _ _ heq (by simp)
        · simp at h
        · simp at h

/-- C8 at a concrete image: `load` of `demo_elf` returns true, registers one descriptor that
refers to file handle 3, and has closed handle 3. -/
theorem load_closes_descriptor_file_witness :
    load demo_env 2 echo_name = Run.done demo_load_result ∧
    ∃ file, demo_load_result.file = some file ∧
      demo_load_result.log.getLast? = some (FileOp.close file.handle) ∧
      ∀ e, e ∈ demo_load_result.spt → e.daddr.file = file.handle :=
  ⟨by decide, load_closes_descriptor_file demo_env 2 echo_name demo_load_result (by decide) rfl⟩

/-! ## Argument passing: memory -/

theorem write_byte_same (m : Mem) (a b : Nat) (h : a < 4294967296) : write_byte m a b a = b := by
  have : u32 a = a := by unfold u32; omega
  simp [write_byte, this]

theorem write_byte_other (m : Mem) (a b x : Nat) (h : a < 4294967296) (hx : x ≠ a) :
    write_byte m a b x = m x := by
  have : u32 a = a := by unfold u32; omega
  simp [write_byte, this, hx]

theorem write_word_other (m : Mem) (a w x : Nat) (h : a + 4 ≤ 4294967296)
    (hx : x < a ∨ a + 4 ≤ x) : write_word m a w x = m x := by
  unfold write_word
  rw [write_byte_other _ _ _ _ (by omega) (by omega), write_byte_other _ _ _ _ (by omega) (by omega),
    write_byte_other _ _ _ _ (by omega) (by omega), write_byte_other _ _ _ _ (by omega) (by omega)]

theorem read_word_congr (m m' : Mem) (a : Nat) (h : a + 4 ≤ 4294967296)
    (hm : ∀ x, a ≤ x → x < a + 4 → m' x = m x) : read_word m' a = read_word m a := by
  unfold read_word u32
  rw [Nat.mod_eq_of_lt (by omega : a < 4294967296), Nat.mod_eq_of_lt (by omega : a + 1 < 4294967296),
    Nat.mod_eq_of_lt (by omega : a + 2 < 4294967296), Nat.mod_eq_of_lt (by omega : a + 3 < 4294967296),
    hm a (by omega) (by omega), hm (a + 1) (by omega) (by omega), hm (a + 2) (by omega) (by omega),
    hm (a + 3) (by omega) (by omega)]

theorem read_word_write_word (m : Mem) (a w : Nat) (h : a + 4 ≤ 4294967296)
    (hw : w < 4294967296) : read_word (write_word m a w) a = w := by
  unfold read_word write_word
  have e0 : u32 a = a := by unfold u32; omega
  have e1 : u32 (a + 1) = a + 1 := by unfold u32; omega
  have e2 : u32 (a + 2) = a + 2 := by unfold u32; omega
  have e3 : u32 (a + 3) = a + 3 := by unfold u32; omega
  simp only [write_byte, e0, e1, e2, e3]
  have n1 : a ≠ a + 1 := by omega
  have n2 : a ≠ a + 2 := by omega
  have n3 : a ≠ a + 3 := by omega
  have n4 : a + 1 ≠ a + 2 := by omega
  have n5 : a + 1 ≠ a + 3 := by omega
  have n6 : a + 2 ≠ a + 3 := by omega
  simp only [n1, n2, n3, n4, n5, n6, if_true, if_false]
  omega

theorem write_bytes_other (bs : List Nat) :
    ∀ (m : Mem) (a x : Nat), a + bs.length ≤ 4294967296 → (x < a ∨ a + bs.length ≤ x) →
      write_bytes m a bs x = m x := by
  induction bs with
  | nil => intro m a x _ _; rfl
  | cons b bs ih =>
    intro m a x h hx
    simp only [List.length_cons] at h hx
    rw [write_bytes, ih _ _ _ (by omega) (by omega), write_byte_other _ _ _ _ (by omega) (by omega)]

theorem write_bytes_at (bs : List Nat) :
    ∀ (m : Mem) (a j : Nat), a + bs.length ≤ 4294967296 → j < bs.length →
      write_bytes m a bs (a + j) = bs.getD j 0 := by
  induction bs with
  | nil => intro m a j _ hj; simp at hj
  | cons b bs ih =>
    intro m a j h hj
    simp only [List.length_cons] at h hj
    rw [write_bytes]
    cases j with
    | zero =>
      rw [write_bytes_other _ _ _ _ (by omega) (by omega)]
      simp [write_byte_same _ _ _ (by omega : a < 4294967296)]
    | succ j =>
      have e : a + (j + 1) = a + 1 + j := by omega
      rw [e, ih _ _ _ (by omega) (by omega)]
      simp

theorem strlcpy_other (m : Mem) (p : Nat) (t : List Nat) (x : Nat)
    (h : p + (t.length + 1) ≤ 4294967296) (hx : x < p ∨ p + (t.length + 1) ≤ x) :
    strlcpy m p t (t.length + 1) x = m x := by
  unfold strlcpy
  simp only [Nat.add_one_ne_zero, if_false, Nat.add_sub_cancel, List.take_length]
  exact write_bytes_other _ _ _ _ (by simpa using h) (by simpa using hx)

theorem strlcpy_holds (m : Mem) (p : Nat) (t : List Nat)
    (h : p + (t.length + 1) ≤ 4294967296) :
    holds_string (strlcpy m p t (t.length + 1)) p t := by
  unfold strlcpy holds_string
  simp only [Nat.add_one_ne_zero, if_false, Nat.add_sub_cancel, List.take_length]
  constructor
  · intro j hj
    rw [write_bytes_at _ _ _ _ (by simpa using h) (by simp; omega)]
    simp [List.getD_eq_getElem?_getD, List.getElem?_append_left hj]
  · rw [write_bytes_at _ _ _ _ (by simpa using h) (by simp)]
    simp [List.getD_eq_getElem?_getD]

/-! ## Argument passing: tokens -/

theorem skip_delimiters_length (s : List Nat) : (skip_delimiters s).length ≤ s.length := by
  induction s with
  | nil => simp [skip_delimiters]
  | cons c cs ih =>
    rw [skip_delimiters]
    split_ifs
    · simp only [List.length_cons]; omega
    · exact le_refl _

theorem scan_token_length (s : List Nat) :
    (scan_token s).1.length + (scan_token s).2.length = s.length := by
  induction s with
  | nil => simp [scan_token]
  | cons c cs ih =>
    rw [scan_token]
    split_ifs
    · simp
    · simp only [List.length_cons]; omega

theorem skip_delimiters_head (s : List Nat) (c : Nat) (cs : List Nat)
    (h : skip_delimiters s = c :: cs) : c ≠ 32 := by
  induction s with
  | nil => simp [skip_delimiters] at h
  | cons d ds ih =>
    rw [skip_delimiters] at h
    split_ifs at h with hd
    · exact ih h
    · simp only [List.cons.injEq] at h
      rw [← h.1]; exact hd

theorem scan_token_cons (c : Nat) (cs : List Nat) (h32 : c ≠ 32) (h0 : c ≠ 0) :
    scan_token (c :: cs) = (c :: (scan_token cs).1, (scan_token cs).2) := by
  rw [scan_token]
  simp [h32, h0]

theorem strtok_r_length (s : List Nat) (t save : List Nat) (h : strtok_r s = some (t, save)) :
    save.length < s.length ∧ 0 < t.length := by
  unfold strtok_r at h
  have hk := skip_delimiters_length s
  split at h
  · simp at h
  · rename_i c cs hsk
    rw [hsk] at hk
    have h32 := skip_delimiters_head s c cs hsk
    split at h
    · simp at h
    · rename_i h0
      have hsc := scan_token_length (c :: cs)
      rw [scan_token_cons c cs h32 h0] at h hsc
      simp only [List.length_cons] at hsc hk
      split at h
      · rename_i hr
        simp only [Option.some.injEq, Prod.mk.injEq] at h
        rw [hr] at hsc
        rw [← h.1, ← h.2]
        simp only [List.length_nil, List.length_cons] at hsc ⊢
        omega
      · rename_i d ds hr
        rw [hr] at hsc
        simp only [List.length_cons] at hsc
        split at h
        · simp only [Option.some.injEq, Prod.mk.injEq] at h
          rw [← h.1, ← h.2]
          simp only [List.length_cons]
          omega
        · simp only [Option.some.injEq, Prod.mk.injEq] at h
          rw [← h.1, ← h.2]
          simp only [List.length_cons]
          omega

theorem calculate_len_loop_skip (s : List Nat) (a l : Nat) :
    calculate_len_loop s false a l = calculate_len_loop (skip_delimiters s) false a l := by
  induction s with
  | nil => simp [skip_delimiters]
  | cons c cs ih =>
    rw [skip_delimiters]
    split_ifs with hc
    · subst hc
      rw [calculate_len_loop]
      simpa using ih
    · rfl

theorem calculate_len_loop_scan (s : List Nat) :
    ∀ (a l : Nat), calculate_len_loop s true a l
      = calculate_len_loop (scan_token s).2 true a (l + (scan_token s).1.length) := by
  induction s with
  | nil => intro a l; simp [scan_token]
  | cons c cs ih =>
    intro a l
    by_cases hc : c = 32 ∨ c = 0
    · rw [scan_token]; simp [hc]
    · have h32 : c ≠ 32 := fun h => hc (Or.inl h)
      have h0 : c ≠ 0 := fun h => hc (Or.inr h)
      rw [scan_token_cons c cs h32 h0, calculate_len_loop]
      simp only [h0, h32, if_false, ne_eq, not_false_eq_true, if_true, Bool.not_true,
        Bool.false_eq_true, List.length_cons]
      rw [ih]
      rw [show l + 1 + (scan_token cs).1.length = l + ((scan_token cs).1.length + 1) by omega]

theorem calculate_len_loop_none (s : List Nat) (a l : Nat) (h : strtok_r s = none) :
    calculate_len_loop s false a l = (a, l) := by
  rw [calculate_len_loop_skip]
  unfold strtok_r at h
  split at h
  · rename_i hsk; rw [hsk]; rfl
  · rename_i c cs hsk
    rw [hsk]
    split at h
    · rename_i h0; subst h0; rw [calculate_len_loop]; simp
    · split at h
      · simp at h
      · split at h <;> simp at h

theorem scan_token_rest (s : List Nat) (d : Nat) (ds : List Nat)
    (h : (scan_token s).2 = d :: ds) : d = 32 ∨ d = 0 := by
  induction s with
  | nil => simp [scan_token] at h
  | cons c cs ih =>
    rw [scan_token] at h
    split_ifs at h with hc
    · simp only [List.cons.injEq] at h
      rw [← h.1]; exact hc
    · exact ih h

theorem calculate_len_loop_some (s t save : List Nat) (a l : Nat)
    (h : strtok_r s = some (t, save)) :
    calculate_len_loop s false a l = calculate_len_loop save false (a + 1) (l + t.length) := by
  rw [calculate_len_loop_skip]
  unfold strtok_r at h
  split at h
  · simp at h
  · rename_i c cs hsk
    rw [hsk]
    have h32 := skip_delimiters_head s c cs hsk
    split at h
    · simp at h
    · rename_i h0
      have hstep : calculate_len_loop (c :: cs) false a l
          = calculate_len_loop (scan_token (c :: cs)).2 true (a + 1)
              (l + (scan_token (c :: cs)).1.length) := by
        rw [scan_token_cons c cs h32 h0, calculate_len_loop]
        simp only [h0, h32, if_false, ne_eq, not_false_eq_true, if_true, Bool.not_false,
          List.length_cons]
        rw [calculate_len_loop_scan]
        rw [show l + 1 + (scan_token cs).1.length = l + ((scan_token cs).1.length + 1) by omega]
      rw [hstep]
      split at h
      · rename_i hr
        simp only [Option.some.injEq, Prod.mk.injEq] at h
        rw [hr, ← h.1, ← h.2]
        rfl
      · rename_i d ds hr
        have hd := scan_token_rest _ _ _ hr
        split at h
        · rename_i hd0
          simp only [Option.some.injEq, Prod.mk.injEq] at h
          rw [hr, ← h.1, ← h.2]
          subst hd0
          simp [calculate_len_loop]
        · rename_i hd0
          simp only [Option.some.injEq, Prod.mk.injEq] at h
          rw [hr, ← h.1, ← h.2]
          have hd32 : d = 32 := by
            rcases hd with hd | hd
            · exact hd
            · exact absurd hd hd0
          subst hd32
          simp [calculate_len_loop]

theorem strtok_all_fuel (f1 : Nat) :
    ∀ (f2 : Nat) (s : List Nat), s.length < f1 → s.length < f2 →
      strtok_all f1 s = strtok_all f2 s := by
  induction f1 with
  | zero => intro f2 s h; omega
  | succ f1 ih =>
    intro f2 s h1 h2
    obtain ⟨g, rfl⟩ : ∃ g, f2 = g + 1 := ⟨f2 - 1, by omega⟩
    rw [strtok_all, strtok_all]
    cases hst : strtok_r s with
    | none => rfl
    | some r =>
      obtain ⟨t, save⟩ := r
      have hl := (strtok_r_length s t save hst).1
      simp only
      rw [ih g save (by omega) (by omega)]

theorem calculate_len_loop_tokens (fuel : Nat) :
    ∀ (s : List Nat) (a l : Nat), s.length < fuel →
      (calculate_len_loop s false a l).1 = a + (strtok_all fuel s).length ∧
      (calculate_len_loop s false a l).2 + (strtok_all fuel s).length
        = l + strings_len (strtok_all fuel s) := by
  induction fuel with
  | zero => intro s a l h; omega
  | succ f ih =>
    intro s a l h
    rw [strtok_all]
    cases hst : strtok_r s with
    | none =>
      rw [calculate_len_loop_none s a l hst]
      simp [strings_len]
    | some r =>
      obtain ⟨t, save⟩ := r
      have hl := (strtok_r_length s t save hst).1
      rw [calculate_len_loop_some s t save a l hst]
      obtain ⟨h1, h2⟩ := ih save (a + 1) (l + t.length) (by omega)
      simp only [List.length_cons, strings_len, List.map_cons, List.sum_cons] at h2 ⊢
      rw [h1]
      constructor
      · omega
      · omega

theorem calculate_len_tokens (fuel : Nat) (s : List Nat) (h : s.length < fuel) :
    calculate_len (some s) = (true, (strtok_all fuel s).length, strings_len (strtok_all fuel s)) := by
  obtain ⟨h1, h2⟩ := calculate_len_loop_tokens fuel s 0 0 h
  unfold calculate_len
  simp only [Prod.mk.injEq, true_and]
  constructor
  · omega
  · omega

theorem string_offset_zero (ts : List (List Nat)) : string_offset ts 0 = 0 := by
  simp [string_offset, strings_len]

theorem string_offset_succ (t : List Nat) (ts : List (List Nat)) (i : Nat) :
    string_offset (t :: ts) (i + 1) = t.length + 1 + string_offset ts i := by
  simp [string_offset, strings_len]

theorem strings_len_cons (t : List Nat) (ts : List (List Nat)) :
    strings_len (t :: ts) = t.length + 1 + strings_len ts := by
  simp [strings_len]

theorem holds_string_congr (m m' : Mem) (p : Nat) (t : List Nat)
    (hm : ∀ x, p ≤ x → x < p + (t.length + 1) → m' x = m x) (h : holds_string m p t) :
    holds_string m' p t := by
  obtain ⟨h1, h2⟩ := h
  constructor
  · intro j hj
    rw [hm _ (by omega) (by omega)]; exact h1 j hj
  · rw [hm _ (by omega) (by omega)]; exact h2

theorem push_tokens_spec (fuel : Nat) :
    ∀ (s : List Nat) (a p : Nat) (m : Mem), s.length < fuel →
      a + 4 * (strtok_all fuel s).length ≤ p →
      p + strings_len (strtok_all fuel s) < 4294967296 →
      ∃ m', push_tokens fuel s a p m = Run.done (a + 4 * (strtok_all fuel s).length, m') ∧
        (∀ x, (x < a ∨ (a + 4 * (strtok_all fuel s).length ≤ x ∧ x < p) ∨
            p + strings_len (strtok_all fuel s) ≤ x) → m' x = m x) ∧
        (∀ i, i < (strtok_all fuel s).length →
          read_word m' (a + 4 * i) = p + string_offset (strtok_all fuel s) i ∧
          holds_string m' (p + string_offset (strtok_all fuel s) i)
            ((strtok_all fuel s).getD i [])) := by
  induction fuel with
  | zero => intro s a p m h; omega
  | succ f ih =>
    intro s a p m hlen hap hp
    rw [strtok_all] at hap hp ⊢
    rw [push_tokens]
    cases hst : strtok_r s with
    | none =>
      refine ⟨m, by simp, fun x _ => rfl, ?_⟩
      intro i hi; simp at hi
    | some r =>
      obtain ⟨t, save⟩ := r
      rw [hst] at hap hp
      simp only [List.length_cons, strings_len_cons] at hap hp ⊢
      have hl := (strtok_r_length s t save hst).1
      have ea : u32 (a + 4) = a + 4 := by unfold u32; omega
      have ep : u32 (p + (t.length + 1)) = p + (t.length + 1) := by unfold u32; omega
      rw [ea, ep]
      obtain ⟨m', hrun, hframe, hslots⟩ := ih save (a + 4) (p + (t.length + 1))
        (write_word (strlcpy m p t (t.length + 1)) a p) (by omega) (by omega) (by omega)
      have hm2 : ∀ x, (x < a ∨ a + 4 ≤ x) →
          write_word (strlcpy m p t (t.length + 1)) a p x
            = strlcpy m p t (t.length + 1) x := fun x hx =>
        write_word_other _ _ _ _ (by omega) hx
      refine ⟨m', ?_, ?_, ?_⟩
      · rw [hrun]
        rw [show a + 4 + 4 * (strtok_all f save).length
          = a + 4 * ((strtok_all f save).length + 1) by omega]
      · intro x hx
        rw [hframe x (by omega), hm2 x (by omega),
          strlcpy_other _ _ _ _ (by omega) (by omega)]
      · intro i hi
        cases i with
        | zero =>
          rw [string_offset_zero]
          simp only [Nat.mul_zero, Nat.add_zero, List.getD_cons_zero]
          constructor
          · rw [read_word_congr _ m' a (by omega) (fun x h1 h2 => hframe x (by omega))]
            exact read_word_write_word _ _ _ (by omega) (by omega)
          · apply holds_string_congr (strlcpy m p t (t.length + 1))
            · intro x h1 h2
              rw [hframe x (by omega), hm2 x (by omega)]
            · exact strlcpy_holds _ _ _ (by omega)
        | succ i =>
          obtain ⟨h1, h2⟩ := hslots i (by omega)
          rw [string_offset_succ]
          simp only [List.getD_cons_succ]
          constructor
          · rw [show a + 4 * (i + 1) = a + 4 + 4 * i by omega, h1]; omega
          · rw [show p + (t.length + 1 + string_offset (strtok_all f save) i)
              = p + (t.length + 1) + string_offset (strtok_all f save) i by omega]
            exact h2

theorem push_tokens_done (fuel : Nat) :
    ∀ (s : List Nat) (a p : Nat) (m : Mem), s.length < fuel →
      ∃ r, push_tokens fuel s a p m = Run.done r := by
  induction fuel with
  | zero => intro s a p m h; omega
  | succ f ih =>
    intro s a p m hlen
    rw [push_tokens]
    cases hst : strtok_r s with
    | none => exact ⟨_, rfl⟩
    | some r =>
      obtain ⟨t, save⟩ := r
      have hl := (strtok_r_length s t save hst).1
      exact ih save _ _ _ (by omega)

theorem ROUND_UP_WORD (n : Nat) : n ≤ ROUND_UP n WORD_SIZE ∧ ROUND_UP n WORD_SIZE % 4 = 0 := by
  unfold ROUND_UP WORD_SIZE; omega

/-- C5: for a non-null command line, with `argc` and `len` as `calculate_len` computes them,
`argument_passing` returns false and leaves `*esp` and memory as they are when
`ROUND_UP (len, WORD_SIZE) + (argc + 4) * WORD_SIZE` exceeds `PGSIZE`, and otherwise returns
true with `*esp` lowered by exactly that many bytes; a null command line fails too. -/
theorem argument_passing_budget (fuel : Nat) (s : List Nat) (esp : Nat) (m : Mem)
    (hfuel : s.length < fuel) :
    (ROUND_UP (calculate_len (some s)).2.2 WORD_SIZE
        + ((calculate_len (some s)).2.1 + 4) * WORD_SIZE > PGSIZE →
      argument_passing fuel (some s) esp m = Run.done (false, esp, m)) ∧
    (ROUND_UP (calculate_len (some s)).2.2 WORD_SIZE
        + ((calculate_len (some s)).2.1 + 4) * WORD_SIZE ≤ PGSIZE →
      (∃ m', argument_passing fuel (some s) esp m = Run.done (true,
        sub32 esp (ROUND_UP (calculate_len (some s)).2.2 WORD_SIZE
          + ((calculate_len (some s)).2.1 + 4) * WORD_SIZE), m')) ∧
      (PGSIZE ≤ esp → esp < 4294967296 →
        sub32 esp (ROUND_UP (calculate_len (some s)).2.2 WORD_SIZE
          + ((calculate_len (some s)).2.1 + 4) * WORD_SIZE)
        + (ROUND_UP (calculate_len (some s)).2.2 WORD_SIZE
          + ((calculate_len (some s)).2.1 + 4) * WORD_SIZE) = esp)) ∧
    argument_passing fuel none esp m = Run.done (false, esp, m) := by
  have hc1 : (calculate_len (some s)).1 = true := rfl
  refine ⟨?_, ?_, rfl⟩
  · intro h
    unfold argument_passing
    simp only [hc1, Bool.not_true, Bool.false_eq_true, if_false]
    rw [if_pos (by rw [Nat.mul_comm]; exact h)]
  · intro h
    constructor
    · unfold argument_passing
      simp only [hc1, Bool.not_true, Bool.false_eq_true, if_false]
      rw [if_neg (by rw [Nat.mul_comm]; omega)]
      obtain ⟨r, hr⟩ := push_tokens_done fuel s
        (u32 (sub32 esp (ROUND_UP (calculate_len (some s)).2.2 WORD_SIZE
          + ((calculate_len (some s)).2.1 + 4) * WORD_SIZE) + 12))
        (u32 (sub32 esp (ROUND_UP (calculate_len (some s)).2.2 WORD_SIZE
          + ((calculate_len (some s)).2.1 + 4) * WORD_SIZE)
          + 4 * ((calculate_len (some s)).2.1 + 4)))
        (write_word (write_word (write_word m
          (sub32 esp (ROUND_UP (calculate_len (some s)).2.2 WORD_SIZE
            + ((calculate_len (some s)).2.1 + 4) * WORD_SIZE)) 0)
          (u32 (sub32 esp (ROUND_UP (calculate_len (some s)).2.2 WORD_SIZE
            + ((calculate_len (some s)).2.1 + 4) * WORD_SIZE) + 4)) (calculate_len (some s)).2.1)
          (u32 (sub32 esp (ROUND_UP (calculate_len (some s)).2.2 WORD_SIZE
            + ((calculate_len (some s)).2.1 + 4) * WORD_SIZE) + 8))
          (u32 (sub32 esp (ROUND_UP (calculate_len (some s)).2.2 WORD_SIZE
            + ((calculate_len (some s)).2.1 + 4) * WORD_SIZE) + 12))) hfuel
      simp only [hr]
      exact ⟨_, rfl⟩
    · intro h1 h2
      unfold PGSIZE at h h1
      unfold sub32
      omega

/-- C5 at a concrete command line: "echo x y" needs 40 bytes below `PHYS_BASE`. -/
theorem argument_passing_budget_witness :
    echo_x_y.length < 9 ∧
    (∃ m', argument_passing 9 (some echo_x_y) PHYS_BASE (fun _ => 0)
      = Run.done (true, 3221225432, m')) ∧
    argument_passing 9 none PHYS_BASE (fun _ => 0) = Run.done (false, PHYS_BASE, fun _ => 0) :=
  ⟨by decide,
    ((argument_passing_budget 9 echo_x_y PHYS_BASE (fun _ => 0) (by decide)).2.1 (by decide)).1,
    (argument_passing_budget 9 echo_x_y PHYS_BASE (fun _ => 0) (by decide)).2.2⟩

theorem string_offset_bound (ts : List (List Nat)) :
    ∀ i, i < ts.length → string_offset ts i + ((ts.getD i []).length + 1) ≤ strings_len ts := by
  induction ts with
  | nil => intro i hi; simp at hi
  | cons t ts ih =>
    intro i hi
    cases i with
    | zero =>
      rw [string_offset_zero, strings_len_cons]
      simp only [List.getD_cons_zero]; omega
    | succ i =>
      rw [string_offset_succ, strings_len_cons]
      simp only [List.getD_cons_succ, List.length_cons] at hi ⊢
      have := ih i (by omega)
      omega

/-- C4: when `argument_passing` succeeds with new stack pointer `sp`, the word at `sp` is 0,
the word at `sp + WORD_SIZE` is the number of tokens, the word at `sp + 2 * WORD_SIZE` is the
address `sp + 3 * WORD_SIZE` of the slot of `argv[0]`, for every `i` below the number of tokens
the word at `sp + (3 + i) * WORD_SIZE` points to a null-terminated copy of token `i`, and the
word after the last argument pointer is 0. -/
theorem argument_passing_layout (fuel : Nat) (s : List Nat) (esp : Nat) (m : Mem)
    (sp : Nat) (m' : Mem) (hfuel : s.length < fuel) (hpg : PGSIZE ≤ esp)
    (hesp : esp < 4294967296)
    (h : argument_passing fuel (some s) esp m = Run.done (true, sp, m')) :
    read_word m' sp = 0 ∧
    read_word m' (sp + WORD_SIZE) = (tokens s).length ∧
    read_word m' (sp + 2 * WORD_SIZE) = sp + 3 * WORD_SIZE ∧
    (∀ i, i < (tokens s).length →
      holds_string m' (read_word m' (sp + (3 + i) * WORD_SIZE)) ((tokens s).getD i [])) ∧
    read_word m' (sp + (3 + (tokens s).length) * WORD_SIZE) = 0 := by
  have htok : tokens s = strtok_all fuel s :=
    strtok_all_fuel _ _ _ (by omega) hfuel
  rw [htok]
  have hc := calculate_len_tokens fuel s hfuel
  have hR := ROUND_UP_WORD (strings_len (strtok_all fuel s))
  unfold argument_passing at h
  simp only [hc, Bool.not_true, Bool.false_eq_true, if_false] at h
  simp only [WORD_SIZE, PGSIZE] at h hR hpg ⊢
  by_cases hbig : ROUND_UP (strings_len (strtok_all fuel s)) 4
      + 4 * ((strtok_all fuel s).length + 4) > 4096
  · rw [if_pos hbig] at h
    simp at h
  · rw [if_neg hbig] at h
    have e0 : sub32 esp (ROUND_UP (strings_len (strtok_all fuel s)) 4
        + ((strtok_all fuel s).length + 4) * 4)
        = esp - (ROUND_UP (strings_len (strtok_all fuel s)) 4
          + ((strtok_all fuel s).length + 4) * 4) := by
      unfold sub32; omega
    rw [e0] at h
    generalize hsp0 : esp - (ROUND_UP (strings_len (strtok_all fuel s)) 4
          + ((strtok_all fuel s).length + 4) * 4) = sp0 at h
    have e4 : u32 (sp0 + 4) = sp0 + 4 := by unfold u32; omega
    have e8 : u32 (sp0 + 8) = sp0 + 8 := by unfold u32; omega
    have e12 : u32 (sp0 + 12) = sp0 + 12 := by unfold u32; omega
    have ep : u32 (sp0 + 4 * ((strtok_all fuel s).length + 4))
        = sp0 + 4 * ((strtok_all fuel s).length + 4) := by unfold u32; omega
    rw [e4, e8, e12, ep] at h
    obtain ⟨m4, hrun, hframe, hslots⟩ := push_tokens_spec fuel s (sp0 + 12)
      (sp0 + 4 * ((strtok_all fuel s).length + 4))
      (write_word (write_word (write_word m sp0 0) (sp0 + 4) (strtok_all fuel s).length)
        (sp0 + 8) (sp0 + 12)) hfuel (by omega) (by omega)
    rw [hrun] at h
    simp only [Run.done.injEq, Prod.mk.injEq, true_and] at h
    obtain ⟨hsp, hm'⟩ := h
    subst hsp
    subst hm'
    have hfin : ∀ x, (x < sp0 + 12 + 4 * (strtok_all fuel s).length ∨
        sp0 + 12 + 4 * (strtok_all fuel s).length + 4 ≤ x) →
        write_word m4 (sp0 + 12 + 4 * (strtok_all fuel s).length) 0 x = m4 x := fun x hx =>
      write_word_other _ _ _ _ (by omega) hx
    refine ⟨?_, ?_, ?_, ?_, ?_⟩
    · rw [read_word_congr (write_word m sp0 0) _ sp0 (by omega)]
      · exact read_word_write_word _ _ _ (by omega) (by omega)
      · intro x h1 h2
        rw [hfin x (by omega), hframe x (by omega),
          write_word_other _ _ _ _ (by omega) (by omega),
          write_word_other _ _ _ _ (by omega) (by omega)]
    · rw [read_word_congr (write_word (write_word m sp0 0) (sp0 + 4)
        (strtok_all fuel s).length) _ (sp0 + 4) (by omega)]
      · exact read_word_write_word _ _ _ (by omega) (by omega)
      · intro x h1 h2
        rw [hfin x (by omega), hframe x (by omega),
          write_word_other _ _ _ _ (by omega) (by omega)]
    · rw [show sp0 + 2 * 4 = sp0 + 8 by omega, show sp0 + 3 * 4 = sp0 + 12 by omega]
      rw [read_word_congr (write_word (write_word (write_word m sp0 0) (sp0 + 4)
        (strtok_all fuel s).length) (sp0 + 8) (sp0 + 12)) _ (sp0 + 8) (by omega)]
      · exact read_word_write_word _ _ _ (by omega) (by omega)
      · intro x h1 h2
        rw [hfin x (by omega), hframe x (by omega)]
    · intro i hi
      obtain ⟨h1, h2⟩ := hslots i hi
      have hb := string_offset_bound (strtok_all fuel s) i hi
      rw [show sp0 + (3 + i) * 4 = sp0 + 12 + 4 * i by omega]
      rw [read_word_congr m4 _ (sp0 + 12 + 4 * i) (by omega)
        (fun x h1 h2 => hfin x (by omega)), h1]
      exact holds_string_congr m4 _ _ _ (fun x h1 h2 => hfin x (by omega)) h2
    · rw [show sp0 + (3 + (strtok_all fuel s).length) * 4
        = sp0 + 12 + 4 * (strtok_all fuel s).length by omega]
      exact read_word_write_word _ _ _ (by omega) (by omega)

/-- C4 at a concrete command line: the stack of "echo x y" below `PHYS_BASE`. -/
theorem argument_passing_layout_witness :
    echo_x_y.length < 9 ∧ PGSIZE ≤ PHYS_BASE ∧ PHYS_BASE < 4294967296 ∧
    argument_passing 9 (some echo_x_y) PHYS_BASE (fun _ => 0)
      = Run.done (true, 3221225432, echo_stack) ∧
    read_word echo_stack 3221225432 = 0 ∧
    read_word echo_stack (3221225432 + WORD_SIZE) = (tokens echo_x_y).length ∧
    read_word echo_stack (3221225432 + 2 * WORD_SIZE) = 3221225432 + 3 * WORD_SIZE ∧
    (∀ i, i < (tokens echo_x_y).length →
      holds_string echo_stack (read_word echo_stack (3221225432 + (3 + i) * WORD_SIZE))
        ((tokens echo_x_y).getD i [])) ∧
    read_word echo_stack (3221225432 + (3 + (tokens echo_x_y).length) * WORD_SIZE) = 0 :=
  ⟨by decide, by decide, by decide, rfl,
    argument_passing_layout 9 echo_x_y PHYS_BASE (fun _ => 0) 3221225432 echo_stack
      (by decide) (by decide) (by decide) rfl⟩

/-! ## Exit and wait -/

theorem free_children_console (l : List Nat) :
    ∀ k : Kernel, (free_children k l).console = k.console := by
  induction l with
  | nil => intro k; rfl
  | cons e es ih =>
    intro k
    rw [free_children]
    split
    · rw [ih]; rfl
    · rw [ih]
      split <;> rfl

theorem free_children_sema_up (l : List Nat) (q : Nat) :
    ∀ k : Kernel, (free_children k l).trace.count (Event.sema_up q)
      = k.trace.count (Event.sema_up q) := by
  induction l with
  | nil => intro k; rfl
  | cons e es ih =>
    intro k
    rw [free_children]
    split
    · rw [ih]; simp [Kernel.emit]
    · rw [ih]
      split <;> simp [Kernel.emit, Kernel.set_heap, Kernel.set_thread]

theorem free_children_heap (l : List Nat) :
    ∀ (k : Kernel) (q : Nat), q ∉ l → (free_children k l).heap q = k.heap q := by
  induction l with
  | nil => intro k q _; rfl
  | cons e es ih =>
    intro k q hq
    have hqe : q ≠ e := fun h => hq (h ▸ List.mem_cons_self _ _)
    have hqes : q ∉ es := fun h => hq (List.mem_cons_of_mem _ h)
    rw [free_children]
    split
    · rw [ih _ _ hqes]; rfl
    · rw [ih _ _ hqes]
      split <;> simp [Kernel.emit, Kernel.set_heap, Kernel.set_thread, hqe]

theorem free_children_heap_sub (l : List Nat) :
    ∀ (k : Kernel) (q : Nat) (st : exit_status), (free_children k l).heap q = some st →
      k.heap q = some st := by
  induction l with
  | nil => intro k q st h; exact h
  | cons e es ih =>
    intro k q st h
    rw [free_children] at h
    split at h
    · exact ih (k.emit (Event.use_after_free e)) q st h
    · have h2 := ih _ q st h
      split at h2
      · simp only [Kernel.emit, Kernel.set_heap, Kernel.set_thread] at h2
        split_ifs at h2
        exact h2
      · simp only [Kernel.emit, Kernel.set_heap] at h2
        split_ifs at h2
        exact h2

theorem free_children_thread (l : List Nat) (cur : Nat) :
    ∀ k : Kernel, (∀ e, e ∈ l → ∀ st, k.heap e = some st → st.thread ≠ cur) →
      (free_children k l).threads cur = k.threads cur := by
  induction l with
  | nil => intro k _; rfl
  | cons e es ih =>
    intro k h
    rw [free_children]
    split
    · rw [ih]
      · rfl
      · intro e' he' st hst
        exact h e' (List.mem_cons_of_mem _ he') st hst
    · rename_i st hst
      have hne := h e (List.mem_cons_self _ _) st hst
      rw [ih]
      · split <;> simp [Kernel.emit, Kernel.set_heap, Kernel.set_thread, Ne.symm hne]
      · intro e' he' st' hst'
        apply h e' (List.mem_cons_of_mem _ he') st'
        split at hst'
        · simp only [Kernel.emit, Kernel.set_heap, Kernel.set_thread] at hst'
          split_ifs at hst'
          exact hst'
        · simp only [Kernel.emit, Kernel.set_heap] at hst'
          split_ifs at hst'
          exact hst'

/-- C6, amended: `process_exit` does not store the exit value of the thread; when the exit
status pointer of the thread is not null it leaves the `exit_value` of the object as it is and
ups the semaphore `wait_on_exit` of that object exactly once, upping no other semaphore; when
the pointer is null it ups no semaphore and changes no exit status object outside the child
list of the thread. -/
theorem process_exit_notifies (k : Kernel) (cur : Nat) (t : thread)
    (ht : k.threads cur = some t)
    (hself : ∀ e, e ∈ t.child_list → ∀ st, k.heap e = some st → st.thread ≠ cur) :
    (∀ p st, t.exit_status = some p → k.heap p = some st → p ∉ t.child_list →
      (process_exit k cur).heap p = some { st with wait_on_exit := st.wait_on_exit + 1 } ∧
      ∀ q, (process_exit k cur).trace.count (Event.sema_up q)
        = k.trace.count (Event.sema_up q) + (if q = p then 1 else 0)) ∧
    (t.exit_status = none →
      (∀ q, (process_exit k cur).trace.count (Event.sema_up q)
        = k.trace.count (Event.sema_up q)) ∧
      ∀ q, q ∉ t.child_list → (process_exit k cur).heap q = k.heap q) := by
  have hthr : (free_children (k.emit (Event.lock_acquire cur)) t.child_list).threads cur
      = some t := by
    rw [free_children_thread t.child_list cur (k.emit (Event.lock_acquire cur)) hself]
    exact ht
  have hcnt : ∀ q, (free_children (k.emit (Event.lock_acquire cur)) t.child_list).trace.count
      (Event.sema_up q) = k.trace.count (Event.sema_up q) := by
    intro q
    rw [free_children_sema_up]; simp [Kernel.emit]
  have hheap : ∀ q, q ∉ t.child_list →
      (free_children (k.emit (Event.lock_acquire cur)) t.child_list).heap q = k.heap q := by
    intro q hq
    rw [free_children_heap _ _ _ hq]; rfl
  unfold process_exit
  simp only [ht, hthr]
  generalize free_children (k.emit (Event.lock_acquire cur)) t.child_list = k1 at hcnt hheap ⊢
  constructor
  · intro p st hp hst hpl
    have hh := hheap p hpl
    rw [hst] at hh
    simp only [hp]
    have hsym : ∀ q : Nat, (if p = q then 1 else 0) = if q = p then 1 else 0 := by
      intro q
      by_cases h : p = q
      · subst h; simp
      · have h' : q ≠ p := fun e => h e.symm
        simp [h, h']
    cases hx : t.exec_file <;> cases hu : t.is_user <;>
      simp [Kernel.emit, Kernel.set_heap, Kernel.set_thread, hh, hcnt, List.count_cons] <;>
      exact hsym
  · intro hn
    simp only [hn]
    constructor
    · intro q
      cases hx : t.exec_file <;> cases hu : t.is_user <;>
        simp [Kernel.emit, Kernel.set_heap, Kernel.set_thread, hcnt]
    · intro q hq
      cases hx : t.exec_file <;> cases hu : t.is_user <;>
        simp [Kernel.emit, Kernel.set_heap, Kernel.set_thread, hheap q hq]

/-- C6 at a concrete state: the child at address 1 of `demo_kernel` exits. -/
theorem process_exit_notifies_witness :
    demo_kernel.threads 1 = some ⟨3, echo_name, 7, true, some 100, [], none⟩ ∧
    (process_exit demo_kernel 1).heap 100 = some ⟨3, 0, 1, 1⟩ ∧
    ∀ q, (process_exit demo_kernel 1).trace.count (Event.sema_up q)
      = demo_kernel.trace.count (Event.sema_up q) + (if q = 100 then 1 else 0) :=
  ⟨rfl, (process_exit_notifies demo_kernel 1 ⟨3, echo_name, 7, true, some 100, [], none⟩ rfl
    (fun _ he => absurd he (List.not_mem_nil _))).1 100 ⟨3, 0, 0, 1⟩ rfl rfl
    (List.not_mem_nil _)⟩

/-- C6 as stated fails: the child at address 1 of `demo_kernel` exits with value 7 and a
non-null exit status pointer, and after `process_exit` the `exit_value` of its exit status
object is still 0, which is what the `process_wait` of the parent then returns. -/
theorem process_exit_keeps_exit_value :
    demo_kernel.threads 1 = some ⟨3, echo_name, 7, true, some 100, [], none⟩ ∧
    demo_kernel.heap 100 = some ⟨3, 0, 0, 1⟩ ∧
    (process_exit demo_kernel 1).heap 100 = some ⟨3, 0, 1, 1⟩ ∧
    (process_wait (process_exit demo_kernel 1) 2 3).value = some 0 := by
  refine ⟨rfl, rfl, rfl, rfl⟩

theorem find_child_eq_none (heap : Nat → Option exit_status) (child_tid : Int) (l : List Nat) :
    find_child heap child_tid l = none ↔
      ∀ e, e ∈ l → ∀ st, heap e = some st → st.pid ≠ child_tid := by
  induction l with
  | nil => simp [find_child]
  | cons a as ih =>
    rw [find_child]
    cases ha : heap a with
    | none =>
      simp only [ih, List.mem_cons]
      constructor
      · intro h e he st hst
        rcases he with rfl | he
        · rw [ha] at hst; simp at hst
        · exact h e he st hst
      · intro h e he st hst
        exact h e (Or.inr he) st hst
    | some sa =>
      simp only
      by_cases hp : sa.pid = child_tid
      · simp only [hp, if_true]
        constructor
        · intro h; simp at h
        · intro h
          exact absurd hp (h a (List.mem_cons_self _ _) sa ha)
      · simp only [hp, if_false, ih, List.mem_cons]
        constructor
        · intro h e he st hst
          rcases he with rfl | he
          · rw [ha] at hst
            simp only [Option.some.injEq] at hst
            rw [← hst]; exact hp
          · exact h e he st hst
        · intro h e he st hst
          exact h e (Or.inr he) st hst

theorem find_child_eq_some (heap : Nat → Option exit_status) (child_tid : Int) (l : List Nat)
    (hnd : (l.map (fun e => (heap e).map exit_status.pid)).Nodup)
    (e : Nat) (st : exit_status) (he : e ∈ l) (hst : heap e = some st)
    (hp : st.pid = child_tid) : find_child heap child_tid l = some (e, st) := by
  induction l with
  | nil => simp at he
  | cons a as ih =>
    rw [List.map_cons, List.nodup_cons] at hnd
    rw [find_child]
    by_cases hae : a = e
    · subst hae
      simp [hst, hp]
    · have he' : e ∈ as := by
        rcases List.mem_cons.1 he with h | h
        · exact absurd h.symm hae
        · exact h
      cases ha : heap a with
      | none => exact ih hnd.2 he'
      | some sa =>
        simp only
        by_cases hpa : sa.pid = child_tid
        · exfalso
          apply hnd.1
          rw [List.mem_map]
          refine ⟨e, he', ?_⟩
          rw [hst, ha]
          simp [hp, hpa]
        · simp only [hpa, if_false]
          exact ih hnd.2 he'

/-- C7: when no entry of the child list of the current thread has `pid == child_tid`,
`process_wait` returns -1, downs no semaphore and leaves the threads and the exit status
objects as they are; when an entry matches, `process_wait` sleeps as long as the semaphore of
the entry is zero and otherwise returns the `exit_value` of the entry, removes the entry from
the list and frees it, and a repeated `process_wait` for the same identifier returns -1. -/
theorem process_wait_spec (k : Kernel) (cur : Nat) (t : thread) (child_tid : Int)
    (ht : k.threads cur = some t)
    (hnd : (t.child_list.map (fun e => (k.heap e).map exit_status.pid)).Nodup) :
    ((∀ e, e ∈ t.child_list → ∀ st, k.heap e = some st → st.pid ≠ child_tid) →
      ∃ k', process_wait k cur child_tid = WaitResult.returned (-1) k' ∧
        k'.threads = k.threads ∧ k'.heap = k.heap ∧
        k'.trace = k.trace ++ [Event.lock_acquire cur, Event.lock_release cur]) ∧
    (∀ e st, e ∈ t.child_list → k.heap e = some st → st.pid = child_tid →
      (st.wait_on_exit = 0 → ∃ k', process_wait k cur child_tid = WaitResult.blocked k') ∧
      (0 < st.wait_on_exit →
        ∃ k', process_wait k cur child_tid = WaitResult.returned st.exit_value k' ∧
          k'.threads cur = some { t with child_list := t.child_list.erase e } ∧
          e ∉ t.child_list.erase e ∧
          k'.heap e = none ∧
          ∃ k'', process_wait k' cur child_tid = WaitResult.returned (-1) k'')) := by
  constructor
  · intro hno
    have hf := (find_child_eq_none k.heap child_tid t.child_list).2 hno
    unfold process_wait
    simp only [ht, hf]
    exact ⟨_, rfl, rfl, rfl, by simp [Kernel.emit]⟩
  · intro e st he hst hp
    have hf := find_child_eq_some k.heap child_tid t.child_list hnd e st he hst hp
    have hndl : t.child_list.Nodup := List.Nodup.of_map _ hnd
    constructor
    · intro h0
      unfold process_wait
      simp only [ht, hf, h0, if_true]
      exact ⟨_, rfl⟩
    · intro hpos
      have h0 : st.wait_on_exit ≠ 0 := by omega
      obtain ⟨k', hk'⟩ : ∃ k' : Kernel, k' = ((((((k.emit (Event.lock_acquire cur)).set_heap e
          (some { st with wait_on_exit := st.wait_on_exit - 1 })).emit
          (Event.sema_down e)).set_thread cur
          (some { t with child_list := t.child_list.erase e })).set_heap e none).emit
          (Event.free e)).emit (Event.lock_release cur) := ⟨_, rfl⟩
      have hthr : k'.threads cur = some { t with child_list := t.child_list.erase e } := by
        rw [hk']; simp [Kernel.emit, Kernel.set_heap, Kernel.set_thread]
      have hheap : ∀ x, k'.heap x = if x = e then none else k.heap x := by
        intro x
        rw [hk']; simp only [Kernel.emit, Kernel.set_heap, Kernel.set_thread]
        split_ifs <;> rfl
      refine ⟨k', ?_, hthr, ?_, ?_, ?_⟩
      · unfold process_wait
        simp only [ht, hf, h0, if_false]
        rw [hk']
      · exact fun h => ((List.Nodup.mem_erase_iff hndl).1 h).1 rfl
      · rw [hheap]; simp
      · have hf2 : find_child k'.heap child_tid (t.child_list.erase e) = none := by
          rw [find_child_eq_none]
          intro e' he' st' hst'
          have hne : e' ≠ e := ((List.Nodup.mem_erase_iff hndl).1 he').1
          have hmem : e' ∈ t.child_list := List.mem_of_mem_erase he'
          rw [hheap, if_neg hne] at hst'
          intro hp'
          apply hne
          have hinj := List.inj_on_of_nodup_map hnd hmem he
          apply hinj
          rw [hst', hst]
          simp [hp, hp']
        unfold process_wait
        simp only [hthr, hf2]
        exact ⟨_, rfl⟩

/-- C7 at a concrete state: the parent at address 2 of `demo_kernel` waits for child 3 after
the child has run `process_exit`. -/
theorem process_wait_spec_witness :
    (process_exit demo_kernel 1).threads 2
      = some ⟨1, [109, 97, 105, 110], 0, false, none, [100], none⟩ ∧
    ∃ k', process_wait (process_exit demo_kernel 1) 2 3 = WaitResult.returned 0 k' ∧
      k'.threads 2 = some ⟨1, [109, 97, 105, 110], 0, false, none, [], none⟩ ∧
      100 ∉ [100].erase 100 ∧
      k'.heap 100 = none ∧
      ∃ k'', process_wait k' 2 3 = WaitResult.returned (-1) k'' :=
  ⟨rfl, ((process_wait_spec (process_exit demo_kernel 1) 2
    ⟨1, [109, 97, 105, 110], 0, false, none, [100], none⟩ 3 rfl (by decide)).2
    100 ⟨3, 0, 1, 1⟩ (by decide) rfl rfl).2 (by decide)⟩

/-! ## The exit line -/

theorem free_children_thread_fields (l : List Nat) (a : Nat) :
    ∀ k : Kernel, ((free_children k l).threads a).map
        (fun t => (t.name, t.exit_value, t.is_user))
      = (k.threads a).map (fun t => (t.name, t.exit_value, t.is_user)) := by
  induction l with
  | nil => intro k; rfl
  | cons e es ih =>
    intro k
    rw [free_children]
    split
    · rw [ih]; rfl
    · rename_i st hst
      rw [ih]
      split
      · rename_i child hch
        simp only [Kernel.emit, Kernel.set_heap, Kernel.set_thread]
        split_ifs with h
        · subst h; rw [hch]; rfl
        · rfl
      · rfl

theorem process_exit_console (k : Kernel) (cur : Nat) (t : thread)
    (ht : k.threads cur = some t) :
    (process_exit k cur).console
      = k.console ++ (if t.is_user then [Msg.exit_line t.name t.exit_value] else []) := by
  have hf := free_children_thread_fields t.child_list cur (k.emit (Event.lock_acquire cur))
  have hc := free_children_console t.child_list (k.emit (Event.lock_acquire cur))
  have hk : (k.emit (Event.lock_acquire cur)).threads cur = some t := ht
  have hkc : (k.emit (Event.lock_acquire cur)).console = k.console := rfl
  rw [hk] at hf
  rw [hkc] at hc
  unfold process_exit
  simp only [ht]
  generalize free_children (k.emit (Event.lock_acquire cur)) t.child_list = k1 at hf hc ⊢
  cases h1 : k1.threads cur with
  | none => rw [h1] at hf; simp at hf
  | some t1 =>
    rw [h1] at hf
    simp only [Option.map_some', Option.some.injEq, Prod.mk.injEq] at hf
    obtain ⟨hn, hv, hu⟩ := hf
    simp only
    cases hx : t1.exec_file <;> cases hu1 : t1.is_user <;> cases hp : t1.exit_status <;>
      simp only [Kernel.emit, Kernel.set_heap, Kernel.set_thread, if_true, if_false,
        Bool.false_eq_true] <;>
      (try split) <;> simp_all

theorem load_console (env : Env) (fuel : Nat) (file_name : List Nat) (r : LoadResult)
    (h : load env fuel file_name = Run.done r) :
    ∀ msg, msg ∈ r.console → ∀ n v, msg ≠ Msg.exit_line n v := by
  unfold load at h
  simp only at h
  split at h
  · simp only [Run.done.injEq] at h; rw [← h]; simp
  · split at h
    · simp only [Run.done.injEq] at h; rw [← h]; simp
    · split at h
      · simp only [Run.done.injEq] at h; rw [← h]; simp
      · split at h
        · simp only [Run.done.injEq] at h; rw [← h]; simp
        · split at h
          · simp only [Run.done.injEq] at h; rw [← h]; simp
          · simp only [Run.done.injEq] at h; rw [← h]; simp
        · simp at h
        · simp at h

/-- C9, amended: `process_exit` prints the line `"<name>: exit(<value>)\n"` exactly once when
the `is_user` flag of the thread is set and prints nothing otherwise; `start_process` sets the
flag before it looks at the result of `load` and `argument_passing`, so a thread for which
they fail, and which exits without entering user mode, prints the exit line once as well. -/
theorem process_exit_prints (env : Env) (fuel : Nat) (k : Kernel) (cur : Nat) (t : thread)
    (cmd_line : List Nat) (m : Mem) (ht : k.threads cur = some t) :
    (process_exit k cur).console
      = k.console ++ (if t.is_user then [Msg.exit_line t.name t.exit_value] else []) ∧
    ∀ r, start_process env fuel k cur cmd_line m = Run.done r → r.success = false →
      ∃ pre, r.k.console = k.console ++ pre ++ [Msg.exit_line t.name t.exit_value] ∧
        ∀ msg, msg ∈ pre → ∀ n v, msg ≠ Msg.exit_line n v := by
  refine ⟨process_exit_console k cur t ht, ?_⟩
  intro r hr hs
  unfold start_process at hr
  simp only [get_file_name, Bool.true_and, if_true] at hr
  split at hr
  · simp at hr
  · simp at hr
  · rename_i lr hload
    split at hr
    · simp at hr
    · simp at hr
    · rename_i ap hap
      have hpre := load_console env fuel _ lr hload
      simp only [ht, Kernel.set_thread, if_true] at hr
      split at hr
      · simp only [Run.done.injEq] at hr
        rw [← hr]
        simp only [thread_exit]
        refine ⟨lr.console, ?_, hpre⟩
        rename_i hfail
        simp only [Bool.not_eq_true'] at hfail
        simp only [hfail, Bool.false_eq_true, if_false]
        rw [process_exit_console _ cur { t with is_user := true } (by simp)]
        simp
      · simp only [Run.done.injEq] at hr
        rw [← hr] at hs
        simp at hs

/-- C9 at a concrete state: the thread at address 1 of `fresh_kernel`. -/
theorem process_exit_prints_witness :
    fresh_kernel.threads 1 = some ⟨3, echo_name, -1, false, some 100, [], none⟩ ∧
    (process_exit fresh_kernel 1).console = [] ∧
    ∀ r, start_process empty_env 9 fresh_kernel 1 echo_x_y (fun _ => 0) = Run.done r →
      r.success = false →
      ∃ pre, r.k.console = fresh_kernel.console ++ pre ++ [Msg.exit_line echo_name (-1)] ∧
        ∀ msg, msg ∈ pre → ∀ n v, msg ≠ Msg.exit_line n v :=
  ⟨rfl, (process_exit_prints empty_env 9 fresh_kernel 1
      ⟨3, echo_name, -1, false, some 100, [], none⟩ echo_x_y (fun _ => 0) rfl).1,
    (process_exit_prints empty_env 9 fresh_kernel 1
      ⟨3, echo_name, -1, false, some 100, [], none⟩ echo_x_y (fun _ => 0) rfl).2⟩

/-- C9 as stated fails: the thread at address 1 of `fresh_kernel` runs `start_process` for
"echo x y" when no file "echo" exists; `load` fails, the thread never enters user mode, and
the console shows the exit line of the thread after the message of `load`. -/
theorem start_process_failure_prints_exit :
    (start_process empty_env 9 fresh_kernel 1 echo_x_y (fun _ => 0)).get?.map
      (fun r => (r.success, r.frame.isSome, r.k.console))
    = some (false, false, [Msg.open_failed echo_name, Msg.exit_line echo_name (-1)]) := by
  rfl

/-! ## `process_execute` -/

/-- C10: `process_execute` returns -1 for a null command line, when no page can be allocated,
when `thread_create` fails, whatever the indeterminate value of `start.success`, and when
`start_process` reports failure; it returns the identifier of the new thread when the thread
was created and `start_process` reported success, and in no other case does it return
anything but -1. -/
theorem process_execute_result (env : Env) (x : ExecEnv) (fuel : Nat) (k : Kernel) (m : Mem) :
    process_execute env x fuel k m none = Run.done (-1, k) ∧
    ∀ s : List Nat,
      (x.palloc_get_page = false →
        process_execute env x fuel k m (some s) = Run.done (-1, k)) ∧
      (x.palloc_get_page = true →
        (x.thread_create (get_file_name (some (fn_copy s))).2 k).1 = TID_ERROR →
        process_execute env x fuel k m (some s)
          = Run.done (-1, (x.thread_create (get_file_name (some (fn_copy s))).2 k).2.2)) ∧
      (x.palloc_get_page = true →
        (x.thread_create (get_file_name (some (fn_copy s))).2 k).1 ≠ TID_ERROR →
        ∀ r, start_process env fuel (x.thread_create (get_file_name (some (fn_copy s))).2 k).2.2
            (x.thread_create (get_file_name (some (fn_copy s))).2 k).2.1 (fn_copy s) m
            = Run.done r →
          (r.success = false → process_execute env x fuel k m (some s) = Run.done (-1, r.k)) ∧
          (r.success = true → process_execute env x fuel k m (some s)
            = Run.done ((x.thread_create (get_file_name (some (fn_copy s))).2 k).1, r.k))) := by
  refine ⟨rfl, ?_⟩
  intro s
  have hg : (get_file_name (some (fn_copy s))).1 = true := rfl
  refine ⟨?_, ?_, ?_⟩
  · intro hp
    unfold process_execute
    simp [hp, TID_ERROR]
  · intro hp htid
    unfold process_execute
    simp only [hp, Bool.not_true, Bool.false_eq_true, if_false, hg, if_true, htid]
    cases x.start_success <;> simp [TID_ERROR]
  · intro hp htid r hr
    unfold process_execute
    simp only [hp, Bool.not_true, Bool.false_eq_true, if_false, hg, if_true, htid, hr]
    constructor
    · intro h; simp [h]
    · intro h; simp [h]

/-- C10 at a concrete state: `thread_create` fails while the indeterminate `start.success`
happens to be true, and `process_execute` returns -1. -/
theorem process_execute_result_witness :
    failing_exec_env.start_success = true ∧
    (process_execute empty_env failing_exec_env 9 fresh_kernel (fun _ => 0)
      (some echo_x_y)).get?.map Prod.fst = some (-1) :=
  ⟨rfl, by
    rw [((process_execute_result empty_env failing_exec_env 9 fresh_kernel
      (fun _ => 0)).2 echo_x_y).2.1 rfl rfl]
    rfl⟩

/-! ## Tokens and splitting at spaces -/

theorem mem_of_mem_skip_delimiters (s : List Nat) (c : Nat) (h : c ∈ skip_delimiters s) :
    c ∈ s := by
  induction s with
  | nil => simp [skip_delimiters] at h
  | cons d ds ih =>
    rw [skip_delimiters] at h
    split_ifs at h
    · exact List.mem_cons_of_mem _ (ih h)
    · exact h

theorem mem_of_mem_scan_token_rest (s : List Nat) (c : Nat) (h : c ∈ (scan_token s).2) :
    c ∈ s := by
  induction s with
  | nil => simp [scan_token] at h
  | cons d ds ih =>
    rw [scan_token] at h
    split_ifs at h
    · exact h
    · exact List.mem_cons_of_mem _ (ih h)

theorem splitOn_scan_token (s : List Nat) (h0 : ∀ c, c ∈ s → c ≠ 0) :
    s.splitOn 32 = (scan_token s).1 ::
      (match (scan_token s).2 with
        | [] => []
        | _ :: ds => ds.splitOn 32) := by
  induction s with
  | nil => simp [scan_token]
  | cons c cs ih =>
    have hc0 : c ≠ 0 := h0 c (List.mem_cons_self _ _)
    have ih' := ih (fun d hd => h0 d (List.mem_cons_of_mem _ hd))
    by_cases hc : c = 32
    · subst hc
      rw [scan_token]
      simp [List.splitOn, List.splitOnP_cons]
    · rw [scan_token_cons c cs hc hc0]
      have : (c :: cs).splitOn 32 = (cs.splitOn 32).modifyHead (List.cons c) := by
        simp [List.splitOn, List.splitOnP_cons, hc]
      rw [this, ih']
      rfl

theorem filter_splitOn_skip (s : List Nat) :
    (s.splitOn 32).filter (fun t => decide (t ≠ [])) =
      ((skip_delimiters s).splitOn 32).filter (fun t => decide (t ≠ [])) := by
  induction s with
  | nil => rfl
  | cons c cs ih =>
    rw [skip_delimiters]
    split_ifs with hc
    · subst hc
      rw [← ih]
      simp [List.splitOn, List.splitOnP_cons]
    · rfl

/-- The tokens that `strtok_r` yields for a command line without null bytes are the non-empty
pieces between its spaces. -/
theorem strtok_all_eq_splitOn (fuel : Nat) :
    ∀ s : List Nat, s.length < fuel → (∀ c, c ∈ s → c ≠ 0) →
      strtok_all fuel s = (s.splitOn 32).filter (fun t => decide (t ≠ [])) := by
  induction fuel with
  | zero => intro s h; omega
  | succ f ih =>
    intro s hlen h0
    rw [strtok_all, filter_splitOn_skip]
    have hsk0 : ∀ c, c ∈ skip_delimiters s → c ≠ 0 := fun c hc =>
      h0 c (mem_of_mem_skip_delimiters s c hc)
    cases hst : strtok_r s with
    | none =>
      unfold strtok_r at hst
      split at hst
      · rename_i hsk; rw [hsk]; rfl
      · rename_i c cs hsk
        rw [hsk] at hsk0
        have := hsk0 c (List.mem_cons_self _ _)
        split at hst
        · rename_i hc; exact absurd hc this
        · split at hst
          · simp at hst
          · split at hst <;> simp at hst
    | some r =>
      obtain ⟨t, save⟩ := r
      have hl := strtok_r_length s t save hst
      unfold strtok_r at hst
      split at hst
      · simp at hst
      · rename_i c cs hsk
        rw [hsk] at hsk0 ⊢
        rw [splitOn_scan_token (c :: cs) hsk0]
        have hrest0 : ∀ d, d ∈ (scan_token (c :: cs)).2 → d ≠ 0 := fun d hd =>
          hsk0 d (mem_of_mem_scan_token_rest _ d hd)
        split at hst
        · simp at hst
        · split at hst
          · rename_i hr
            simp only [Option.some.injEq, Prod.mk.injEq] at hst
            obtain ⟨ht, hs⟩ := hst
            have hne : (scan_token (c :: cs)).1 ≠ [] := by
              rw [ht]; intro h; rw [h] at hl; simp at hl
            simp only [hr]
            rw [List.filter_cons_of_pos (by simpa using hne), ht, ← hs]
            cases f with
            | zero => omega
            | succ g => simp [strtok_all, strtok_r, skip_delimiters]
          · rename_i d ds hr
            rw [hr] at hrest0
            have hd0 := hrest0 d (List.mem_cons_self _ _)
            simp only [hd0, if_false, Option.some.injEq, Prod.mk.injEq] at hst
            obtain ⟨ht, hs⟩ := hst
            have hne : (scan_token (c :: cs)).1 ≠ [] := by
              rw [ht]; intro h; rw [h] at hl; simp at hl
            simp only [hr]
            rw [List.filter_cons_of_pos (by simpa using hne), ht, ← hs]
            congr 1
            rw [hs]
            apply ih save (by omega)
            intro x hx
            rw [← hs] at hx
            exact hrest0 x (List.mem_cons_of_mem _ hx)

/-- The tokens of a command line without null bytes are the non-empty pieces between its
spaces, in order. -/
theorem tokens_eq_splitOn (s : List Nat) (h0 : ∀ c, c ∈ s → c ≠ 0) :
    tokens s = (s.splitOn 32).filter (fun t => decide (t ≠ [])) :=
  strtok_all_eq_splitOn (s.length + 1) s (by omega) h0

/-! ## The memory range and the arguments of an accepted segment -/

/-- C17: for a program header that `validate_segment` accepts, every address of the memory
range of the segment, computed without wrap-around, is at or above `PGSIZE` and below
`PHYS_BASE`. -/
theorem validate_segment_range (phdr : Elf32_Phdr) (file : File) (hwf : phdr.wf)
    (hlen : file.data.length < 2147483648) (hv : validate_segment phdr file = true) :
    ∀ i, i < phdr.p_memsz → PGSIZE ≤ phdr.p_vaddr + i ∧ phdr.p_vaddr + i < PHYS_BASE := by
  obtain ⟨_, _, _, _, hend, hpg⟩ := validate_segment_accepts phdr file hwf hlen hv
  intro i hi
  unfold PGSIZE PHYS_BASE
  omega

/-- C17 at a concrete header: the 64 bytes of `demo_phdr`. -/
theorem validate_segment_range_witness :
    validate_segment demo_phdr demo_file = true ∧
    ∀ i, i < demo_phdr.p_memsz →
      PGSIZE ≤ demo_phdr.p_vaddr + i ∧ demo_phdr.p_vaddr + i < PHYS_BASE :=
  ⟨by decide, validate_segment_range demo_phdr demo_file (by decide) (by decide) (by decide)⟩

theorem load_PT_LOAD_eq (al : Alloc) (fuel : Nat) (file : File) (phdr : Elf32_Phdr) :
    load_PT_LOAD al fuel file phdr
      = load_segment al fuel file.handle (to_int32 (segment_args phdr).file_page)
          (segment_args phdr).mem_page (segment_args phdr).read_bytes
          (segment_args phdr).zero_bytes (segment_args phdr).writable := rfl

theorem load_segment_loop_ne_panic (al : Alloc) (file : Nat) (writable : Bool) :
    ∀ (fuel : Nat) (ofs : Int) (upage r z : Nat),
      load_segment_loop al file writable fuel ofs upage r z ≠ Run.panic := by
  intro fuel
  induction fuel with
  | zero => intro ofs upage r z; simp [load_segment_loop]
  | succ f ih =>
    intro ofs upage r z
    rw [load_segment_loop]
    simp only
    split
    · split
      · simp
      · split
        · simp
        · split
          · simp
          · rename_i heq; exact absurd heq (ih _ _ _ _)
          · simp
    · simp

/-- C18: for a `PT_LOAD` header that `validate_segment` accepts, the arguments that `load`
computes involve no 32-bit overflow or underflow and satisfy the three assertions of
`load_segment`: `page_offset + p_memsz` and its round-up stay below `2 ^ 32`, `read_bytes` is
at most the round-up, `read_bytes + zero_bytes` is the round-up and a multiple of `PGSIZE`,
the file offset and the user page are page-aligned, and `load_segment` does not panic. -/
theorem load_segment_args_ok (phdr : Elf32_Phdr) (file : File) (hwf : phdr.wf)
    (hlen : file.data.length < 2147483648) (hv : validate_segment phdr file = true) :
    (segment_args phdr).page_offset = phdr.p_vaddr % PGSIZE ∧
    (segment_args phdr).page_offset + phdr.p_memsz ≤ 4294967295 ∧
    ROUND_UP ((segment_args phdr).page_offset + phdr.p_memsz) PGSIZE ≤ 4294967295 ∧
    (segment_args phdr).read_bytes
      = (if phdr.p_filesz > 0 then (segment_args phdr).page_offset + phdr.p_filesz else 0) ∧
    (segment_args phdr).read_bytes
      ≤ ROUND_UP ((segment_args phdr).page_offset + phdr.p_memsz) PGSIZE ∧
    (segment_args phdr).read_bytes + (segment_args phdr).zero_bytes
      = ROUND_UP ((segment_args phdr).page_offset + phdr.p_memsz) PGSIZE ∧
    ((segment_args phdr).read_bytes + (segment_args phdr).zero_bytes) % PGSIZE = 0 ∧
    (segment_args phdr).file_page = phdr.p_offset / PGSIZE * PGSIZE ∧
    to_int32 (segment_args phdr).file_page % (PGSIZE : Int) = 0 ∧
    (segment_args phdr).mem_page = phdr.p_vaddr / PGSIZE * PGSIZE ∧
    (segment_args phdr).mem_page &&& PGMASK = 0 ∧
    ∀ (al : Alloc) (fuel : Nat), load_PT_LOAD al fuel file phdr ≠ Run.panic := by
  obtain ⟨hpo, hoff, hfm, hm0, hend, hpg⟩ := validate_segment_accepts phdr file hwf hlen hv
  obtain ⟨_, ho, hva, _, hf, hm, _, _⟩ := hwf
  have hR := ROUND_UP_u32_eq (phdr.p_vaddr % 4096 + phdr.p_memsz) (by omega)
  have hfp : phdr.p_offset &&& NOT_PGMASK = phdr.p_offset / 4096 * 4096 := by
    rw [and_NOT_PGMASK _ ho]; omega
  have hmp : phdr.p_vaddr &&& NOT_PGMASK = phdr.p_vaddr / 4096 * 4096 := by
    rw [and_NOT_PGMASK _ hva]; omega
  have hofs : to_int32 ((phdr.p_offset / 4096 * 4096 : Nat) : Int)
      = ((phdr.p_offset / 4096 * 4096 : Nat) : Int) := by
    apply to_int32_id <;> omega
  have hru : ROUND_UP (phdr.p_vaddr % 4096 + phdr.p_memsz) 4096
      = (phdr.p_vaddr % 4096 + phdr.p_memsz + 4095) / 4096 * 4096 := by
    unfold ROUND_UP; omega
  have hrb : (segment_args phdr).read_bytes
      = (if phdr.p_filesz > 0 then phdr.p_vaddr % 4096 + phdr.p_filesz else 0) := by
    simp only [segment_args, and_PGMASK]
    split_ifs
    · unfold u32; omega
    · rfl
  have hzb : (segment_args phdr).read_bytes + (segment_args phdr).zero_bytes
      = (phdr.p_vaddr % 4096 + phdr.p_memsz + 4095) / 4096 * 4096 := by
    rw [hrb]
    simp only [segment_args, and_PGMASK, hR]
    split_ifs
    · have : u32 (phdr.p_vaddr % 4096 + phdr.p_filesz) = phdr.p_vaddr % 4096 + phdr.p_filesz := by
        unfold u32; omega
      rw [this]; unfold sub32; omega
    · omega
  have hpoe : (segment_args phdr).page_offset = phdr.p_vaddr % 4096 := by
    simp only [segment_args, and_PGMASK]
  have hfpe : (segment_args phdr).file_page = phdr.p_offset / 4096 * 4096 := by
    simp only [segment_args, hfp]
  have hmpe : (segment_args phdr).mem_page = phdr.p_vaddr / 4096 * 4096 := by
    simp only [segment_args, hmp]
  have ha3 : to_int32 (segment_args phdr).file_page % ((4096 : Nat) : Int) = 0 := by
    rw [hfpe, hofs]; omega
  have ha2 : (segment_args phdr).mem_page &&& PGMASK = 0 := by
    rw [hmpe, and_PGMASK]; omega
  simp only [PGSIZE, hpoe, hru]
  refine ⟨trivial, by omega, by omega, hrb, ?_, hzb, ?_, hfpe, ha3, hmpe, ha2, ?_⟩
  · rw [hrb]; split_ifs <;> omega
  · rw [hzb]; omega
  · intro al fuel
    rw [load_PT_LOAD_eq]
    unfold load_segment
    have a1 : ¬ (u32 ((segment_args phdr).read_bytes + (segment_args phdr).zero_bytes)
        % PGSIZE ≠ 0) := by
      rw [hzb]; unfold u32 PGSIZE; omega
    have a2 : ¬ (((segment_args phdr).mem_page &&& PGMASK) ≠ 0) := by simp [ha2]
    have a3 : ¬ (to_int32 (segment_args phdr).file_page % ((PGSIZE : Nat) : Int) ≠ 0) :=
      fun h => h ha3
    rw [if_neg a1, if_neg a2, if_neg a3]
    exact load_segment_loop_ne_panic _ _ _ _ _ _ _ _

/-- C18 at a concrete header: the arguments for `demo_phdr`. -/
theorem load_segment_args_ok_witness :
    validate_segment demo_phdr demo_file = true ∧
    segment_args demo_phdr = ⟨false, 0, 134512640, 0, 64, 4032⟩ ∧
    ((segment_args demo_phdr).read_bytes + (segment_args demo_phdr).zero_bytes) % PGSIZE = 0 ∧
    ∀ (al : Alloc) (fuel : Nat), load_PT_LOAD al fuel demo_file demo_phdr ≠ Run.panic :=
  ⟨by decide, by decide,
    (load_segment_args_ok demo_phdr demo_file (by decide) (by decide) (by decide)).2.2.2.2.2.2.1,
    (load_segment_args_ok demo_phdr demo_file (by decide) (by decide)
      (by decide)).2.2.2.2.2.2.2.2.2.2.2⟩

/-! ## The loop of `load_segment` -/

theorem load_segment_loop_step (al : Alloc) (file : Nat) (writable : Bool) (f : Nat) (ofs : Int)
    (upage r z : Nat) (hc : r > 0 ∨ z > 0) (h1 : al.lookup_page upage = true)
    (h2 : al.spt_insert upage = true) :
    load_segment_loop al file writable (f + 1) ofs upage r z =
      match load_segment_loop al file writable f
          (to_int32 (ofs + ((if r < PGSIZE then r else PGSIZE : Nat) : Int)))
          (u32 (upage + PGSIZE)) (counters_step (r, z)).1 (counters_step (r, z)).2 with
      | Run.done (b, l) =>
        Run.done (b, ⟨upage, writable, ⟨file, ofs, if r < PGSIZE then r else PGSIZE⟩⟩ :: l)
      | Run.panic => Run.panic
      | Run.timeout => Run.timeout := by
  rw [load_segment_loop]
  simp only [hc, if_true, h1, h2, Bool.not_true, Bool.false_eq_true, if_false, counters_step]

theorem counters_step_eq (r z n : Nat) (hr : r < 4294967296) (hz : z < 4294967296)
    (hsum : r + z = (n + 1) * 4096) :
    (if r < PGSIZE then r else PGSIZE) ≤ r ∧
    PGSIZE - (if r < PGSIZE then r else PGSIZE) ≤ z ∧
    (counters_step (r, z)).1 = r - (if r < PGSIZE then r else PGSIZE) ∧
    (counters_step (r, z)).2 = z - (PGSIZE - (if r < PGSIZE then r else PGSIZE)) ∧
    (counters_step (r, z)).1 + (counters_step (r, z)).2 = n * 4096 := by
  unfold counters_step sub32 PGSIZE
  simp only
  split_ifs <;> omega

theorem load_segment_loop_sum (al : Alloc) (file : Nat) (writable : Bool)
    (hal : ∀ p, al.lookup_page p = true ∧ al.spt_insert p = true) :
    ∀ (n fuel : Nat) (ofs : Int) (upage r z : Nat),
      r < 4294967296 → z < 4294967296 → r + z = n * 4096 → n < fuel →
      ∃ l, load_segment_loop al file writable fuel ofs upage r z = Run.done (true, l) ∧
        (l.map (fun e => e.daddr.read_bytes)).sum = r := by
  intro n
  induction n with
  | zero =>
    intro fuel ofs upage r z hr hz hsum hfuel
    obtain ⟨f, rfl⟩ : ∃ f, fuel = f + 1 := ⟨fuel - 1, by omega⟩
    have hr0 : r = 0 := by omega
    have hz0 : z = 0 := by omega
    subst hr0 hz0
    exact ⟨[], by simp [load_segment_loop], rfl⟩
  | succ n ih =>
    intro fuel ofs upage r z hr hz hsum hfuel
    obtain ⟨f, rfl⟩ : ∃ f, fuel = f + 1 := ⟨fuel - 1, by omega⟩
    obtain ⟨c1, c2, c3, c4, c5⟩ := counters_step_eq r z n hr hz hsum
    rw [load_segment_loop_step al file writable f ofs upage r z (by omega) (hal _).1 (hal _).2]
    obtain ⟨l, hl, hs⟩ := ih f (to_int32 (ofs + ((if r < PGSIZE then r else PGSIZE : Nat) : Int)))
      (u32 (upage + PGSIZE)) (counters_step (r, z)).1 (counters_step (r, z)).2
      (by omega) (by omega) c5 (by omega)
    rw [hl]
    refine ⟨_, rfl, ?_⟩
    simp only [List.map_cons, List.sum_cons, hs, c3]
    omega

theorem load_segment_loop_timeout (al : Alloc) (file : Nat) (writable : Bool)
    (hal : ∀ p, al.lookup_page p = true ∧ al.spt_insert p = true) :
    ∀ (n fuel : Nat) (ofs : Int) (upage r z : Nat),
      r < 4294967296 → z < 4294967296 → r + z = n * 4096 → fuel ≤ n →
      load_segment_loop al file writable fuel ofs upage r z = Run.timeout := by
  intro n
  induction n with
  | zero =>
    intro fuel ofs upage r z hr hz hsum hfuel
    have : fuel = 0 := by omega
    subst this
    rfl
  | succ n ih =>
    intro fuel ofs upage r z hr hz hsum hfuel
    cases fuel with
    | zero => rfl
    | succ f =>
      obtain ⟨c1, c2, c3, c4, c5⟩ := counters_step_eq r z n hr hz hsum
      rw [load_segment_loop_step al file writable f ofs upage r z (by omega) (hal _).1
        (hal _).2]
      rw [ih f _ _ _ _ (by omega) (by omega) c5 (by omega)]

theorem counters_iterate (r z n : Nat) (hr : r < 4294967296) (hz : z < 4294967296)
    (hsum : r + z = n * 4096) :
    ∀ k, k ≤ n →
      k * 4096 - min (k * 4096) r ≤ z ∧
      counters_step^[k] (r, z)
        = (r - min (k * 4096) r, z - (k * 4096 - min (k * 4096) r)) := by
  intro k
  induction k with
  | zero => intro _; simp
  | succ k ih =>
    intro hk
    obtain ⟨h1, h2⟩ := ih (by omega)
    rw [Function.iterate_succ_apply', h2]
    constructor
    · omega
    · unfold counters_step sub32 PGSIZE
      simp only [Prod.mk.injEq]
      split_ifs <;> constructor <;> omega

/-- C19: when `read_bytes + zero_bytes` is a multiple of `PGSIZE` below `2 ^ 32` and every
page table lookup and insertion succeeds, the loop of `load_segment` ends after exactly
`(read_bytes + zero_bytes) / PGSIZE` iterations (it needs that many units of fuel and one
more for the last test), the counters never wrap, one entry is registered for each page
`upage + k * PGSIZE` in order, and the `read_bytes` of the entries sum to `read_bytes`. -/
theorem load_segment_loop_pages (al : Alloc) (file : Nat) (writable : Bool) (fuel : Nat)
    (ofs : Int) (upage r z : Nat)
    (hal : ∀ p, al.lookup_page p = true ∧ al.spt_insert p = true)
    (hmul : (r + z) % PGSIZE = 0) (hlt : r + z < 4294967296)
    (ho1 : -2147483648 ≤ ofs) (ho2 : ofs < 2147483648) (hup : upage < 4294967296)
    (hfuel : (r + z) / PGSIZE < fuel) :
    (∃ l, load_segment_loop al file writable fuel ofs upage r z = Run.done (true, l) ∧
      l.length = (r + z) / PGSIZE ∧
      (∀ k, k < (r + z) / PGSIZE → ∃ e, l[k]? = some e ∧
        e.upage = u32 (upage + k * PGSIZE) ∧
        (upage + r + z ≤ 4294967296 → e.upage = upage + k * PGSIZE)) ∧
      (l.map (fun e => e.daddr.read_bytes)).sum = r) ∧
    (∀ fuel', fuel' ≤ (r + z) / PGSIZE →
      load_segment_loop al file writable fuel' ofs upage r z = Run.timeout) ∧
    (∀ k, k ≤ (r + z) / PGSIZE →
      k * PGSIZE - min (k * PGSIZE) r ≤ z ∧
      counters_step^[k] (r, z)
        = (r - min (k * PGSIZE) r, z - (k * PGSIZE - min (k * PGSIZE) r))) := by
  simp only [PGSIZE] at hmul hfuel ⊢
  have hsum : r + z = (r + z) / 4096 * 4096 := by omega
  have hr : r < 4294967296 := by omega
  have hz : z < 4294967296 := by omega
  refine ⟨?_, ?_, ?_⟩
  · obtain ⟨l, hl, hlen, hnth⟩ := load_segment_loop_spec al file writable ((r + z) / 4096)
      fuel ofs upage r z hr hz hsum hfuel ho1 ho2 hup (fun k _ => hal _)
    obtain ⟨l', hl', hs⟩ := load_segment_loop_sum al file writable hal ((r + z) / 4096)
      fuel ofs upage r z hr hz hsum hfuel
    have hll : l' = l := by
      rw [hl] at hl'
      simp only [Run.done.injEq, Prod.mk.injEq, true_and] at hl'
      exact hl'.symm
    subst hll
    refine ⟨l', hl, hlen, ?_, hs⟩
    intro k hk
    refine ⟨_, hnth k hk, rfl, ?_⟩
    intro hfit
    simp only [page_entry, u32]
    apply Nat.mod_eq_of_lt
    omega
  · intro fuel' hf
    exact load_segment_loop_timeout al file writable hal ((r + z) / 4096) fuel' ofs upage r z
      hr hz hsum hf
  · exact counters_iterate r z ((r + z) / 4096) hr hz hsum

/-- C19 at concrete arguments: 5000 bytes to read and 3192 to zero make two pages. -/
theorem load_segment_loop_pages_witness :
    (5000 + 3192) % PGSIZE = 0 ∧
    (∃ l, load_segment_loop Alloc.always 3 false 3 0 134512640 5000 3192 = Run.done (true, l) ∧
      l.length = 2 ∧ (l.map (fun e => e.daddr.read_bytes)).sum = 5000) ∧
    load_segment_loop Alloc.always 3 false 2 0 134512640 5000 3192 = Run.timeout :=
  ⟨by decide,
    (load_segment_loop_pages Alloc.always 3 false 3 0 134512640 5000 3192
      (fun _ => ⟨rfl, rfl⟩) (by decide) (by decide) (by decide) (by decide) (by decide)
      (by decide)).1.imp (fun _ h => ⟨h.1, h.2.1, h.2.2.2⟩),
    (load_segment_loop_pages Alloc.always 3 false 3 0 134512640 5000 3192
      (fun _ => ⟨rfl, rfl⟩) (by decide) (by decide) (by decide) (by decide) (by decide)
      (by decide)).2.1 2 (by decide)⟩

/-! ## `load`: the types of the program headers -/

theorem phdr_at_some (file : File) (file_ofs : Int) (ph : Elf32_Phdr)
    (h : phdr_at file file_ofs = some ph) :
    0 ≤ file_ofs ∧ file_ofs ≤ file_length file ∧
    (file_read file file_ofs.toNat sizeof_Elf32_Phdr).length = sizeof_Elf32_Phdr ∧
    ph = decode_phdr (file_read file file_ofs.toNat sizeof_Elf32_Phdr) ∧
    file_ofs + 32 ≤ file_length file := by
  unfold phdr_at at h
  split_ifs at h with hc
  obtain ⟨h1, h2, h3⟩ := hc
  simp only [Option.some.injEq] at h
  refine ⟨h1, h2, h3, h.symm, ?_⟩
  unfold file_read sizeof_Elf32_Phdr at h3
  simp only [List.length_take, List.length_drop] at h3
  unfold file_length
  omega

theorem load_phdrs_refused (al : Alloc) (fuel : Nat) (file : File) (n : Nat) (file_ofs : Int)
    (st : LoadState) (ph : Elf32_Phdr) (h : phdr_at file file_ofs = some ph)
    (hbad : refused_type ph.p_type) :
    load_phdrs al fuel file (n + 1) file_ofs st
      = Run.done (false, ⟨st.spt, st.log ++ [FileOp.seek file_ofs, FileOp.read_phdr]⟩) := by
  obtain ⟨h1, h2, h3, h4, _⟩ := phdr_at_some file file_ofs ph h
  rw [load_phdrs]
  have hc : ¬ (file_ofs < 0 ∨ file_ofs > file_length file) := by omega
  simp only [hc, if_false, h3, ne_eq, not_true_eq_false]
  rw [← h4]
  unfold refused_type at hbad
  simp only [hbad, if_true]

theorem load_phdrs_passes (al : Alloc) (fuel : Nat) (file : File)
    (hlen : file.data.length < 2147483648) (n : Nat) (file_ofs : Int)
    (st : LoadState) (h : phdr_passes al fuel file file_ofs) :
    ∃ st1, load_phdrs al fuel file (n + 1) file_ofs st
      = load_phdrs al fuel file n (file_ofs + 32) st1 := by
  obtain ⟨ph, hat, hok, hload⟩ := h
  obtain ⟨h1, h2, h3, h4, h5⟩ := phdr_at_some file file_ofs ph hat
  have hnext : to_int32 (file_ofs + ((sizeof_Elf32_Phdr : Nat) : Int)) = file_ofs + 32 := by
    apply to_int32_id
    · unfold sizeof_Elf32_Phdr; omega
    · unfold file_length at h5; unfold sizeof_Elf32_Phdr; omega
  rw [load_phdrs]
  have hc : ¬ (file_ofs < 0 ∨ file_ofs > file_length file) := by omega
  simp only [hc, if_false, h3, ne_eq, not_true_eq_false, hnext]
  rw [← h4]
  unfold refused_type at hok
  simp only [hok, if_false]
  by_cases hl : ph.p_type = PT_LOAD
  · obtain ⟨hv, l, hrun⟩ := hload hl
    simp only [hl, if_true, hv, hrun]
    exact ⟨_, rfl⟩
  · simp only [hl, if_false]
    exact ⟨_, rfl⟩

theorem load_phdrs_reaches_refused (al : Alloc) (fuel : Nat) (file : File)
    (hlen : file.data.length < 2147483648) :
    ∀ (j n : Nat) (file_ofs : Int) (st : LoadState), j < n →
      (∀ i, i < j → phdr_passes al fuel file (file_ofs + 32 * i)) →
      (∃ ph, phdr_at file (file_ofs + 32 * j) = some ph ∧ refused_type ph.p_type) →
      ∃ st', load_phdrs al fuel file n file_ofs st = Run.done (false, st') := by
  intro j
  induction j with
  | zero =>
    intro n file_ofs st hn _ hbad
    obtain ⟨m, rfl⟩ : ∃ m, n = m + 1 := ⟨n - 1, by omega⟩
    obtain ⟨ph, hat, hr⟩ := hbad
    simp only [Nat.cast_zero, mul_zero, add_zero] at hat
    exact ⟨_, load_phdrs_refused al fuel file m file_ofs st ph hat hr⟩
  | succ j ih =>
    intro n file_ofs st hn hpass hbad
    obtain ⟨m, rfl⟩ : ∃ m, n = m + 1 := ⟨n - 1, by omega⟩
    have h0 := hpass 0 (by omega)
    simp only [Nat.cast_zero, mul_zero, add_zero] at h0
    obtain ⟨st1, hstep⟩ := load_phdrs_passes al fuel file hlen m file_ofs st h0
    rw [hstep]
    apply ih m (file_ofs + 32) st1 (by omega)
    · intro i hi
      have := hpass (i + 1) (by omega)
      rw [show file_ofs + 32 + 32 * (i : Int) = file_ofs + 32 * ((i + 1 : Nat) : Int) by
        push_cast; ring]
      exact this
    · rw [show file_ofs + 32 + 32 * (j : Int) = file_ofs + 32 * ((j + 1 : Nat) : Int) by
        push_cast; ring]
      exact hbad

theorem load_of_load_phdrs (env : Env) (fuel : Nat) (file_name : List Nat) (file : File)
    (hpd : env.pagedir_create = true) (hopen : env.filesys_open file_name = some file)
    (hhdr : ehdr_rejected file = false) (b : Bool) (st : LoadState)
    (h : load_phdrs env.alloc fuel file (decode_ehdr (file_read file 0 sizeof_Elf32_Ehdr)).e_phnum
      (to_int32 (decode_ehdr (file_read file 0 sizeof_Elf32_Ehdr)).e_phoff)
      ⟨[], [FileOp.read_ehdr]⟩ = Run.done (b, st)) :
    ∃ r, load env fuel file_name = Run.done r ∧ r.success = (b && env.setup_stack) := by
  unfold load
  simp only [hpd, Bool.not_true, Bool.false_eq_true, if_false, hopen, hhdr, h]
  cases b with
  | false => exact ⟨_, rfl, rfl⟩
  | true =>
    cases hs : env.setup_stack with
    | false => exact ⟨_, rfl, rfl⟩
    | true => exact ⟨_, rfl, rfl⟩

/-- C12: for an image that passes the check of the executable header, if the loop over the
program headers gets past the first `j` headers and header `j` can be read and has type
`PT_DYNAMIC`, `PT_INTERP` or `PT_SHLIB`, then `load` returns false, whatever the headers after
it are. -/
theorem load_refuses_dynamic (env : Env) (fuel : Nat) (file_name : List Nat) (file : File)
    (j : Nat) (hpd : env.pagedir_create = true)
    (hopen : env.filesys_open file_name = some file)
    (hlen : file.data.length < 2147483648) (hhdr : ehdr_rejected file = false)
    (hj : j < (decode_ehdr (file_read file 0 sizeof_Elf32_Ehdr)).e_phnum)
    (hpass : ∀ i, i < j → phdr_passes env.alloc fuel file
      (to_int32 (decode_ehdr (file_read file 0 sizeof_Elf32_Ehdr)).e_phoff + 32 * i))
    (hbad : ∃ ph, phdr_at file
      (to_int32 (decode_ehdr (file_read file 0 sizeof_Elf32_Ehdr)).e_phoff + 32 * j) = some ph ∧
      refused_type ph.p_type) :
    ∃ r, load env fuel file_name = Run.done r ∧ r.success = false := by
  obtain ⟨st', hrun⟩ := load_phdrs_reaches_refused env.alloc fuel file hlen j _ _
    ⟨[], [FileOp.read_ehdr]⟩ hj hpass hbad
  obtain ⟨r, hr, hs⟩ := load_of_load_phdrs env fuel file_name file hpd hopen hhdr false st' hrun
  exact ⟨r, hr, by simpa using hs⟩

/-- C12 at a concrete image: the only program header of `interp_elf` is a `PT_INTERP`
header. -/
theorem load_refuses_dynamic_witness :
    ehdr_rejected interp_elf = false ∧
    phdr_at interp_elf 52 = some ⟨3, 0, 134512640, 134512640, 84, 84, 5, 4096⟩ ∧
    ∃ r, load interp_env 2 echo_name = Run.done r ∧ r.success = false :=
  ⟨by decide, by decide,
    load_refuses_dynamic interp_env 2 echo_name interp_elf 0 rfl rfl (by decide) (by decide)
      (by decide) (fun i hi => absurd hi (Nat.not_lt_zero i))
      ⟨⟨3, 0, 134512640, 134512640, 84, 84, 5, 4096⟩, by decide, by decide⟩⟩

theorem load_phdrs_all_ignored (al : Alloc) (fuel : Nat) (file : File)
    (hlen : file.data.length < 2147483648) :
    ∀ (n : Nat) (file_ofs : Int) (st : LoadState),
      (∀ i, i < n → ∃ ph, phdr_at file (file_ofs + 32 * i) = some ph ∧
        ph.p_type ≠ PT_LOAD ∧ ¬ refused_type ph.p_type) →
      ∃ st', load_phdrs al fuel file n file_ofs st = Run.done (true, st') := by
  intro n
  induction n with
  | zero => intro file_ofs st _; exact ⟨st, rfl⟩
  | succ n ih =>
    intro file_ofs st hall
    obtain ⟨ph, hat, hnl, hnr⟩ := hall 0 (by omega)
    simp only [Nat.cast_zero, mul_zero, add_zero] at hat
    obtain ⟨st1, hstep⟩ := load_phdrs_passes al fuel file hlen n file_ofs st
      ⟨ph, hat, hnr, fun h => absurd h hnl⟩
    rw [hstep]
    apply ih
    intro i hi
    have := hall (i + 1) (by omega)
    rw [show file_ofs + 32 + 32 * (i : Int) = file_ofs + 32 * ((i + 1 : Nat) : Int) by
      push_cast; ring]
    exact this

/-- C11, amended: for an image that passes the check of the executable header, a program
header whose type is unknown is ignored, like `PT_NULL`, `PT_NOTE`, `PT_PHDR` and `PT_STACK`:
when every program header can be read and none has type `PT_LOAD`, `PT_DYNAMIC`, `PT_INTERP`
or `PT_SHLIB`, `load` goes on to set up the stack and returns true if that succeeds. -/
theorem load_ignores_other_types (env : Env) (fuel : Nat) (file_name : List Nat)
    (file : File) (hpd : env.pagedir_create = true)
    (hopen : env.filesys_open file_name = some file)
    (hlen : file.data.length < 2147483648) (hhdr : ehdr_rejected file = false)
    (hall : ∀ i, i < (decode_ehdr (file_read file 0 sizeof_Elf32_Ehdr)).e_phnum →
      ∃ ph, phdr_at file
        (to_int32 (decode_ehdr (file_read file 0 sizeof_Elf32_Ehdr)).e_phoff + 32 * i) = some ph ∧
        ph.p_type ≠ PT_LOAD ∧ ¬ refused_type ph.p_type) :
    ∃ r, load env fuel file_name = Run.done r ∧ r.success = env.setup_stack := by
  obtain ⟨st', hrun⟩ := load_phdrs_all_ignored env.alloc fuel file hlen _ _
    ⟨[], [FileOp.read_ehdr]⟩ hall
  obtain ⟨r, hr, hs⟩ := load_of_load_phdrs env fuel file_name file hpd hopen hhdr true st' hrun
  exact ⟨r, hr, by simpa using hs⟩

/-- C11 at a concrete image: the only program header of `unknown_type_elf` has type 7. -/
theorem load_ignores_other_types_witness :
    ehdr_rejected unknown_type_elf = false ∧
    ∃ r, load unknown_type_env 2 echo_name = Run.done r ∧
      r.success = unknown_type_env.setup_stack :=
  ⟨by decide,
    load_ignores_other_types unknown_type_env 2 echo_name unknown_type_elf rfl rfl (by decide)
      (by decide) (fun i hi => by
        have hi0 : i = 0 := by
          have : (decode_ehdr (file_read unknown_type_elf 0 sizeof_Elf32_Ehdr)).e_phnum = 1 := by
            decide
          omega
        subst hi0
        exact ⟨⟨7, 0, 134512640, 134512640, 84, 84, 5, 4096⟩, by decide, by decide, by decide⟩)⟩

/-- C11 as stated fails: `unknown_type_elf` passes the check of the executable header, its
program header has type 7, which is none of `PT_NULL`, `PT_LOAD`, `PT_NOTE`, `PT_PHDR` and
`PT_STACK`, and `load` returns true. -/
theorem load_accepts_unknown_type :
    ehdr_rejected unknown_type_elf = false ∧
    (decode_ehdr (file_read unknown_type_elf 0 sizeof_Elf32_Ehdr)).e_phnum = 1 ∧
    phdr_at unknown_type_elf 52 = some ⟨7, 0, 134512640, 134512640, 84, 84, 5, 4096⟩ ∧
    (7 ≠ PT_NULL ∧ 7 ≠ PT_LOAD ∧ 7 ≠ PT_NOTE ∧ 7 ≠ PT_PHDR ∧ 7 ≠ PT_STACK) ∧
    (load unknown_type_env 2 echo_name).get?.map (fun r => r.success) = some true := by
  refine ⟨by decide, by decide, by decide, by decide, by decide⟩

/-! ## Argument passing: the whole stack -/

theorem argument_passing_stack (fuel : Nat) (s : List Nat) (esp : Nat) (m : Mem)
    (hfuel : s.length < fuel) (hpg : 4096 ≤ esp) (hesp : esp < 4294967296)
    (hfit : ROUND_UP (strings_len (strtok_all fuel s)) 4
      + 4 * ((strtok_all fuel s).length + 4) ≤ 4096) :
    ∃ sp m', argument_passing fuel (some s) esp m = Run.done (true, sp, m') ∧
      sp + (ROUND_UP (strings_len (strtok_all fuel s)) 4
        + 4 * ((strtok_all fuel s).length + 4)) = esp ∧
      read_word m' sp = 0 ∧
      read_word m' (sp + 4) = (strtok_all fuel s).length ∧
      read_word m' (sp + 8) = sp + 12 ∧
      (∀ i, i < (strtok_all fuel s).length →
        read_word m' (sp + 12 + 4 * i)
          = sp + 4 * ((strtok_all fuel s).length + 4) + string_offset (strtok_all fuel s) i ∧
        holds_string m'
          (sp + 4 * ((strtok_all fuel s).length + 4) + string_offset (strtok_all fuel s) i)
          ((strtok_all fuel s).getD i [])) ∧
      read_word m' (sp + 12 + 4 * (strtok_all fuel s).length) = 0 ∧
      ∀ x, (x < sp ∨ sp + 4 * ((strtok_all fuel s).length + 4)
          + strings_len (strtok_all fuel s) ≤ x) → m' x = m x := by
  have hc := calculate_len_tokens fuel s hfuel
  have hR := ROUND_UP_WORD (strings_len (strtok_all fuel s))
  simp only [WORD_SIZE] at hR
  have hsp : ∃ sp0, sp0 + (ROUND_UP (strings_len (strtok_all fuel s)) 4
      + 4 * ((strtok_all fuel s).length + 4)) = esp :=
    ⟨esp - (ROUND_UP (strings_len (strtok_all fuel s)) 4
      + 4 * ((strtok_all fuel s).length + 4)), by omega⟩
  obtain ⟨sp0, hsp0⟩ := hsp
  have e0 : sub32 esp (ROUND_UP (strings_len (strtok_all fuel s)) 4
      + ((strtok_all fuel s).length + 4) * 4) = sp0 := by
    unfold sub32; omega
  have e4 : u32 (sp0 + 4) = sp0 + 4 := by unfold u32; omega
  have e8 : u32 (sp0 + 8) = sp0 + 8 := by unfold u32; omega
  have e12 : u32 (sp0 + 12) = sp0 + 12 := by unfold u32; omega
  have ep : u32 (sp0 + 4 * ((strtok_all fuel s).length + 4))
      = sp0 + 4 * ((strtok_all fuel s).length + 4) := by unfold u32; omega
  obtain ⟨m4, hrun, hframe, hslots⟩ := push_tokens_spec fuel s (sp0 + 12)
    (sp0 + 4 * ((strtok_all fuel s).length + 4))
    (write_word (write_word (write_word m sp0 0) (sp0 + 4) (strtok_all fuel s).length)
      (sp0 + 8) (sp0 + 12)) hfuel (by omega) (by omega)
  have hfin : ∀ x, (x < sp0 + 12 + 4 * (strtok_all fuel s).length ∨
      sp0 + 12 + 4 * (strtok_all fuel s).length + 4 ≤ x) →
      write_word m4 (sp0 + 12 + 4 * (strtok_all fuel s).length) 0 x = m4 x := fun x hx =>
    write_word_other _ _ _ _ (by omega) hx
  refine ⟨sp0, write_word m4 (sp0 + 12 + 4 * (strtok_all fuel s).length) 0, ?_, hsp0,
    ?_, ?_, ?_, ?_, ?_, ?_⟩
  · unfold argument_passing
    simp only [hc, Bool.not_true, Bool.false_eq_true, if_false, WORD_SIZE, PGSIZE]
    rw [if_neg (by omega), e0, e4, e8, e12, ep, hrun]
  · rw [read_word_congr (write_word m sp0 0) _ sp0 (by omega)]
    · exact read_word_write_word _ _ _ (by omega) (by omega)
    · intro x h1 h2
      rw [hfin x (by omega), hframe x (by omega),
        write_word_other _ _ _ _ (by omega) (by omega),
        write_word_other _ _ _ _ (by omega) (by omega)]
  · rw [read_word_congr (write_word (write_word m sp0 0) (sp0 + 4)
      (strtok_all fuel s).length) _ (sp0 + 4) (by omega)]
    · exact read_word_write_word _ _ _ (by omega) (by omega)
    · intro x h1 h2
      rw [hfin x (by omega), hframe x (by omega),
        write_word_other _ _ _ _ (by omega) (by omega)]
  · rw [read_word_congr (write_word (write_word (write_word m sp0 0) (sp0 + 4)
      (strtok_all fuel s).length) (sp0 + 8) (sp0 + 12)) _ (sp0 + 8) (by omega)]
    · exact read_word_write_word _ _ _ (by omega) (by omega)
    · intro x h1 h2
      rw [hfin x (by omega), hframe x (by omega)]
  · intro i hi
    obtain ⟨h1, h2⟩ := hslots i hi
    have hb := string_offset_bound (strtok_all fuel s) i hi
    constructor
    · rw [read_word_congr m4 _ (sp0 + 12 + 4 * i) (by omega)
        (fun x h1 h2 => hfin x (by omega)), h1]
    · exact holds_string_congr m4 _ _ _ (fun x h1 h2 => hfin x (by omega)) h2
  · exact read_word_write_word _ _ _ (by omega) (by omega)
  · intro x hx
    rw [hfin x (by omega), hframe x (by omega),
      write_word_other _ _ _ _ (by omega) (by omega),
      write_word_other _ _ _ _ (by omega) (by omega),
      write_word_other _ _ _ _ (by omega) (by omega)]

theorem strtok_all_echo_x_y (fuel : Nat) (hfuel : echo_x_y.length < fuel) :
    strtok_all fuel echo_x_y = [[101, 99, 104, 111], [120], [121]] := by
  rw [strtok_all_fuel fuel 9 echo_x_y hfuel (by decide)]
  decide

/-- C14, amended: for the command line "echo x y" pushed at `PHYS_BASE`, the words from the
new stack pointer upward are 0 (the fake return address), then 3 (argc), then the pointer to
argv, then the pointers to "echo", "x" and "y" and a null pointer, and above them the three
strings, whatever the memory held before. -/
theorem echo_x_y_stack (fuel : Nat) (m : Mem) (hfuel : echo_x_y.length < fuel) :
    ∃ m', argument_passing fuel (some echo_x_y) PHYS_BASE m
        = Run.done (true, 3221225432, m') ∧
      read_word m' 3221225432 = 0 ∧
      read_word m' 3221225436 = 3 ∧
      read_word m' 3221225440 = 3221225444 ∧
      read_word m' 3221225444 = 3221225460 ∧
      read_word m' 3221225448 = 3221225465 ∧
      read_word m' 3221225452 = 3221225467 ∧
      read_word m' 3221225456 = 0 ∧
      holds_string m' 3221225460 [101, 99, 104, 111] ∧
      holds_string m' 3221225465 [120] ∧
      holds_string m' 3221225467 [121] := by
  have hts := strtok_all_echo_x_y fuel hfuel
  obtain ⟨sp, m', hrun, hsp, h0, h1, h2, hslots, hnull, _⟩ :=
    argument_passing_stack fuel echo_x_y PHYS_BASE m hfuel (by decide) (by decide)
      (by rw [hts]; decide)
  rw [hts] at hsp h1 hslots hnull
  have hR : ROUND_UP (strings_len [[101, 99, 104, 111], [120], [121]]) 4 = 12 := by decide
  have hspv : sp = 3221225432 := by
    rw [hR] at hsp
    simp only [PHYS_BASE, List.length_cons, List.length_nil] at hsp
    omega
  subst hspv
  have s0 := hslots 0 (by decide)
  have s1 := hslots 1 (by decide)
  have s2 := hslots 2 (by decide)
  have o0 : string_offset [[101, 99, 104, 111], [120], [121]] 0 = 0 := by decide
  have o1 : string_offset [[101, 99, 104, 111], [120], [121]] 1 = 5 := by decide
  have o2 : string_offset [[101, 99, 104, 111], [120], [121]] 2 = 7 := by decide
  rw [o0] at s0
  rw [o1] at s1
  rw [o2] at s2
  exact ⟨m', hrun, h0, h1, h2, s0.1, s1.1, s2.1, hnull, s0.2, s1.2, s2.2⟩

/-- C14 at concrete memory: "echo x y" pushed on zeroed memory. -/
theorem echo_x_y_stack_witness :
    echo_x_y.length < 9 ∧
    ∃ m', argument_passing 9 (some echo_x_y) PHYS_BASE (fun _ => 0)
        = Run.done (true, 3221225432, m') ∧
      read_word m' 3221225432 = 0 ∧
      read_word m' 3221225436 = 3 ∧
      read_word m' 3221225440 = 3221225444 ∧
      read_word m' 3221225444 = 3221225460 ∧
      read_word m' 3221225448 = 3221225465 ∧
      read_word m' 3221225452 = 3221225467 ∧
      read_word m' 3221225456 = 0 ∧
      holds_string m' 3221225460 [101, 99, 104, 111] ∧
      holds_string m' 3221225465 [120] ∧
      holds_string m' 3221225467 [121] :=
  ⟨by decide, echo_x_y_stack 9 (fun _ => 0) (by decide)⟩

/-- C14 as stated fails: after `argument_passing` of "echo x y", the word next to the fake
return address is 3 (argc), not the pointer to argv, and the word after it is the pointer to
argv (the address of the slot of `argv[0]`), not 3. -/
theorem echo_x_y_argc_before_argv :
    argument_passing 9 (some echo_x_y) PHYS_BASE (fun _ => 0)
      = Run.done (true, 3221225432, echo_stack) ∧
    read_word echo_stack 3221225432 = 0 ∧
    read_word echo_stack (3221225432 + WORD_SIZE) = 3 ∧
    read_word echo_stack (3221225432 + 2 * WORD_SIZE) = 3221225432 + 3 * WORD_SIZE ∧
    read_word echo_stack (3221225432 + WORD_SIZE) ≠ 3221225432 + 3 * WORD_SIZE ∧
    read_word echo_stack (3221225432 + 2 * WORD_SIZE) ≠ 3 := by
  refine ⟨rfl, by decide, by decide, by decide, by decide, by decide⟩

/-! ## `calculate_len` and the tokens -/

/-- C16: the argc that `calculate_len` computes is the number of tokens that `strtok_r`
yields in `argument_passing`, and the len it computes is the sum of their lengths plus one
each; so a successful `argument_passing` lowers the stack pointer by the bytes of the words
and of the strings, rounded up by less than a word, and changes no byte outside the range
from the new stack pointer up to the old one. -/
theorem calculate_len_agrees (fuel : Nat) (s : List Nat) (hfuel : s.length < fuel) :
    (calculate_len (some s)).2.1 = (strtok_all fuel s).length ∧
    (calculate_len (some s)).2.2 = ((strtok_all fuel s).map (fun t => t.length + 1)).sum ∧
    ∀ (esp : Nat) (m : Mem) (sp : Nat) (m' : Mem), PGSIZE ≤ esp → esp < 4294967296 →
      argument_passing fuel (some s) esp m = Run.done (true, sp, m') →
      sp + ((calculate_len (some s)).2.1 + 4) * WORD_SIZE + (calculate_len (some s)).2.2 ≤ esp ∧
      esp < sp + ((calculate_len (some s)).2.1 + 4) * WORD_SIZE + (calculate_len (some s)).2.2
        + WORD_SIZE ∧
      ∀ x, (x < sp ∨ esp ≤ x) → m' x = m x := by
  have hc := calculate_len_tokens fuel s hfuel
  rw [hc]
  refine ⟨rfl, rfl, ?_⟩
  intro esp m sp m' hpg hesp hrun
  simp only [PGSIZE, WORD_SIZE] at hpg ⊢
  have hfit : ROUND_UP (strings_len (strtok_all fuel s)) 4
      + 4 * ((strtok_all fuel s).length + 4) ≤ 4096 := by
    by_contra hbig
    unfold argument_passing at hrun
    simp only [hc, Bool.not_true, Bool.false_eq_true, if_false, WORD_SIZE, PGSIZE] at hrun
    rw [if_pos (by omega)] at hrun
    simp at hrun
  obtain ⟨sp0, m0, hrun0, hsp, _, _, _, _, _, hframe⟩ :=
    argument_passing_stack fuel s esp m hfuel hpg hesp hfit
  rw [hrun0] at hrun
  simp only [Run.done.injEq, Prod.mk.injEq, true_and] at hrun
  obtain ⟨e1, e2⟩ := hrun
  subst e1 e2
  have hR : strings_len (strtok_all fuel s) ≤ ROUND_UP (strings_len (strtok_all fuel s)) 4 ∧
      ROUND_UP (strings_len (strtok_all fuel s)) 4 < strings_len (strtok_all fuel s) + 4 := by
    unfold ROUND_UP; omega
  refine ⟨by omega, by omega, ?_⟩
  intro x hx
  exact hframe x (by omega)

/-- C16 at a concrete command line: "echo x y" has 3 tokens that take 9 bytes. -/
theorem calculate_len_agrees_witness :
    echo_x_y.length < 9 ∧
    (calculate_len (some echo_x_y)).2.1 = (strtok_all 9 echo_x_y).length ∧
    (calculate_len (some echo_x_y)).2.2
      = ((strtok_all 9 echo_x_y).map (fun t => t.length + 1)).sum ∧
    ∀ x, (x < 3221225432 ∨ PHYS_BASE ≤ x) → echo_stack x = 0 :=
  ⟨by decide, (calculate_len_agrees 9 echo_x_y (by decide)).1,
    (calculate_len_agrees 9 echo_x_y (by decide)).2.1,
    ((calculate_len_agrees 9 echo_x_y (by decide)).2.2 PHYS_BASE (fun _ => 0) 3221225432
      echo_stack (by decide) (by decide) rfl).2.2⟩

/-- C13, amended: successive spaces are collapsed. For a command line without null bytes the
arguments that `argument_passing` pushes are exactly the non-empty pieces between spaces, in
order, none of them is the empty string, and the argc of `calculate_len` is their number. -/
theorem spaces_collapsed (s : List Nat) (h0 : ∀ c, c ∈ s → c ≠ 0) :
    tokens s = (s.splitOn 32).filter (fun t => decide (t ≠ [])) ∧
    (∀ t, t ∈ tokens s → t ≠ []) ∧
    (calculate_len (some s)).2.1 = ((s.splitOn 32).filter (fun t => decide (t ≠ []))).length := by
  have ht := strtok_all_eq_splitOn (s.length + 1) s (by omega) h0
  have hc := calculate_len_tokens (s.length + 1) s (by omega)
  refine ⟨ht, ?_, ?_⟩
  · intro t hmem
    unfold tokens at hmem
    rw [ht] at hmem
    simpa using (List.mem_filter.1 hmem).2
  · rw [hc, ht]

/-- C13 at a concrete command line: "a  b" has the two arguments "a" and "b". -/
theorem spaces_collapsed_witness :
    (∀ c, c ∈ a_b → c ≠ 0) ∧
    tokens a_b = [[97], [98]] ∧
    (calculate_len (some a_b)).2.1 = 2 :=
  ⟨by decide,
    (spaces_collapsed a_b (by decide)).1.trans (by decide),
    (spaces_collapsed a_b (by decide)).2.2.trans (by decide)⟩

/-- C13 as stated fails: for "a  b", whose arguments are separated by two spaces,
`calculate_len` computes argc 2, not 3, and `argument_passing` stores argc 2 and pushes the
strings "a" and "b", with no empty string between them. -/
theorem a_b_has_two_arguments :
    calculate_len (some a_b) = (true, 2, 4) ∧
    strtok_all 5 a_b = [[97], [98]] ∧
    (argument_passing 5 (some a_b) PHYS_BASE (fun _ => 0)).get?.map
      (fun r => (r.1, r.2.1, read_word r.2.2 (r.2.1 + WORD_SIZE))) = some (true, 3221225444, 2) := by
  refine ⟨by decide, by decide, by decide⟩

/-! ## The invariant of the exit and wait protocol -/

theorem inv_emit (k : Kernel) (ev : Event) (h1 : ∀ e, ev ≠ Event.free e)
    (h2 : ∀ p, ev ≠ Event.sema_up p) (h : Inv k) : Inv (k.emit ev) := by
  obtain ⟨f1, f2, s1, s2, inj⟩ := h
  have c1 : ∀ e, (k.emit ev).trace.count (Event.free e) = k.trace.count (Event.free e) := by
    intro e
    simp [Kernel.emit, List.count_cons, h1 e]
  have c2 : ∀ p, (k.emit ev).trace.count (Event.sema_up p)
      = k.trace.count (Event.sema_up p) := by
    intro p
    simp [Kernel.emit, List.count_cons, h2 p]
  refine ⟨?_, ?_, ?_, ?_, inj⟩
  · intro e; rw [c1]; exact f1 e
  · intro e he; rw [c1] at he; exact f2 e he
  · intro p; rw [c2]; exact s1 p
  · intro p hp; rw [c2] at hp; exact s2 p hp

theorem inv_console (k : Kernel) (c : List Msg) (h : Inv k) :
    Inv { k with console := c } := h

theorem inv_set_heap_some (k : Kernel) (a : Nat) (st st' : exit_status)
    (ha : k.heap a = some st) (h : Inv k) : Inv (k.set_heap a (some st')) := by
  obtain ⟨f1, f2, s1, s2, inj⟩ := h
  refine ⟨f1, ?_, s1, s2, inj⟩
  intro e he
  have := f2 e he
  simp only [Kernel.set_heap]
  split_ifs with hea
  · subst hea; rw [ha] at this; simp at this
  · exact this

theorem inv_free (k : Kernel) (a : Nat) (st : exit_status) (ha : k.heap a = some st)
    (h : Inv k) : Inv ((k.set_heap a none).emit (Event.free a)) := by
  obtain ⟨f1, f2, s1, s2, inj⟩ := h
  have h0 : k.trace.count (Event.free a) = 0 := by
    have := f1 a
    have := f2 a
    rcases Nat.lt_or_ge (k.trace.count (Event.free a)) 1 with hlt | hge
    · omega
    · have h1 : k.trace.count (Event.free a) = 1 := by omega
      have := f2 a h1
      rw [ha] at this; simp at this
  refine ⟨?_, ?_, ?_, ?_, inj⟩
  · intro e
    by_cases hea : e = a
    · subst hea
      simp [Kernel.emit, Kernel.set_heap, List.count_cons, h0]
    · have : a ≠ e := fun x => hea x.symm
      simp only [Kernel.emit, Kernel.set_heap, List.count_append, List.count_cons,
        List.count_nil, beq_iff_eq, Event.free.injEq, this, if_false, Nat.add_zero]
      exact f1 e
  · intro e he
    by_cases hea : e = a
    · subst hea; simp [Kernel.emit, Kernel.set_heap]
    · have hae : a ≠ e := fun x => hea x.symm
      simp only [Kernel.emit, Kernel.set_heap, List.count_append, List.count_cons,
        List.count_nil, beq_iff_eq, Event.free.injEq, hae, if_false, Nat.add_zero, hea] at he ⊢
      exact f2 e he
  · intro p
    simp only [Kernel.emit, Kernel.set_heap, List.count_append, List.count_cons,
      List.count_nil, beq_iff_eq, if_false, Nat.add_zero]
    exact s1 p
  · intro p hp
    simp only [Kernel.emit, Kernel.set_heap, List.count_append, List.count_cons,
      List.count_nil, beq_iff_eq, if_false, Nat.add_zero] at hp
    exact s2 p hp

theorem inv_set_thread (k : Kernel) (a : Nat) (new : Option thread)
    (hnew : ∀ t', new = some t' →
      t'.exit_status = none ∨ ∃ t, k.threads a = some t ∧ t.exit_status = t'.exit_status)
    (h : Inv k) : Inv (k.set_thread a new) := by
  obtain ⟨f1, f2, s1, s2, inj⟩ := h
  have key : ∀ b tb p, (k.set_thread a new).threads b = some tb → tb.exit_status = some p →
      ∃ t, k.threads b = some t ∧ t.exit_status = some p := by
    intro b tb p hb hp
    simp only [Kernel.set_thread] at hb
    split_ifs at hb with hba
    · subst hba
      rcases hnew tb hb with hn | ⟨t, ht, hte⟩
      · rw [hn] at hp; simp at hp
      · exact ⟨t, ht, by rw [hte]; exact hp⟩
    · exact ⟨tb, hb, hp⟩
  refine ⟨f1, f2, s1, ?_, ?_⟩
  · intro p hp b tb hb hptr
    obtain ⟨t, ht, hte⟩ := key b tb p hb hptr
    exact s2 p hp b t ht hte
  · intro b c tb tc p hb hc hpb hpc
    obtain ⟨t1, ht1, he1⟩ := key b tb p hb hpb
    obtain ⟨t2, ht2, he2⟩ := key c tc p hc hpc
    exact inj b c t1 t2 p ht1 ht2 he1 he2

theorem inv_sema_up (k : Kernel) (cur : Nat) (t : thread) (p : Nat)
    (ht : k.threads cur = some t) (hp : t.exit_status = some p) (h : Inv k) :
    Inv ((k.emit (Event.sema_up p)).set_thread cur none) := by
  obtain ⟨f1, f2, s1, s2, inj⟩ := h
  have h0 : k.trace.count (Event.sema_up p) = 0 := by
    have := s1 p
    rcases Nat.lt_or_ge (k.trace.count (Event.sema_up p)) 1 with hlt | hge
    · omega
    · have h1 : k.trace.count (Event.sema_up p) = 1 := by omega
      exact absurd hp (s2 p h1 cur t ht)
  have hthr : ∀ b tb, ((k.emit (Event.sema_up p)).set_thread cur none).threads b = some tb →
      b ≠ cur ∧ k.threads b = some tb := by
    intro b tb hb
    simp only [Kernel.emit, Kernel.set_thread] at hb
    split_ifs at hb with hbc
    exact ⟨hbc, hb⟩
  refine ⟨?_, ?_, ?_, ?_, ?_⟩
  · intro e
    simp only [Kernel.emit, Kernel.set_thread, List.count_append, List.count_cons,
      List.count_nil, beq_iff_eq, if_false, Nat.add_zero]
    exact f1 e
  · intro e he
    simp only [Kernel.emit, Kernel.set_thread, List.count_append, List.count_cons,
      List.count_nil, beq_iff_eq, if_false, Nat.add_zero] at he ⊢
    exact f2 e he
  · intro q
    by_cases hq : q = p
    · subst hq
      simp [Kernel.emit, Kernel.set_thread, List.count_cons, h0]
    · have hpq : p ≠ q := fun x => hq x.symm
      simp only [Kernel.emit, Kernel.set_thread, List.count_append, List.count_cons,
        List.count_nil, beq_iff_eq, Event.sema_up.injEq, hpq, if_false, Nat.add_zero]
      exact s1 q
  · intro q hq b tb hb hptr
    obtain ⟨hbc, hb'⟩ := hthr b tb hb
    by_cases hqp : q = p
    · subst hqp
      exact hbc (inj b cur tb t q hb' ht hptr hp)
    · have hpq : p ≠ q := fun x => hqp x.symm
      simp only [Kernel.emit, Kernel.set_thread, List.count_append, List.count_cons,
        List.count_nil, beq_iff_eq, Event.sema_up.injEq, hpq, if_false, Nat.add_zero] at hq
      exact s2 q hq b tb hb' hptr
  · intro b c tb tc q hb hc hpb hpc
    exact inj b c tb tc q (hthr b tb hb).2 (hthr c tc hc).2 hpb hpc

theorem free_children_inv (l : List Nat) : ∀ k : Kernel, Inv k → Inv (free_children k l) := by
  induction l with
  | nil => intro k h; exact h
  | cons e es ih =>
    intro k h
    rw [free_children]
    split
    · exact ih _ (inv_emit k _ (by simp) (by simp) h)
    · rename_i st hst
      apply ih
      split
      · rename_i child hch
        apply inv_free _ e st
        · exact hst
        · apply inv_set_thread
          · intro t' ht'
            simp only [Option.some.injEq] at ht'
            left; rw [← ht']
          · exact h
      · apply inv_free _ e st
        · exact hst
        · exact inv_emit k _ (by simp) (by simp) h

theorem process_wait_inv (k : Kernel) (cur : Nat) (child_tid : Int) (h : Inv k) :
    Inv (process_wait k cur child_tid).kernel := by
  unfold process_wait
  split
  · exact h
  · rename_i t ht
    simp only
    split
    · exact inv_emit _ _ (by simp) (by simp) (inv_emit _ _ (by simp) (by simp) h)
    · rename_i e st hfind
      have hheap : k.heap e = some st := by
        clear h ht
        generalize t.child_list = l at hfind
        induction l with
        | nil => simp [find_child] at hfind
        | cons a as ih =>
          rw [find_child] at hfind
          split at hfind
          · rename_i sa hsa
            split_ifs at hfind with hp
            · simp only [Option.some.injEq, Prod.mk.injEq] at hfind
              rw [← hfind.1, ← hfind.2]; exact hsa
            · exact ih hfind
          · exact ih hfind
      split
      · exact inv_emit _ _ (by simp) (by simp) (inv_emit _ _ (by simp) (by simp) h)
      · simp only [WaitResult.kernel]
        apply inv_emit _ _ (by simp) (by simp)
        apply inv_free _ e { st with wait_on_exit := st.wait_on_exit - 1 }
        · simp [Kernel.emit, Kernel.set_heap, Kernel.set_thread]
        · apply inv_set_thread
          · intro t' ht'
            simp only [Option.some.injEq] at ht'
            right
            exact ⟨t, ht, by rw [← ht']⟩
          · apply inv_emit _ _ (by simp) (by simp)
            exact inv_set_heap_some (k.emit (Event.lock_acquire cur)) e st _ hheap
              (inv_emit _ _ (by simp) (by simp) h)

theorem process_exit_inv (k : Kernel) (cur : Nat) (h : Inv k) :
    Inv ((process_exit k cur).set_thread cur none) := by
  have hnone : ∀ k' : Kernel, Inv k' → Inv (k'.set_thread cur none) := fun k' hk' =>
    inv_set_thread k' cur none (fun t' ht' => by simp at ht') hk'
  unfold process_exit
  split
  · exact hnone k h
  · rename_i t0 ht0
    have h1 := free_children_inv t0.child_list _
      (inv_emit k (Event.lock_acquire cur) (by simp) (by simp) h)
    simp only
    generalize free_children (k.emit (Event.lock_acquire cur)) t0.child_list = k1 at h1 ⊢
    split
    · exact hnone k1 h1
    · rename_i t ht
      have h2 : Inv ((k1.set_thread cur (some { t with child_list := [] })).emit
          (Event.lock_release cur)) := by
        apply inv_emit _ _ (by simp) (by simp)
        apply inv_set_thread _ _ _ _ h1
        intro t' ht'
        simp only [Option.some.injEq] at ht'
        right
        exact ⟨t, ht, by rw [← ht']⟩
      have ht2 : ((k1.set_thread cur (some { t with child_list := [] })).emit
          (Event.lock_release cur)).threads cur = some { t with child_list := [] } := by
        simp [Kernel.emit, Kernel.set_thread]
      generalize (k1.set_thread cur (some { t with child_list := [] })).emit
          (Event.lock_release cur) = k2 at h2 ht2 ⊢
      have h3 : Inv (match t.exec_file with
          | some h => k2.emit (Event.file_close h)
          | none => k2) ∧
          (match t.exec_file with
          | some h => k2.emit (Event.file_close h)
          | none => k2).threads cur = some { t with child_list := [] } := by
        split
        · exact ⟨inv_emit _ _ (by simp) (by simp) h2, ht2⟩
        · exact ⟨h2, ht2⟩
      generalize (match t.exec_file with
          | some h => k2.emit (Event.file_close h)
          | none => k2) = k3 at h3 ⊢
      have h4 : Inv (if t.is_user = true then
            { k3 with console := k3.console ++ [Msg.exit_line t.name t.exit_value] }
          else k3) ∧
          (if t.is_user = true then
            { k3 with console := k3.console ++ [Msg.exit_line t.name t.exit_value] }
          else k3).threads cur = some { t with child_list := [] } := by
        split_ifs
        · exact ⟨inv_console k3 _ h3.1, h3.2⟩
        · exact h3
      generalize (if t.is_user = true then
            { k3 with console := k3.console ++ [Msg.exit_line t.name t.exit_value] }
          else k3) = k4 at h4 ⊢
      split
      · exact hnone k4 h4.1
      · rename_i p hp
        split
        · rename_i st hst
          have h5 := inv_set_heap_some k4 p st
            { st with wait_on_exit := st.wait_on_exit + 1 } hst h4.1
          exact inv_sema_up _ cur { t with child_list := [] } p h4.2 hp h5
        · exact hnone _ (inv_emit _ _ (by simp) (by simp) h4.1)

theorem step_inv (k : Kernel) (st : Step) (h : Inv k) : Inv (step k st) := by
  cases st with
  | wait cur child_tid => exact process_wait_inv k cur child_tid h
  | exit cur => exact process_exit_inv k cur h

theorem run_inv (steps : List Step) : ∀ k : Kernel, Inv k → Inv (run k steps) := by
  induction steps with
  | nil => intro k h; exact h
  | cons st rest ih =>
    intro k h
    exact ih (step k st) (step_inv k st h)

theorem find_child_some (heap : Nat → Option exit_status) (child_tid : Int) (l : List Nat)
    (e : Nat) (st : exit_status) (h : find_child heap child_tid l = some (e, st)) :
    e ∈ l ∧ heap e = some st := by
  induction l with
  | nil => simp [find_child] at h
  | cons a as ih =>
    rw [find_child] at h
    split at h
    · rename_i sa hsa
      split_ifs at h with hp
      · simp only [Option.some.injEq, Prod.mk.injEq] at h
        rw [← h.1, ← h.2]
        exact ⟨List.mem_cons_self _ _, hsa⟩
      · exact ⟨List.mem_cons_of_mem _ (ih h).1, (ih h).2⟩
    · exact ⟨List.mem_cons_of_mem _ (ih h).1, (ih h).2⟩

theorem free_children_free_count (l : List Nat) (e : Nat) (he : e ∉ l) :
    ∀ k : Kernel, (free_children k l).trace.count (Event.free e)
      = k.trace.count (Event.free e) := by
  induction l with
  | nil => intro k; rfl
  | cons a as ih =>
    intro k
    have hea : a ≠ e := fun h => he (h ▸ List.mem_cons_self _ _)
    have heas : e ∉ as := fun h => he (List.mem_cons_of_mem _ h)
    rw [free_children]
    split
    · rw [ih heas]; simp [Kernel.emit]
    · rw [ih heas]
      split <;> simp [Kernel.emit, Kernel.set_heap, Kernel.set_thread, List.count_cons, hea]

theorem process_exit_free_count (k : Kernel) (cur : Nat) (e : Nat)
    (he : ∀ t, k.threads cur = some t → e ∉ t.child_list) :
    ((process_exit k cur).set_thread cur none).trace.count (Event.free e)
      = k.trace.count (Event.free e) := by
  unfold process_exit
  split
  · rfl
  · rename_i t0 ht0
    have h1 := free_children_free_count t0.child_list e (he t0 ht0)
      (k.emit (Event.lock_acquire cur))
    have h1' : (free_children (k.emit (Event.lock_acquire cur)) t0.child_list).trace.count
        (Event.free e) = k.trace.count (Event.free e) := by
      rw [h1]; simp [Kernel.emit]
    simp only
    generalize free_children (k.emit (Event.lock_acquire cur)) t0.child_list = k1 at h1' ⊢
    split
    · exact h1'
    · rename_i t ht
      cases hx : t.exec_file <;> cases hu : t.is_user <;> cases hp : t.exit_status <;>
        simp only [Kernel.emit, Kernel.set_heap, Kernel.set_thread, if_true, if_false,
          Bool.false_eq_true] <;>
        (try split) <;> simp [List.count_cons, h1']

theorem process_wait_free_count (k : Kernel) (cur : Nat) (child_tid : Int) (e : Nat)
    (h : (process_wait k cur child_tid).kernel.trace.count (Event.free e)
      ≠ k.trace.count (Event.free e)) :
    ∃ t, k.threads cur = some t ∧ e ∈ t.child_list ∧
      (process_wait k cur child_tid).value ≠ none := by
  cases ht : k.threads cur with
  | none =>
    simp [process_wait, ht, WaitResult.kernel] at h
  | some t =>
    refine ⟨t, rfl, ?_⟩
    cases hfind : find_child k.heap child_tid t.child_list with
    | none =>
      simp [process_wait, ht, hfind, Kernel.emit, WaitResult.kernel, List.count_cons] at h
    | some p =>
      obtain ⟨e0, st⟩ := p
      have hmem := (find_child_some _ _ _ _ _ hfind).1
      by_cases hz : st.wait_on_exit = 0
      · simp [process_wait, ht, hfind, hz, Kernel.emit, WaitResult.kernel,
          List.count_cons] at h
      · refine ⟨?_, ?_⟩
        · by_cases hee : e0 = e
          · rw [← hee]; exact hmem
          · simp [process_wait, ht, hfind, hz, Kernel.emit, Kernel.set_heap,
              Kernel.set_thread, WaitResult.kernel, List.count_cons, hee] at h
        · simp [process_wait, ht, hfind, hz, Kernel.emit, WaitResult.value]

theorem wf_congr (k k' : Kernel) (hthreads : ∀ x, k'.threads x = k.threads x)
    (hheap : ∀ x, k'.heap x = k.heap x) (h : Wf k) : Wf k' := by
  have e1 : k'.threads = k.threads := funext hthreads
  have e2 : k'.heap = k.heap := funext hheap
  unfold Wf
  rw [e1, e2]
  exact h

theorem free_children_heap_eq (l : List Nat) :
    ∀ (k : Kernel) (q : Nat),
      (free_children k l).heap q = if q ∈ l then none else k.heap q := by
  induction l with
  | nil => intro k q; simp [free_children]
  | cons e es ih =>
    intro k q
    rw [free_children]
    split
    · rename_i hnone
      rw [ih]
      by_cases hqe : q = e
      · subst hqe; simp [Kernel.emit, hnone]
      · simp [Kernel.emit, hqe]
    · rename_i st hst
      rw [ih]
      by_cases hqe : q = e
      · subst hqe
        cases hth : k.threads st.thread <;>
          simp [Kernel.emit, Kernel.set_heap, Kernel.set_thread]
      · cases hth : k.threads st.thread <;>
          simp [Kernel.emit, Kernel.set_heap, Kernel.set_thread, hqe]

theorem free_children_threads (l : List Nat) (a : Nat) :
    ∀ k : Kernel, (free_children k l).threads a = k.threads a ∨
      ∃ t, k.threads a = some t ∧
        (free_children k l).threads a = some { t with exit_status := none } := by
  induction l with
  | nil => intro k; left; rfl
  | cons e es ih =>
    intro k
    rw [free_children]
    split
    · exact ih (k.emit (Event.use_after_free e))
    · rename_i st hst
      cases hth : k.threads st.thread with
      | none =>
        simp only
        exact ih _
      | some child =>
        simp only
        by_cases hac : a = st.thread
        · right
          refine ⟨child, by rw [hac]; exact hth, ?_⟩
          rcases ih ((k.set_thread st.thread (some { child with exit_status := none })).set_heap
              e none |>.emit (Event.free e)) with h | ⟨t, h1, h2⟩
          · rw [h]; simp [Kernel.emit, Kernel.set_heap, Kernel.set_thread, hac]
          · rw [h2]
            simp [Kernel.emit, Kernel.set_heap, Kernel.set_thread, hac] at h1
            rw [← h1]
        · rcases ih ((k.set_thread st.thread (some { child with exit_status := none })).set_heap
              e none |>.emit (Event.free e)) with h | ⟨t, h1, h2⟩
          · left; rw [h]; simp [Kernel.emit, Kernel.set_heap, Kernel.set_thread, hac]
          · right
            simp [Kernel.emit, Kernel.set_heap, Kernel.set_thread, hac] at h1
            exact ⟨t, h1, h2⟩

theorem free_children_backptr (l : List Nat) :
    ∀ k : Kernel, (∀ a t p, k.threads a = some t → t.exit_status = some p →
        ∃ st, k.heap p = some st ∧ st.thread = a) →
      ∀ a t p, (free_children k l).threads a = some t → t.exit_status = some p →
        ∃ st, (free_children k l).heap p = some st ∧ st.thread = a := by
  induction l with
  | nil => intro k h; exact h
  | cons e es ih =>
    intro k h
    rw [free_children]
    split
    · exact ih (k.emit (Event.use_after_free e)) h
    · rename_i st hst
      apply ih
      intro a t p hat hp
      have key : ∃ t0, k.threads a = some t0 ∧ t0.exit_status = some p ∧
          (∀ child, k.threads st.thread = some child → a ≠ st.thread) := by
        cases hth : k.threads st.thread with
        | none =>
          rw [hth] at hat
          simp only [Kernel.emit, Kernel.set_heap] at hat
          exact ⟨t, hat, hp, fun child hc => by simp at hc⟩
        | some child =>
          rw [hth] at hat
          simp only [Kernel.emit, Kernel.set_heap, Kernel.set_thread] at hat
          split_ifs at hat with hac
          · simp only [Option.some.injEq] at hat
            rw [← hat] at hp
            simp at hp
          · exact ⟨t, hat, hp, fun _ _ => hac⟩
      obtain ⟨t0, ht0, hp0, hne⟩ := key
      obtain ⟨st1, hst1, hthr⟩ := h a t0 p ht0 hp0
      have hpe : p ≠ e := by
        intro hpe
        rw [hpe, hst] at hst1
        simp only [Option.some.injEq] at hst1
        rw [← hst1] at hthr
        rw [← hthr] at ht0
        exact hne t0 ht0 hthr.symm
      refine ⟨st1, ?_, hthr⟩
      cases hth : k.threads st.thread <;>
        simp [Kernel.emit, Kernel.set_heap, Kernel.set_thread, hpe, hst1]

theorem free_children_frees (l : List Nat) (e : Nat) :
    ∀ k : Kernel, l.Nodup → (∀ x ∈ l, k.heap x ≠ none) → e ∈ l →
      (free_children k l).trace.count (Event.free e) = k.trace.count (Event.free e) + 1 := by
  induction l with
  | nil => intro k _ _ he; simp at he
  | cons a as ih =>
    intro k hnd hall he
    have ha : a ∉ as := (List.nodup_cons.mp hnd).1
    have hnd2 : as.Nodup := (List.nodup_cons.mp hnd).2
    rw [free_children]
    split
    · rename_i hnone
      exact absurd hnone (hall a (List.mem_cons_self _ _))
    · rename_i st hst
      by_cases hea : e = a
      · rw [free_children_free_count as e (by rw [hea]; exact ha)]
        cases hth : k.threads st.thread <;>
          simp [Kernel.emit, Kernel.set_heap, Kernel.set_thread, List.count_cons, hea]
      · have hmem : e ∈ as := by
          rcases List.mem_cons.mp he with h | h
          · exact absurd h hea
          · exact h
        rw [ih _ hnd2 _ hmem]
        · have hae : a ≠ e := fun h => hea h.symm
          cases hth : k.threads st.thread <;>
            simp [Kernel.emit, Kernel.set_heap, Kernel.set_thread, List.count_cons, hae]
        · intro x hx
          have hxa : x ≠ a := fun h => ha (h ▸ hx)
          have := hall x (List.mem_cons_of_mem _ hx)
          cases hth : k.threads st.thread <;>
            simp [Kernel.emit, Kernel.set_heap, Kernel.set_thread, hxa, this]

theorem wf_reap (k k' : Kernel) (cur e : Nat) (t : thread) (st : exit_status) (h : Wf k)
    (ht : k.threads cur = some t) (hmem : e ∈ t.child_list) (hheap : k.heap e = some st)
    (hpos : 0 < st.wait_on_exit)
    (hthreads : ∀ x, k'.threads x
      = if x = cur then some { t with child_list := t.child_list.erase e } else k.threads x)
    (hheap' : ∀ x, k'.heap x = if x = e then none else k.heap x) : Wf k' := by
  obtain ⟨w1, w2, w3, w4, w5⟩ := h
  have old : ∀ a ta, k'.threads a = some ta → ∃ ta0, k.threads a = some ta0 ∧
      ta.exit_status = ta0.exit_status ∧ (∀ x, x ∈ ta.child_list → x ∈ ta0.child_list) := by
    intro a ta hta
    rw [hthreads] at hta
    split_ifs at hta with hac
    · simp only [Option.some.injEq] at hta
      refine ⟨t, by rw [hac]; exact ht, by rw [← hta], ?_⟩
      intro x hx
      rw [← hta] at hx
      exact List.mem_of_mem_erase hx
    · exact ⟨ta, hta, rfl, fun _ hx => hx⟩
  refine ⟨?_, ?_, ?_, ?_, ?_⟩
  · intro a ta hta
    rw [hthreads] at hta
    split_ifs at hta with hac
    · simp only [Option.some.injEq] at hta
      rw [← hta]
      exact (w1 cur t ht).erase e
    · exact w1 a ta hta
  · intro a ta x hta hx
    rw [hthreads] at hta
    rw [hheap']
    split_ifs at hta with hac
    · simp only [Option.some.injEq] at hta
      rw [← hta] at hx
      have hx2 := ((w1 cur t ht).mem_erase_iff).mp hx
      rw [if_neg hx2.1]
      exact w2 cur t x ht hx2.2
    · have hxe : x ≠ e := fun hxe => hac (w5 a cur ta t x hta ht hx (hxe ▸ hmem))
      rw [if_neg hxe]
      exact w2 a ta x hta hx
  · intro a ta p hta hp
    obtain ⟨ta0, hta0, hes, _⟩ := old a ta hta
    rw [hes] at hp
    obtain ⟨st1, hst1, hthr⟩ := w3 a ta0 p hta0 hp
    have hpe : p ≠ e := fun hpe => w4 e st hheap hpos a ta0 hta0 (hpe ▸ hp)
    exact ⟨st1, by rw [hheap', if_neg hpe]; exact hst1, hthr⟩
  · intro p st1 hp hpos1 a ta hta hes
    obtain ⟨ta0, hta0, hes0, _⟩ := old a ta hta
    rw [hheap'] at hp
    split_ifs at hp with hpe
    rw [hes0] at hes
    exact w4 p st1 hp hpos1 a ta0 hta0 hes
  · intro a b ta tb x hta htb hxa hxb
    obtain ⟨ta0, hta0, _, hsa⟩ := old a ta hta
    obtain ⟨tb0, htb0, _, hsb⟩ := old b tb htb
    exact w5 a b ta0 tb0 x hta0 htb0 (hsa x hxa) (hsb x hxb)

theorem wf_exit (k k1 k' : Kernel) (cur : Nat) (t0 : thread) (h : Wf k)
    (ht0 : k.threads cur = some t0)
    (F1 : ∀ q, k1.heap q = if q ∈ t0.child_list then none else k.heap q)
    (F2 : ∀ a, k1.threads a = k.threads a ∨
      ∃ t, k.threads a = some t ∧ k1.threads a = some { t with exit_status := none })
    (F3 : ∀ a t p, k1.threads a = some t → t.exit_status = some p →
      ∃ st, k1.heap p = some st ∧ st.thread = a)
    (hthreads : ∀ x, k'.threads x = if x = cur then none else k1.threads x)
    (hheap : (∀ x, k'.heap x = k1.heap x) ∨
      ∃ tc p0 st0, k1.threads cur = some tc ∧ tc.exit_status = some p0 ∧
        k1.heap p0 = some st0 ∧
        ∀ x, k'.heap x = if x = p0
          then some { st0 with wait_on_exit := st0.wait_on_exit + 1 } else k1.heap x) :
    Wf k' := by
  obtain ⟨w1, w2, w3, w4, w5⟩ := h
  have old : ∀ a ta, k'.threads a = some ta → a ≠ cur ∧ k1.threads a = some ta ∧
      ∃ ta0, k.threads a = some ta0 ∧ ta.child_list = ta0.child_list ∧
        (∀ p, ta.exit_status = some p → ta0.exit_status = some p) := by
    intro a ta hta
    rw [hthreads] at hta
    split_ifs at hta with hac
    refine ⟨hac, hta, ?_⟩
    rcases F2 a with h | ⟨t, h1, h2⟩
    · rw [h] at hta
      exact ⟨ta, hta, rfl, fun _ hp => hp⟩
    · rw [h2] at hta
      simp only [Option.some.injEq] at hta
      refine ⟨t, h1, by rw [← hta], ?_⟩
      intro p hp
      rw [← hta] at hp
      simp at hp
  have heap_fwd : ∀ x st1, k1.heap x = some st1 →
      ∃ st2, k'.heap x = some st2 ∧ st2.thread = st1.thread := by
    intro x st1 hx
    rcases hheap with hh | ⟨tc, p0, st0, _, _, hst0, hh⟩
    · exact ⟨st1, by rw [hh]; exact hx, rfl⟩
    · rw [hh]
      split_ifs with hxp
      · rw [hxp, hst0] at hx
        simp only [Option.some.injEq] at hx
        exact ⟨_, rfl, by rw [← hx]⟩
      · exact ⟨st1, hx, rfl⟩
  refine ⟨?_, ?_, ?_, ?_, ?_⟩
  · intro a ta hta
    obtain ⟨_, _, ta0, hta0, hl, _⟩ := old a ta hta
    rw [hl]
    exact w1 a ta0 hta0
  · intro a ta x hta hx
    obtain ⟨hac, _, ta0, hta0, hl, _⟩ := old a ta hta
    rw [hl] at hx
    have hxl : x ∉ t0.child_list := fun hxl => hac (w5 a cur ta0 t0 x hta0 ht0 hx hxl)
    have h1 : k1.heap x ≠ none := by
      rw [F1, if_neg hxl]
      exact w2 a ta0 x hta0 hx
    cases hk1 : k1.heap x with
    | none => exact absurd hk1 h1
    | some st1 =>
      obtain ⟨st2, hst2, _⟩ := heap_fwd x st1 hk1
      rw [hst2]
      simp
  · intro a ta p hta hp
    obtain ⟨_, hk1, _⟩ := old a ta hta
    obtain ⟨st1, hst1, hthr⟩ := F3 a ta p hk1 hp
    obtain ⟨st2, hst2, hthr2⟩ := heap_fwd p st1 hst1
    exact ⟨st2, hst2, by rw [hthr2]; exact hthr⟩
  · intro p st2 hp hpos a ta hta hes
    obtain ⟨hac, hk1, ta0, hta0, _, hes0⟩ := old a ta hta
    have plain : k1.heap p = some st2 → False := by
      intro hp1
      rw [F1] at hp1
      split_ifs at hp1 with hpl
      exact w4 p st2 hp1 hpos a ta0 hta0 (hes0 p hes)
    rcases hheap with hh | ⟨tc, p0, st0, htc, hp0, hst0, hh⟩
    · rw [hh] at hp
      exact plain hp
    · rw [hh] at hp
      split_ifs at hp with hpp
      · obtain ⟨s1, hs1, hthr1⟩ := F3 cur tc p0 htc hp0
        obtain ⟨s2, hs2, hthr2⟩ := F3 a ta p hk1 hes
        rw [hpp, hs1] at hs2
        simp only [Option.some.injEq] at hs2
        rw [← hs2, hthr1] at hthr2
        exact hac hthr2.symm
      · exact plain hp
  · intro a b ta tb x hta htb hxa hxb
    obtain ⟨_, _, ta0, hta0, hla, _⟩ := old a ta hta
    obtain ⟨_, _, tb0, htb0, hlb, _⟩ := old b tb htb
    rw [hla] at hxa
    rw [hlb] at hxb
    exact w5 a b ta0 tb0 x hta0 htb0 hxa hxb

theorem process_wait_wf (k : Kernel) (cur : Nat) (child_tid : Int) (h : Wf k) :
    Wf (process_wait k cur child_tid).kernel := by
  cases ht : k.threads cur with
  | none =>
    simp only [process_wait, ht, WaitResult.kernel]
    exact h
  | some t =>
    cases hfind : find_child k.heap child_tid t.child_list with
    | none =>
      simp only [process_wait, ht, hfind, WaitResult.kernel]
      exact wf_congr k _ (fun _ => rfl) (fun _ => rfl) h
    | some p =>
      obtain ⟨e, st⟩ := p
      obtain ⟨hmem, hheap⟩ := find_child_some _ _ _ _ _ hfind
      by_cases hz : st.wait_on_exit = 0
      · simp only [process_wait, ht, hfind, hz, if_true, WaitResult.kernel]
        exact wf_congr k _ (fun _ => rfl) (fun _ => rfl) h
      · simp only [process_wait, ht, hfind, hz, if_false, WaitResult.kernel]
        apply wf_reap k _ cur e t st h ht hmem hheap (Nat.pos_of_ne_zero hz)
        · intro x
          simp [Kernel.emit, Kernel.set_heap, Kernel.set_thread]
        · intro x
          by_cases hx : x = e <;> simp [Kernel.emit, Kernel.set_heap, Kernel.set_thread, hx]

theorem process_exit_wf (k : Kernel) (cur : Nat) (h : Wf k) :
    Wf ((process_exit k cur).set_thread cur none) := by
  unfold process_exit
  split
  · rename_i hnone
    refine wf_congr k _ ?_ (fun _ => rfl) h
    intro x
    by_cases hx : x = cur
    · simp [Kernel.set_thread, hx, hnone]
    · simp [Kernel.set_thread, hx]
  · rename_i t0 ht0
    have F1 : ∀ q, (free_children (k.emit (Event.lock_acquire cur)) t0.child_list).heap q
        = if q ∈ t0.child_list then none else k.heap q :=
      fun q => free_children_heap_eq t0.child_list (k.emit (Event.lock_acquire cur)) q
    have F2 : ∀ a, (free_children (k.emit (Event.lock_acquire cur)) t0.child_list).threads a
          = k.threads a ∨
        ∃ t, k.threads a = some t ∧
          (free_children (k.emit (Event.lock_acquire cur)) t0.child_list).threads a
            = some { t with exit_status := none } :=
      fun a => free_children_threads t0.child_list a (k.emit (Event.lock_acquire cur))
    have F3 := free_children_backptr t0.child_list (k.emit (Event.lock_acquire cur)) h.2.2.1
    simp only
    generalize free_children (k.emit (Event.lock_acquire cur)) t0.child_list = k1
      at F1 F2 F3 ⊢
    split
    · rename_i hnone
      apply wf_exit k k1 _ cur t0 h ht0 F1 F2 F3
      · intro x; simp [Kernel.set_thread]
      · left; intro x; rfl
    · rename_i t ht
      apply wf_exit k k1 _ cur t0 h ht0 F1 F2 F3
      · intro x
        cases hp : t.exit_status with
        | none =>
          cases hx : t.exec_file <;> cases hu : t.is_user <;> by_cases hxc : x = cur <;>
            simp [Kernel.emit, Kernel.set_heap, Kernel.set_thread, hxc]
        | some p =>
          cases hst : k1.heap p <;> cases hx : t.exec_file <;> cases hu : t.is_user <;>
            by_cases hxc : x = cur <;>
            simp [Kernel.emit, Kernel.set_heap, Kernel.set_thread, hst, hxc]
      · cases hp : t.exit_status with
        | none =>
          left
          intro x
          cases hx : t.exec_file <;> cases hu : t.is_user <;>
            simp [Kernel.emit, Kernel.set_heap, Kernel.set_thread]
        | some p =>
          cases hst : k1.heap p with
          | none =>
            left
            intro x
            cases hx : t.exec_file <;> cases hu : t.is_user <;>
              simp [Kernel.emit, Kernel.set_heap, Kernel.set_thread, hst]
          | some st =>
            right
            refine ⟨t, p, st, ht, hp, hst, ?_⟩
            intro x
            cases hx : t.exec_file <;> cases hu : t.is_user <;>
              simp [Kernel.emit, Kernel.set_heap, Kernel.set_thread, hst]

theorem step_wf (k : Kernel) (st : Step) (h : Wf k) : Wf (step k st) := by
  cases st with
  | wait cur child_tid => exact process_wait_wf k cur child_tid h
  | exit cur => exact process_exit_wf k cur h

theorem run_wf (steps : List Step) : ∀ k : Kernel, Wf k → Wf (run k steps) := by
  induction steps with
  | nil => intro k h; exact h
  | cons st rest ih =>
    intro k h
    exact ih (step k st) (step_wf k st h)

theorem process_exit_frees (k : Kernel) (cur : Nat) (t0 : thread) (e : Nat)
    (ht0 : k.threads cur = some t0) (hnd : t0.child_list.Nodup)
    (hall : ∀ x ∈ t0.child_list, k.heap x ≠ none) (he : e ∈ t0.child_list) :
    ((process_exit k cur).set_thread cur none).trace.count (Event.free e)
      = k.trace.count (Event.free e) + 1 := by
  unfold process_exit
  rw [ht0]
  have h1 := free_children_frees t0.child_list e (k.emit (Event.lock_acquire cur)) hnd hall he
  have h1' : (free_children (k.emit (Event.lock_acquire cur)) t0.child_list).trace.count
      (Event.free e) = k.trace.count (Event.free e) + 1 := by
    rw [h1]; simp [Kernel.emit]
  simp only
  generalize free_children (k.emit (Event.lock_acquire cur)) t0.child_list = k1 at h1' ⊢
  split
  · exact h1'
  · rename_i t ht
    cases hx : t.exec_file <;> cases hu : t.is_user <;> cases hp : t.exit_status <;>
      simp only [Kernel.emit, Kernel.set_heap, Kernel.set_thread, if_true, if_false,
        Bool.false_eq_true] <;>
      (try split) <;> simp [List.count_cons, h1']

theorem fresh_kernel_wf : Wf fresh_kernel := by
  have thr : ∀ a t, fresh_kernel.threads a = some t →
      (a = 1 ∧ t = ⟨3, echo_name, -1, false, some 100, [], none⟩) ∨
      (a = 2 ∧ t = ⟨1, [109, 97, 105, 110], 0, false, none, [100], none⟩) := by
    intro a t h
    simp only [fresh_kernel] at h
    split_ifs at h with h1 h2
    · left; exact ⟨h1, (Option.some.inj h).symm⟩
    · right; exact ⟨h2, (Option.some.inj h).symm⟩
  have hp : ∀ p st, fresh_kernel.heap p = some st → p = 100 ∧ st = ⟨3, -1, 0, 1⟩ := by
    intro p st h
    simp only [fresh_kernel] at h
    split_ifs at h with h1
    exact ⟨h1, (Option.some.inj h).symm⟩
  refine ⟨?_, ?_, ?_, ?_, ?_⟩
  · intro a t h
    rcases thr a t h with ⟨_, ht⟩ | ⟨_, ht⟩ <;> rw [ht] <;> simp
  · intro a t e h he
    rcases thr a t h with ⟨_, ht⟩ | ⟨_, ht⟩
    · rw [ht] at he; simp at he
    · rw [ht] at he
      simp only [List.mem_singleton] at he
      rw [he]
      simp [fresh_kernel]
  · intro a t p h hes
    rcases thr a t h with ⟨ha, ht⟩ | ⟨_, ht⟩
    · rw [ht] at hes
      simp only [Option.some.injEq] at hes
      rw [← hes, ha]
      exact ⟨⟨3, -1, 0, 1⟩, by simp [fresh_kernel], rfl⟩
    · rw [ht] at hes; simp at hes
  · intro p st h hpos
    rw [(hp p st h).2] at hpos
    simp at hpos
  · intro a b ta tb e ha hb hea heb
    rcases thr a ta ha with ⟨_, hta⟩ | ⟨ha2, hta⟩
    · rw [hta] at hea; simp at hea
    · rcases thr b tb hb with ⟨_, htb⟩ | ⟨hb2, htb⟩
      · rw [htb] at heb; simp at heb
      · rw [ha2, hb2]

/-- C15: from a consistent state (`Wf`) with an empty trace, over every sequence of
`process_wait` calls and thread exits, every exit status object is freed at most once and its
semaphore is upped at most once; a step that frees an object is a step of a thread whose child
list holds the object, namely its exit or a `process_wait` of it that returns; the exit of a
thread frees every entry of its child list; and the state stays consistent, so that no child
list entry and no `exit_status` pointer of a live thread is ever dangling. -/
theorem exit_wait_protocol (k0 : Kernel) (steps : List Step) (htrace : k0.trace = [])
    (hwf : Wf k0) :
    (∀ e, (run k0 steps).trace.count (Event.free e) ≤ 1) ∧
    (∀ e, (run k0 steps).trace.count (Event.sema_up e) ≤ 1) ∧
    (∀ st e, (step (run k0 steps) st).trace.count (Event.free e)
        ≠ (run k0 steps).trace.count (Event.free e) →
      ∃ cur t, (run k0 steps).threads cur = some t ∧ e ∈ t.child_list ∧
        (st = Step.exit cur ∨
          ∃ child_tid, st = Step.wait cur child_tid ∧
            (process_wait (run k0 steps) cur child_tid).value ≠ none)) ∧
    (∀ cur t e, (run k0 steps).threads cur = some t → e ∈ t.child_list →
      (step (run k0 steps) (Step.exit cur)).trace.count (Event.free e)
        = (run k0 steps).trace.count (Event.free e) + 1) ∧
    Wf (run k0 steps) := by
  have h0 : Inv k0 := by
    refine ⟨?_, ?_, ?_, ?_, ?_⟩
    · intro e; rw [htrace]; simp
    · intro e he; rw [htrace] at he; simp at he
    · intro p; rw [htrace]; simp
    · intro p hp; rw [htrace] at hp; simp at hp
    · intro a b ta tb p ha hb hpa hpb
      obtain ⟨sa, hsa, hta⟩ := hwf.2.2.1 a ta p ha hpa
      obtain ⟨sb, hsb, htb⟩ := hwf.2.2.1 b tb p hb hpb
      rw [hsa] at hsb
      simp only [Option.some.injEq] at hsb
      rw [← hta, ← htb, hsb]
  obtain ⟨f1, _, s1, _, _⟩ := run_inv steps k0 h0
  have hw := run_wf steps k0 hwf
  refine ⟨f1, s1, ?_, ?_, hw⟩
  · intro st e hne
    cases st with
    | wait cur child_tid =>
      obtain ⟨t, ht, hmem, hv⟩ := process_wait_free_count _ cur child_tid e hne
      exact ⟨cur, t, ht, hmem, Or.inr ⟨child_tid, rfl, hv⟩⟩
    | exit cur =>
      by_contra hcon
      apply hne
      apply process_exit_free_count
      intro t ht hmem
      exact hcon ⟨cur, t, ht, hmem, Or.inl rfl⟩
  · intro cur t e ht hmem
    exact process_exit_frees _ cur t e ht (hw.1 cur t ht) (fun x hx => hw.2.1 cur t x ht hx) hmem

/-- The protocol on a child that exits, a parent that waits for it and then exits. -/
theorem exit_wait_protocol_witness :
    fresh_kernel.trace = [] ∧ Wf fresh_kernel ∧
    (∀ e, (run fresh_kernel [Step.exit 1, Step.wait 2 3, Step.exit 2]).trace.count
      (Event.free e) ≤ 1) ∧
    (∀ e, (run fresh_kernel [Step.exit 1, Step.wait 2 3, Step.exit 2]).trace.count
      (Event.sema_up e) ≤ 1) ∧
    (run fresh_kernel [Step.exit 1, Step.wait 2 3, Step.exit 2]).trace
      = [Event.lock_acquire 1, Event.lock_release 1, Event.sema_up 100,
         Event.lock_acquire 2, Event.sema_down 100, Event.free 100, Event.lock_release 2,
         Event.lock_acquire 2, Event.lock_release 2] :=
  ⟨rfl, fresh_kernel_wf,
    (exit_wait_protocol fresh_kernel [Step.exit 1, Step.wait 2 3, Step.exit 2] rfl
      fresh_kernel_wf).1,
    (exit_wait_protocol fresh_kernel [Step.exit 1, Step.wait 2 3, Step.exit 2] rfl
      fresh_kernel_wf).2.1, by decide⟩

/-! ## The child-list lock in `process_wait` -/

/-- C20, as the code has it: `process_wait` holds the child-list lock across the `sema_down`.
When the loop finds the entry `e`, the events of the call are the acquisition of the lock and
the `sema_down` on `e` when the caller sleeps, and the acquisition, the `sema_down`, the free
of `e` and then the one release of the lock when the call returns. -/
theorem process_wait_holds_lock (k : Kernel) (cur : Nat) (child_tid : Int) (t : thread)
    (e : Nat) (st : exit_status) (ht : k.threads cur = some t)
    (hfind : find_child k.heap child_tid t.child_list = some (e, st)) :
    (st.wait_on_exit = 0 →
      (process_wait k cur child_tid).value = none ∧
      (process_wait k cur child_tid).kernel.trace
        = k.trace ++ [Event.lock_acquire cur, Event.sema_down e]) ∧
    (0 < st.wait_on_exit →
      (process_wait k cur child_tid).value = some st.exit_value ∧
      (process_wait k cur child_tid).kernel.trace
        = k.trace ++ [Event.lock_acquire cur, Event.sema_down e, Event.free e,
            Event.lock_release cur]) := by
  constructor
  · intro hz
    simp [process_wait, ht, hfind, hz, WaitResult.value, WaitResult.kernel, Kernel.emit]
  · intro hpos
    have hz : st.wait_on_exit ≠ 0 := by omega
    simp [process_wait, ht, hfind, hz, WaitResult.value, WaitResult.kernel, Kernel.emit,
      Kernel.set_heap, Kernel.set_thread]

/-- The parent of `demo_kernel` waits for child 3 after the child has exited: the lock is
released last. -/
theorem process_wait_holds_lock_witness :
    (process_exit demo_kernel 1).threads 2
      = some ⟨1, [109, 97, 105, 110], 0, false, none, [100], none⟩ ∧
    find_child (process_exit demo_kernel 1).heap 3 [100] = some (100, ⟨3, 0, 1, 1⟩) ∧
    (process_wait (process_exit demo_kernel 1) 2 3).value = some 0 ∧
    (process_wait (process_exit demo_kernel 1) 2 3).kernel.trace
      = (process_exit demo_kernel 1).trace ++ [Event.lock_acquire 2, Event.sema_down 100,
          Event.free 100, Event.lock_release 2] :=
  ⟨rfl, by decide,
    (process_wait_holds_lock (process_exit demo_kernel 1) 2 3
      ⟨1, [109, 97, 105, 110], 0, false, none, [100], none⟩ 100 ⟨3, 0, 1, 1⟩ rfl
      (by decide)).2 (by decide)⟩

/-- The parent of `fresh_kernel` waits for child 3, which has not exited: the loop finds the
entry 100, and the caller sleeps in `sema_down` without having released the lock. -/
theorem process_wait_sleeps_with_lock :
    fresh_kernel.threads 2 = some ⟨1, [109, 97, 105, 110], 0, false, none, [100], none⟩ ∧
    find_child fresh_kernel.heap 3 [100] = some (100, ⟨3, -1, 0, 1⟩) ∧
    (process_wait fresh_kernel 2 3).value = none ∧
    (process_wait fresh_kernel 2 3).kernel.trace
      = [Event.lock_acquire 2, Event.sema_down 100] ∧
    Event.lock_release 2 ∉ (process_wait fresh_kernel 2 3).kernel.trace := by
  refine ⟨rfl, by decide, by decide, by decide, by decide⟩

/-! ## The thread pointer of an exit status object -/

theorem free_children_trace_mem (l : List Nat) (x : Event) :
    ∀ k : Kernel, x ∈ k.trace → x ∈ (free_children k l).trace := by
  induction l with
  | nil => intro k h; exact h
  | cons a as ih =>
    intro k h
    rw [free_children]
    split
    · apply ih
      simp [Kernel.emit, h]
    · apply ih
      split <;> simp [Kernel.emit, Kernel.set_heap, Kernel.set_thread, h]

theorem free_children_dead_child (l : List Nat) (e : Nat) (st : exit_status) :
    ∀ k : Kernel, e ∈ l → k.heap e = some st → k.threads st.thread = none →
      Event.use_after_free st.thread ∈ (free_children k l).trace := by
  induction l with
  | nil => intro k he; simp at he
  | cons a as ih =>
    intro k he hst hdead
    by_cases hae : a = e
    · rw [free_children, hae, hst]
      simp only [hdead]
      apply free_children_trace_mem
      simp [Kernel.emit, Kernel.set_heap]
    · have hmem : e ∈ as := by
        rcases List.mem_cons.mp he with h | h
        · exact absurd h.symm hae
        · exact h
      have hea : e ≠ a := fun h => hae h.symm
      rw [free_children]
      split
      · exact ih _ hmem hst hdead
      · rename_i sa hsa
        apply ih _ hmem
        · cases hth : k.threads sa.thread <;>
            simp [Kernel.emit, Kernel.set_heap, Kernel.set_thread, hea, hst]
        · cases hth : k.threads sa.thread with
          | none => simp [Kernel.emit, Kernel.set_heap, hdead]
          | some child =>
            have hne : st.thread ≠ sa.thread := by
              intro h
              rw [h, hth] at hdead
              simp at hdead
            simp [Kernel.emit, Kernel.set_heap, Kernel.set_thread, hne, hdead]

/-- C21, what the code does: when the child list of the exiting thread holds an entry whose
child thread is gone, `process_exit` stores through the thread pointer of the entry all the
same, which the trace records as `use_after_free` of the address of the child. -/
theorem process_exit_dead_child (k : Kernel) (cur : Nat) (t : thread) (e : Nat)
    (st : exit_status) (ht : k.threads cur = some t) (he : e ∈ t.child_list)
    (hst : k.heap e = some st) (hdead : k.threads st.thread = none) :
    Event.use_after_free st.thread ∈ (process_exit k cur).trace := by
  unfold process_exit
  rw [ht]
  have h1 := free_children_dead_child t.child_list e st (k.emit (Event.lock_acquire cur)) he
    hst hdead
  simp only
  generalize free_children (k.emit (Event.lock_acquire cur)) t.child_list = k1 at h1 ⊢
  split
  · exact h1
  · rename_i t1 ht1
    cases hx : t1.exec_file <;> cases hu : t1.is_user <;> cases hp : t1.exit_status <;>
      simp only [Kernel.emit, Kernel.set_heap, Kernel.set_thread, if_true, if_false,
        Bool.false_eq_true] <;>
      (try split) <;> simp [h1]

/-- C21 at a child that exits and is never waited for: after the exit of the child at
address 1 of `fresh_kernel`, its thread is gone and the entry 100 of its parent still points
to it; the exit of the parent at address 2 then stores through that pointer before it frees
the entry. -/
theorem process_exit_dead_child_witness :
    (run fresh_kernel [Step.exit 1]).threads 2
      = some ⟨1, [109, 97, 105, 110], 0, false, none, [100], none⟩ ∧
    (run fresh_kernel [Step.exit 1]).heap 100 = some ⟨3, -1, 1, 1⟩ ∧
    (run fresh_kernel [Step.exit 1]).threads 1 = none ∧
    Event.use_after_free 1 ∈ (process_exit (run fresh_kernel [Step.exit 1]) 2).trace ∧
    (process_exit (run fresh_kernel [Step.exit 1]) 2).trace
      = [Event.lock_acquire 1, Event.lock_release 1, Event.sema_up 100,
         Event.lock_acquire 2, Event.use_after_free 1, Event.free 100,
         Event.lock_release 2] :=
  ⟨rfl, rfl, rfl,
    process_exit_dead_child (run fresh_kernel [Step.exit 1]) 2
      ⟨1, [109, 97, 105, 110], 0, false, none, [100], none⟩ 100 ⟨3, -1, 1, 1⟩ rfl
      (by decide) rfl rfl,
    by decide⟩

end Pintos
